import Mathlib

/-!
Verification of the `maps` package of github.com/ansel1/vespucci (v4).

The Go package manipulates dynamically-typed values (`interface{}`): JSON-like
trees of `map[string]interface{}`, `[]interface{}`, strings, `float64`, bools,
nil, plus `time.Time` and arbitrary other Go values that are coerced by a JSON
marshal/unmarshal round trip.  This file gives a shallow embedding of that
value universe and of the package operations `normalize`, `Normalize`,
`Contains`, `ContainsMatch`, `Equivalent`, `EquivalentMatch`, `Merge`,
`Conflicts`, `Transform` and `compareTimes`, and proves or refutes the frozen
claims about them.

Modelling conventions:
  * Go `float64` payloads are modelled as `Int` (the claims under study only
    ever copy, widen and compare numbers for equality; IEEE rounding, NaN and
    infinities are out of scope of the embedding).
  * Go map iteration order is unspecified; maps are modelled as association
    lists in a fixed order.  The Boolean results of the package are
    independent of iteration order, the diagnostic message for a mismatch is
    the one reached by the list order.
  * `*time.Location` values are compared by pointer in the source
    (`tm1.Location() != tm2.Location()`).  A location is modelled as a record
    of zone name, UTC offset and an allocation identity `allocId`, so that two
    distinct location objects with the same name and offset (for example two
    separately allocated `time.FixedZone` results) are distinct values, as the
    pointers are in Go.
-/

/-- Model of Go `*time.Location`: zone name, offset in seconds east of UTC,
and an allocation identity modelling pointer identity of the `*Location`. -/
structure Location where
  name : String
  offset : Int
  allocId : Nat
deriving DecidableEq, Repr

/-- The shared `time.UTC` location. -/
def Location.utc : Location := ⟨"UTC", 0, 0⟩

/-- Model of Go `time.Time`: an absolute instant measured in nanoseconds since
the Go zero time (January 1, year 1), together with its location.  Go `==` on
`time.Time` compares the instant fields and the location pointer, which is
structural equality of this record. -/
structure GoTime where
  abs : Int
  loc : Location
deriving DecidableEq, Repr

/-- Model of `time.Time.IsZero`: the instant is the zero time (the location is
not inspected). -/
def GoTime.isZero (t : GoTime) : Bool := t.abs == 0

/-- Model of `time.Time.Truncate d` for `d > 0`: round down to a multiple of
`d` since the zero time.  For `d ≤ 0` Go returns the time unchanged.  Go
computes a remainder `r` with `0 ≤ r < d`, which is `Int.emod` here. -/
def GoTime.truncate (t : GoTime) (d : Int) : GoTime :=
  if d ≤ 0 then t else { t with abs := t.abs - t.abs % d }

/-- Model of `time.Time.Round d` for `d > 0`: round to the nearest multiple of
`d` since the zero time, half values rounding up.  For `d ≤ 0` Go returns the
time unchanged. -/
def GoTime.round (t : GoTime) (d : Int) : GoTime :=
  if d ≤ 0 then t
  else
    let r := t.abs % d
    if r + r < d then { t with abs := t.abs - r } else { t with abs := t.abs - r + d }

/-- The `time.Duration` range limits: Go durations are int64 nanoseconds. -/
def maxDuration : Int := 2 ^ 63 - 1

def minDuration : Int := -(2 ^ 63)

/-- Model of `time.Time.Sub`: the difference of the instants as a
`time.Duration` in nanoseconds; when the true difference does not fit in an
int64 the maximum (or minimum) duration is returned, as `Sub` documents. -/
def GoTime.sub (t1 t2 : GoTime) : Int :=
  let d := t1.abs - t2.abs
  if d > maxDuration then maxDuration
  else if d < minDuration then minDuration
  else d

/-- The `if delta < 0 { delta *= -1 }` step of `compareTimes` on int64
durations: negation wraps at `minDuration` (two's-complement negation of the
most negative int64 overflows back to itself), so that duration stays
negative. -/
def goDurAbs (d : Int) : Int :=
  if d < 0 then (if d = minDuration then minDuration else -d) else d

/-- Abstraction of `time.Time.String` (only used inside diagnostic
messages). -/
def GoTime.string (t : GoTime) : String :=
  "time " ++ toString t.abs ++ "ns @" ++ t.loc.name

/-- Model of the JSON trees produced by `json.Unmarshal` into `interface{}`:
the payload type of values that expose custom JSON marshalling.  Numbers are
modelled exactly (see the file header). -/
inductive Json where
  | null
  | bool (b : Bool)
  | num (x : Int)
  | str (s : String)
  | obj (l : List (String × Json))
  | arr (l : List Json)

/-- Model of a Go dynamic value (`interface{}`) as the package sees it.

  * `vnull`, `vbool`, `vnum` (a `float64`), `vstr`, `vmap`
    (`map[string]interface{}`), `vslice` (`[]interface{}`) are the canonical
    shapes.
  * `vnan` is a `float64` NaN: `normalize` passes it through unchanged and
    every Go `==` comparison involving it is false, itself included.
  * `vint` stands for any other Go numeric primitive (`int`, `int8` …
    `uint64`, `float32`); `normalize` widens it to `float64`.
  * `vtime` is a `time.Time` value.
  * `vmapOther` is a string-keyed map of a non-canonical Go type (for example
    `map[string]string`); `vsliceOther` a slice of a non-canonical type.
    `normalize` copies their entries via reflection.
  * `vmarshaler` is any other value that serializes successfully: its field is
    the JSON tree that `json.Marshal` followed by `json.Unmarshal` produces.
  * `vfunc` is a value whose JSON serialization fails (a func, channel, or a
    failing custom marshaler); its field is the error message. -/
inductive GoVal where
  | vnull
  | vbool (b : Bool)
  | vnum (x : Int)
  | vnan
  | vint (n : Int)
  | vstr (s : String)
  | vtime (tm : GoTime)
  | vmap (l : List (String × GoVal))
  | vslice (l : List GoVal)
  | vmapOther (l : List (String × GoVal))
  | vsliceOther (l : List GoVal)
  | vmarshaler (j : Json)
  | vfunc (emsg : String)

mutual

/-- Structural equality on `Json` (decidable equality helper). -/
def jeq : Json → Json → Bool
  | .null, .null => true
  | .bool a, .bool b => a == b
  | .num a, .num b => a == b
  | .str a, .str b => a == b
  | .obj a, .obj b => jeqEntries a b
  | .arr a, .arr b => jeqArr a b
  | _, _ => false

def jeqEntries : List (String × Json) → List (String × Json) → Bool
  | [], [] => true
  | (k1, v1) :: t1, (k2, v2) :: t2 => k1 == k2 && jeq v1 v2 && jeqEntries t1 t2
  | _, _ => false

def jeqArr : List Json → List Json → Bool
  | [], [] => true
  | v1 :: t1, v2 :: t2 => jeq v1 v2 && jeqArr t1 t2
  | _, _ => false

end

mutual

theorem jeq_iff : ∀ a b : Json, jeq a b = true ↔ a = b
  | .null, b => by cases b <;> simp [jeq]
  | .bool x, b => by cases b <;> simp [jeq]
  | .num x, b => by cases b <;> simp [jeq]
  | .str x, b => by cases b <;> simp [jeq]
  | .obj l, b => by
      cases b <;> simp [jeq]
      exact jeqEntries_iff l _
  | .arr l, b => by
      cases b <;> simp [jeq]
      exact jeqArr_iff l _

theorem jeqEntries_iff : ∀ a b : List (String × Json), jeqEntries a b = true ↔ a = b
  | [], b => by cases b <;> simp [jeqEntries]
  | (k1, v1) :: t1, b => by
      cases b with
      | nil => simp [jeqEntries]
      | cons h t =>
        obtain ⟨k2, v2⟩ := h
        simp [jeqEntries, jeq_iff v1 v2, jeqEntries_iff t1 t, and_assoc]

theorem jeqArr_iff : ∀ a b : List Json, jeqArr a b = true ↔ a = b
  | [], b => by cases b <;> simp [jeqArr]
  | v1 :: t1, b => by
      cases b with
      | nil => simp [jeqArr]
      | cons h t => simp [jeqArr, jeq_iff v1 h, jeqArr_iff t1 t]

end

instance : DecidableEq Json := fun a b => decidable_of_iff (jeq a b = true) (jeq_iff a b)

mutual

/-- Structural equality on Go values (maps are canonical ordered lists here,
see the file header).  `vnan` equals itself structurally, giving the model
decidable equality; `reflect.DeepEqual`, which compares floats with `==` and
therefore treats NaN as unequal to everything, is `deepEq` below. -/
def geq : GoVal → GoVal → Bool
  | .vnull, .vnull => true
  | .vbool a, .vbool b => a == b
  | .vnum a, .vnum b => a == b
  | .vnan, .vnan => true
  | .vint a, .vint b => a == b
  | .vstr a, .vstr b => a == b
  | .vtime a, .vtime b => a == b
  | .vmap a, .vmap b => geqEntries a b
  | .vslice a, .vslice b => geqList a b
  | .vmapOther a, .vmapOther b => geqEntries a b
  | .vsliceOther a, .vsliceOther b => geqList a b
  | .vmarshaler a, .vmarshaler b => a == b
  | .vfunc a, .vfunc b => a == b
  | _, _ => false

def geqEntries : List (String × GoVal) → List (String × GoVal) → Bool
  | [], [] => true
  | (k1, v1) :: t1, (k2, v2) :: t2 => k1 == k2 && geq v1 v2 && geqEntries t1 t2
  | _, _ => false

def geqList : List GoVal → List GoVal → Bool
  | [], [] => true
  | v1 :: t1, v2 :: t2 => geq v1 v2 && geqList t1 t2
  | _, _ => false

end

mutual

theorem geq_iff : ∀ a b : GoVal, geq a b = true ↔ a = b
  | .vnull, b => by cases b <;> simp [geq]
  | .vbool x, b => by cases b <;> simp [geq]
  | .vnum x, b => by cases b <;> simp [geq]
  | .vnan, b => by cases b <;> simp [geq]
  | .vint x, b => by cases b <;> simp [geq]
  | .vstr x, b => by cases b <;> simp [geq]
  | .vtime x, b => by cases b <;> simp [geq]
  | .vmap l, b => by
      cases b <;> simp [geq]
      exact geqEntries_iff l _
  | .vslice l, b => by
      cases b <;> simp [geq]
      exact geqList_iff l _
  | .vmapOther l, b => by
      cases b <;> simp [geq]
      exact geqEntries_iff l _
  | .vsliceOther l, b => by
      cases b <;> simp [geq]
      exact geqList_iff l _
  | .vmarshaler x, b => by cases b <;> simp [geq]
  | .vfunc x, b => by cases b <;> simp [geq]

theorem geqEntries_iff : ∀ a b : List (String × GoVal), geqEntries a b = true ↔ a = b
  | [], b => by cases b <;> simp [geqEntries]
  | (k1, v1) :: t1, b => by
      cases b with
      | nil => simp [geqEntries]
      | cons h t =>
        obtain ⟨k2, v2⟩ := h
        simp [geqEntries, geq_iff v1 v2, geqEntries_iff t1 t, and_assoc]

theorem geqList_iff : ∀ a b : List GoVal, geqList a b = true ↔ a = b
  | [], b => by cases b <;> simp [geqList]
  | v1 :: t1, b => by
      cases b with
      | nil => simp [geqList]
      | cons h t => simp [geqList, geq_iff v1 h, geqList_iff t1 t]

end

instance : DecidableEq GoVal := fun a b => decidable_of_iff (geq a b = true) (geq_iff a b)

mutual

/-- Size measure on `Json`, used for the fuel bounds of the comparison
recursion. -/
def jsize : Json → Nat
  | .null => 1
  | .bool _ => 1
  | .num _ => 1
  | .str _ => 1
  | .obj l => 1 + jsizeEntries l
  | .arr l => 1 + jsizeArr l

def jsizeEntries : List (String × Json) → Nat
  | [] => 0
  | (_, v) :: rest => 1 + jsize v + jsizeEntries rest

def jsizeArr : List Json → Nat
  | [] => 0
  | v :: rest => 1 + jsize v + jsizeArr rest

end

mutual

/-- Size measure on Go values.  Chosen so that normalization does not increase
the size: the size of `vmarshaler j` strictly dominates the size of the value
that its JSON round-trip decodes to. -/
def gsize : GoVal → Nat
  | .vnull => 1
  | .vbool _ => 1
  | .vnum _ => 1
  | .vnan => 1
  | .vint _ => 1
  | .vstr _ => 1
  | .vtime _ => 1
  | .vmap l => 1 + gsizeEntries l
  | .vslice l => 1 + gsizeList l
  | .vmapOther l => 1 + gsizeEntries l
  | .vsliceOther l => 1 + gsizeList l
  | .vmarshaler j => 1 + jsize j
  | .vfunc _ => 1

def gsizeEntries : List (String × GoVal) → Nat
  | [] => 0
  | (_, v) :: rest => 1 + gsize v + gsizeEntries rest

def gsizeList : List GoVal → Nat
  | [] => 0
  | v :: rest => 1 + gsize v + gsizeList rest

end

/-- Keys of an association list. -/
def entryKeys (l : List (String × GoVal)) : List String := l.map Prod.fst

/-- Duplicate-freedom of the keys of an association list, as a Boolean. -/
def noDupKeys : List (String × GoVal) → Bool
  | [] => true
  | (k, _) :: rest => !(rest.any (fun e => e.1 == k)) && noDupKeys rest

/-- Duplicate-freedom of the keys of a JSON object entry list. -/
def jnoDupKeys : List (String × Json) → Bool
  | [] => true
  | (k, _) :: rest => !(rest.any (fun e => e.1 == k)) && jnoDupKeys rest

mutual

/-- Well-formedness of a JSON tree: object keys are duplicate-free at every
level.  `json.Unmarshal` guarantees this for the trees the Go code builds. -/
def jwf : Json → Bool
  | .null => true
  | .bool _ => true
  | .num _ => true
  | .str _ => true
  | .obj l => jnoDupKeys l && jwfEntries l
  | .arr l => jwfArr l

def jwfEntries : List (String × Json) → Bool
  | [] => true
  | (_, v) :: rest => jwf v && jwfEntries rest

def jwfArr : List Json → Bool
  | [] => true
  | v :: rest => jwf v && jwfArr rest

end

mutual

/-- Well-formedness of a Go value: every map (canonical or reflective) has
duplicate-free keys, recursively, and marshaler payloads are well-formed.  Go
maps cannot hold duplicate keys, so every value the Go code manipulates is
well-formed; the association-list embedding has to state it. -/
def gwf : GoVal → Bool
  | .vnull => true
  | .vbool _ => true
  | .vnum _ => true
  | .vnan => true
  | .vint _ => true
  | .vstr _ => true
  | .vtime _ => true
  | .vmap l => noDupKeys l && gwfEntries l
  | .vslice l => gwfList l
  | .vmapOther l => noDupKeys l && gwfEntries l
  | .vsliceOther l => gwfList l
  | .vmarshaler j => jwf j
  | .vfunc _ => true

def gwfEntries : List (String × GoVal) → Bool
  | [] => true
  | (_, v) :: rest => gwf v && gwfEntries rest

def gwfList : List GoVal → Bool
  | [] => true
  | v :: rest => gwf v && gwfList rest

end

mutual

/-- No NaN float anywhere in the value.  (JSON trees cannot encode NaN, so a
marshaler payload is always NaN-free.) -/
def nanFreeB : GoVal → Bool
  | .vnan => false
  | .vmap l => nanFreeEntries l
  | .vmapOther l => nanFreeEntries l
  | .vslice l => nanFreeList l
  | .vsliceOther l => nanFreeList l
  | _ => true

def nanFreeEntries : List (String × GoVal) → Bool
  | [] => true
  | (_, v) :: rest => nanFreeB v && nanFreeEntries rest

def nanFreeList : List GoVal → Bool
  | [] => true
  | v :: rest => nanFreeB v && nanFreeList rest

end

/-- Model of `reflect.DeepEqual`: structural equality except on floats, which
DeepEqual compares with `==`, so a value containing a NaN is unequal to
everything, itself included.  (The pointer fast paths of DeepEqual have no
counterpart in a value model.) -/
def deepEq (a b : GoVal) : Bool := geq a b && nanFreeB a

/-- Looking up a key in an association-list map, as Go `m[key]` with its
presence flag.  Returns the first binding (unique when keys are
duplicate-free). -/
def lookupKey (l : List (String × GoVal)) (k : String) : Option GoVal :=
  match l with
  | [] => none
  | (k1, v) :: rest => if k1 == k then some v else lookupKey rest k

/-- Go map assignment `m[k] = v` on the association-list model: replace the
existing binding in place, otherwise append. -/
def setEntry : List (String × GoVal) → String → GoVal → List (String × GoVal)
  | [], k, v => [(k, v)]
  | (k1, v1) :: rest, k, v =>
    if k1 == k then (k, v) :: rest else (k1, v1) :: setEntry rest k v

/-- Model of the `NormalizeOptions` struct. -/
structure NormalizeOptions where
  copy : Bool := false
  marshal : Bool := false
  deep : Bool := false
  preserveTime : Bool := false
  parseTime : Bool := false
deriving Repr, DecidableEq

/-- A `NormalizeOption` is applied to a `NormalizeOptions` struct; the
function models both the interface and its `Apply` method. -/
def NormalizeOption := NormalizeOptions → NormalizeOptions

/-- The `Copy` option. -/
def Copy (b : Bool) : NormalizeOption := fun o => { o with copy := b }

/-- The `Marshal` option. -/
def Marshal (b : Bool) : NormalizeOption := fun o => { o with marshal := b }

/-- The `Deep` option. -/
def Deep (b : Bool) : NormalizeOption := fun o => { o with deep := b }

/-- The `PreserveTime` option. -/
def PreserveTime (b : Bool) : NormalizeOption := fun o => { o with preserveTime := b }

/-- The `ParseTime` option. -/
def ParseTime (b : Bool) : NormalizeOption := fun o => { o with parseTime := b }

/-- Applying a list of options to a starting option struct, as the Go
variadic loops do. -/
def applyNormOptions (base : NormalizeOptions) (opts : List NormalizeOption) :
    NormalizeOptions :=
  opts.foldl (fun o f => f o) base

/-- Abstraction of `time.Time.MarshalJSON` (the RFC 3339 text of the time):
what `slowNormalize` turns a `time.Time` into.  The exact text is irrelevant
to the claims; the function is injective on the model so that distinct times
stay distinct. -/
def goTimeRFC (t : GoTime) : String :=
  "rfc3339:" ++ toString t.abs ++ "@" ++ t.loc.name ++ "/" ++ toString t.loc.offset
    ++ "/" ++ toString t.loc.allocId

/-- Abstraction of `time.Parse(time.RFC3339Nano, s)` used by the `ParseTime`
branch of `normalize`.  None of the claims under verification enables
`ParseTime` on a string input (the time-option claims are settled on
`time.Time` inputs directly, and the remaining claims run with no options),
so the stdlib parser is modelled as never succeeding; `normalize` never
fails through this branch in the source either (a parse failure just leaves
the string alone). -/
def goTimeParse (_ : String) : Option GoTime := none

mutual

/-- Conversion of a decoded JSON tree into the canonical Go value shapes:
what `json.Unmarshal` into `interface{}` yields. -/
def jsonToVal : Json → GoVal
  | .null => .vnull
  | .bool b => .vbool b
  | .num x => .vnum x
  | .str s => .vstr s
  | .obj l => .vmap (jsonToValEntries l)
  | .arr l => .vslice (jsonToValArr l)

def jsonToValEntries : List (String × Json) → List (String × GoVal)
  | [] => []
  | (k, j) :: rest => (k, jsonToVal j) :: jsonToValEntries rest

def jsonToValArr : List Json → List GoVal
  | [] => []
  | j :: rest => jsonToVal j :: jsonToValArr rest

end

/-- Model of `slowNormalize`: marshal the value to JSON and unmarshal into
`interface{}`.  A `vmarshaler` carries the decoded tree directly; a `vfunc`
is the value whose serialization fails; a `time.Time` marshals to its
RFC 3339 string.  On error Go returns `(nil, err)`. -/
def slowNormalize : GoVal → GoVal × Option String
  | .vmarshaler j => (jsonToVal j, none)
  | .vfunc emsg => (.vnull, some emsg)
  | .vtime t => (.vstr (goTimeRFC t), none)
  | v => (v, none)

mutual

/-- Model of the internal `normalize` function (the heart of the package);
named `normalizeVal` because Mathlib already claims the name `normalize`.
Returns the Go pair `(v2, err)`; on an error the first component is the
partially-built value Go would return (callers either check the error or
deliberately ignore it).

Structure mirrors the source: the `PreserveTime` pre-switch, the main type
switch (primitives pass, numerics widen to `float64`, canonical containers
fall through, everything else goes through `json.Marshaler` detection,
reflective map/slice copying, or the marshal round trip), then the tail that
copies and/or recurses into containers when `deep` or `copy` requires it. -/
def normalizeVal (o : NormalizeOptions) (v : GoVal) : GoVal × Option String :=
  match v with
  | .vtime t =>
    if o.preserveTime then (.vtime t, none)
    else if o.marshal then slowNormalize (.vtime t)
    else (.vtime t, none)
  | .vstr s =>
    if o.preserveTime && o.parseTime then
      match goTimeParse s with
      | some tm => (.vtime tm, none)
      | none => (.vstr s, none)
    else (.vstr s, none)
  | .vnull => (.vnull, none)
  | .vbool b => (.vbool b, none)
  | .vnum x => (.vnum x, none)
  | .vnan => (.vnan, none)
  | .vint n => (.vnum n, none)
  | .vmap l =>
    if !o.copy && !o.deep then (.vmap l, none)
    else
      -- `copied` is false here, so the tail runs with a fresh container
      -- when `copy` is set, else in place.
      if o.deep then
        let (pre, e) := normEntries o l
        match e with
        | none => (.vmap pre, none)
        | some err =>
          if o.copy then (.vmap pre, some err)
          else (.vmap (pre ++ l.drop pre.length), some err)
      else (.vmap l, none)
  | .vslice l =>
    if !o.copy && !o.deep then (.vslice l, none)
    else
      if o.deep then
        let (pre, e) := normList o l
        match e with
        | none => (.vslice pre, none)
        | some err =>
          if o.copy then (.vslice pre, some err)
          else (.vslice (pre ++ l.drop pre.length), some err)
      else (.vslice l, none)
  | .vmapOther l =>
    -- reflective copy into a fresh map[string]interface{} (`copied = true`),
    -- then the tail recurses only when `deep` is set, in place on the fresh
    -- copy, so a failing child leaves the raw suffix in the result.
    if o.deep then
      let (pre, e) := normEntries o l
      match e with
      | none => (.vmap pre, none)
      | some err => (.vmap (pre ++ l.drop pre.length), some err)
    else (.vmap l, none)
  | .vsliceOther l =>
    if o.deep then
      let (pre, e) := normList o l
      match e with
      | none => (.vslice pre, none)
      | some err => (.vslice (pre ++ l.drop pre.length), some err)
    else (.vslice l, none)
  | .vmarshaler j =>
    if o.marshal then slowNormalize (.vmarshaler j)
    else (.vmarshaler j, none)
  | .vfunc emsg =>
    if o.marshal then slowNormalize (.vfunc emsg)
    else (.vfunc emsg, none)

/-- Deep normalization of map entries, in order; stops at the first failing
entry, returning the successfully processed prefix. -/
def normEntries (o : NormalizeOptions) :
    List (String × GoVal) → List (String × GoVal) × Option String
  | [] => ([], none)
  | (k, v) :: rest =>
    let (nv, e) := normalizeVal o v
    match e with
    | some err => ([], some err)
    | none =>
      let (nrest, e2) := normEntries o rest
      ((k, nv) :: nrest, e2)

/-- Deep normalization of slice elements, in order; stops at the first
failing element. -/
def normList (o : NormalizeOptions) : List GoVal → List GoVal × Option String
  | [] => ([], none)
  | v :: rest =>
    let (nv, e) := normalizeVal o v
    match e with
    | some err => ([], some err)
    | none =>
      let (nrest, e2) := normList o rest
      (nv :: nrest, e2)

end

/-- Model of `NormalizeWithOptions`. -/
def NormalizeWithOptions (v : GoVal) (opt : NormalizeOptions) : GoVal × Option String :=
  normalizeVal opt v

/-- Model of the public `Normalize`: defaults are copy, marshal and deep all
enabled, then the caller options are applied. -/
def Normalize (v : GoVal) (opts : List NormalizeOption := []) : GoVal × Option String :=
  normalizeVal (applyNormOptions { copy := true, marshal := true, deep := true } opts) v

/-- Go interface equality `==` between dynamic values, where the source uses
it (primitive values and `time.Time`).  Values of different dynamic types
compare unequal; two values of the same uncomparable type (maps, slices)
would panic in Go — the source only reaches `==` with at least one operand a
comparable type, and the model returns `false` on those pairs. -/
def goIfaceEq : GoVal → GoVal → Bool
  | .vnull, .vnull => true
  | .vbool a, .vbool b => a == b
  | .vnum a, .vnum b => a == b
  | .vint a, .vint b => a == b
  | .vstr a, .vstr b => a == b
  | .vtime a, .vtime b => a == b
  | _, _ => false

/-- Model of `sliceContains`: membership test used by the slice branch of
`merge`; primitives by Go `==`, everything else by `reflect.DeepEqual`. -/
def sliceContains (s : List GoVal) (v : GoVal) : Bool :=
  match v with
  | .vstr _ | .vnum _ | .vnan | .vbool _ | .vnull => s.any (fun value => goIfaceEq value v)
  | _ => s.any (fun value => deepEq v value)

mutual

/-- Model of the internal `merge`: maps merge key-by-key (the right side
winning and recursing), slices merge by appending right-side values not
already present among the left side's original elements, and any other
combination is overwritten by the right side.  (In Go the left map is
mutated in place; the model returns the resulting value.) -/
def mergeVals : GoVal → GoVal → GoVal
  | .vmap l1, .vmap l2 => .vmap (mergeEntries l1 l2)
  | .vslice l1, .vslice l2 =>
    .vslice (l1 ++ l2.filter (fun value => !sliceContains l1 value))
  | _, v2 => v2

/-- The map-merge loop `for key, value := range t2 { t1[key] = merge(t1[key], value) }`. -/
def mergeEntries (l1 : List (String × GoVal)) :
    List (String × GoVal) → List (String × GoVal)
  | [] => l1
  | (k, v) :: rest =>
    let cur := match lookupKey l1 k with
      | some x => x
      | none => .vnull
    mergeEntries (setEntry l1 k (mergeVals cur v)) rest

end

/-- Model of the public `Merge`: normalize both sides with copy, marshal and
deep enabled (errors deliberately ignored, as in the source), then merge. -/
def Merge (v1 v2 : GoVal) (opts : List NormalizeOption := []) : GoVal :=
  let o := applyNormOptions { copy := true, marshal := true, deep := true } opts
  mergeVals (normalizeVal o v1).1 (normalizeVal o v2).1

/-- An apostrophe character, spelled via its code point for use inside
diagnostic message literals. -/
def apos : String := (Char.ofNat 39).toString

/-- Abstraction of the `%v` rendering of a `time.Duration` inside diagnostic
messages. -/
def durString (d : Int) : String := toString d ++ "ns"

mutual

/-- Abstraction of the `%#v` / `%+v` rendering of a Go value used inside
diagnostic messages (the exact text of `fmt` is not reproduced; no claim
depends on it). -/
def reprGo : GoVal → String
  | .vnull => "<nil>"
  | .vbool b => if b then "true" else "false"
  | .vnum x => toString x
  | .vnan => "NaN"
  | .vint n => toString n
  | .vstr s => "\"" ++ s ++ "\""
  | .vtime tm => tm.string
  | .vmap l => "map[" ++ reprGoEntries l ++ "]"
  | .vslice l => "[" ++ reprGoList l ++ "]"
  | .vmapOther l => "othermap[" ++ reprGoEntries l ++ "]"
  | .vsliceOther l => "otherslice[" ++ reprGoList l ++ "]"
  | .vmarshaler _ => "marshaler"
  | .vfunc _ => "func"

def reprGoEntries : List (String × GoVal) → String
  | [] => ""
  | (k, v) :: rest => k ++ ":" ++ reprGo v ++ " " ++ reprGoEntries rest

def reprGoList : List GoVal → String
  | [] => ""
  | v :: rest => reprGo v ++ " " ++ reprGoList rest

end

/-- Space-separated concatenation of strings (helper for `reprStrings`). -/
def joinSpaced : List String → String
  | [] => ""
  | [s] => s
  | s :: rest => s ++ " " ++ joinSpaced rest

/-- Rendering of a `[]string` with `%v`, as in the extra-keys messages. -/
def reprStrings (l : List String) : String :=
  "[" ++ joinSpaced l ++ "]"

/-- Insertion into a sorted list of strings (helper for `sortStrings`). -/
def insertSorted (x : String) : List String → List String
  | [] => [x]
  | y :: rest => if decide (x ≤ y) then x :: y :: rest else y :: insertSorted x rest

/-- Model of `sort.Strings`: ascending lexicographic order. -/
def sortStrings (l : List String) : List String :=
  l.foldr insertSorted []

/-- Character-list infix test (helper for `strContains`). -/
def charsInfixOf (sub : List Char) : List Char → Bool
  | [] => sub.isEmpty
  | c :: rest => sub.isPrefixOf (c :: rest) || charsInfixOf sub rest

/-- Model of `strings.Contains s sub`. -/
def strContains (s sub : String) : Bool :=
  charsInfixOf sub.toList s.toList

/-- The mutable part of the comparison context `containsCtx`: the trace
fields that `traceMsg` assigns.  (The `trace *string` output pointer of the
`Trace` option is omitted; the string it would receive is exactly
`mismatchMsg`.) -/
structure CtxState where
  v1 : GoVal := .vnull
  v2 : GoVal := .vnull
  eventPath : String := ""
  path : List String := []
  mismatchMsg : String := ""
  err : Option String := none
deriving DecidableEq

/-- The immutable part of the comparison context: the `ContainsOption`
fields, the embedded `NormalizeOptions`, and the `equiv` flag. -/
structure containsOptions where
  stringContains : Bool := false
  matchEmptyValues : Bool := false
  parseTimes : Bool := false
  roundTimes : Int := 0
  truncateTimes : Int := 0
  timeDelta : Int := 0
  ignoreTimeZone : Bool := false
deriving DecidableEq

/-- A `ContainsOption` mutates the option struct, as the Go closures do. -/
def ContainsOption := containsOptions → containsOptions

/-- `EmptyValuesMatchAny` option. -/
def EmptyValuesMatchAny : ContainsOption := fun o => { o with matchEmptyValues := true }

/-- `EmptyMapValuesMatchAny` is an alias for `EmptyValuesMatchAny`. -/
def EmptyMapValuesMatchAny : ContainsOption := EmptyValuesMatchAny

/-- `ParseTimes` option. -/
def ParseTimes : ContainsOption := fun o => { o with parseTimes := true }

/-- `AllowTimeDelta` option (implies `ParseTimes`). -/
def AllowTimeDelta (d : Int) : ContainsOption :=
  fun o => { o with parseTimes := true, timeDelta := d }

/-- `TruncateTimes` option (implies `ParseTimes`). -/
def TruncateTimes (d : Int) : ContainsOption :=
  fun o => { o with parseTimes := true, truncateTimes := d }

/-- `RoundTimes` option (implies `ParseTimes`). -/
def RoundTimes (d : Int) : ContainsOption :=
  fun o => { o with parseTimes := true, roundTimes := d }

/-- `IgnoreTimeZones` option (implies `ParseTimes`). -/
def IgnoreTimeZones (b : Bool) : ContainsOption :=
  fun o => { o with parseTimes := true, ignoreTimeZone := b }

/-- `StringContains` option. -/
def StringContains : ContainsOption := fun o => { o with stringContains := true }

/-- The comparison context (options plus normalization settings plus the
`equiv` flag); the mutable fields live in `CtxState`. -/
structure containsCtx where
  copts : containsOptions
  nopts : NormalizeOptions
  equiv : Bool := false

/-- Character-list engine of `strReplaceAll`; the `Nat` argument is fuel,
always instantiated with the length of the subject list. -/
def replaceChars (pat rep : List Char) : Nat → List Char → List Char
  | 0, l => l
  | _ + 1, [] => []
  | f + 1, c :: rest =>
    if pat.isPrefixOf (c :: rest) then
      rep ++ replaceChars pat rep f ((c :: rest).drop pat.length)
    else c :: replaceChars pat rep f rest

/-- Model of `strings.ReplaceAll` (for the nonempty patterns the source
uses). -/
def strReplaceAll (s pat rep : String) : String :=
  if pat.toList.isEmpty then s
  else (replaceChars pat.toList rep.toList s.toList.length s.toList).asString

/-- Model of `strings.TrimPrefix s "."`. -/
def trimDotPrefix (s : String) : String :=
  if ".".toList.isPrefixOf s.toList then (s.toList.drop 1).asString else s

/-- Model of `containsCtx.traceMsg`: join the current path, interpolate it
for `v1`/`v2` inside the message, record the offending pair, and format the
mismatch message. -/
def traceMsg (t : CtxState) (msg : String) (w1 w2 : GoVal) : CtxState :=
  let ep := String.join t.path
  let path1 := "v1" ++ ep
  let path2 := "v2" ++ ep
  let epTrim := trimDotPrefix ep
  let m := strReplaceAll (strReplaceAll msg "v1" path1) "v2" path2
  { t with
    eventPath := epTrim
    v1 := w1
    v2 := w2
    mismatchMsg :=
      m ++ "\n" ++ path1 ++ " -> " ++ reprGo w1 ++ "\n" ++ path2 ++ " -> " ++ reprGo w2 }

/-- Model of `containsCtx.traceNotEqual`. -/
def traceNotEqual (t : CtxState) (w1 w2 : GoVal) : CtxState :=
  traceMsg t "values are not equal" w1 w2

/-- Model of `compareTimes`: the empty-value wildcard, truncation, rounding,
the absolute-delta tolerance check, and the location check (skipped by
`IgnoreTimeZones`). -/
def compareTimes (tm1 tm2 : GoTime) (c : containsCtx) (t : CtxState) : Bool × CtxState :=
  if c.copts.matchEmptyValues && tm2.isZero then (true, t)
  else
    let u1 := if c.copts.truncateTimes > 0 then tm1.truncate c.copts.truncateTimes else tm1
    let u2 := if c.copts.truncateTimes > 0 then tm2.truncate c.copts.truncateTimes else tm2
    let w1 := if c.copts.roundTimes > 0 then u1.round c.copts.roundTimes else u1
    let w2 := if c.copts.roundTimes > 0 then u2.round c.copts.roundTimes else u2
    let delta := goDurAbs (w1.sub w2)
    if delta > c.copts.timeDelta then
      if c.copts.timeDelta > 0 then
        (false, traceMsg t
          ("delta of " ++ durString delta ++ " exceeds " ++ durString c.copts.timeDelta)
          (.vstr w1.string) (.vstr w2.string))
      else
        (false, traceNotEqual t (.vstr w1.string) (.vstr w2.string))
    else if c.copts.ignoreTimeZone then (true, t)
    else if w1.loc ≠ w2.loc then
      (false, traceMsg t ("time zone offsets don" ++ apos ++ "t match")
        (.vstr w1.string) (.vstr w2.string))
    else (true, t)

/-- The type of the recursive comparison callback: `contains` at one less
fuel.  The scan helpers below are written generically over it. -/
abbrev RecFn := GoVal → GoVal → CtxState → Bool × CtxState

/-- Model of `dive`: push a path token, recurse, restore the path. -/
def dive (rec : RecFn) (p : String) (v1 v2 : GoVal) (t : CtxState) : Bool × CtxState :=
  let r := rec v1 v2 { t with path := t.path ++ [p] }
  (r.1, { r.2 with path := t.path })

/-- The map loop of `containsNormalized`: walk the entries of `v2`, diving
into present keys (stopping at the first failed dive, result `none`) and
collecting the keys missing from `v1` in iteration order. -/
def mapScan (rec : RecFn) (l1 : List (String × GoVal)) (t : CtxState) :
    List (String × GoVal) → Option (List String) × CtxState
  | [] => (some [], t)
  | (k, val2) :: rest =>
    match lookupKey l1 k with
    | none =>
      let r := mapScan rec l1 t rest
      (r.1.map (fun ks => k :: ks), r.2)
    | some val1 =>
      let d := dive rec ("." ++ k) val1 val2 t
      if d.1 then mapScan rec l1 d.2 rest
      else (none, d.2)

/-- The extra-keys collection of equivalence mode: keys of `l1` missing from
`l2`, in `l1` iteration order. -/
def extraKeysOf (l1 l2 : List (String × GoVal)) : List String :=
  (l1.filter (fun e => (lookupKey l2 e.1).isNone)).map Prod.fst

/-- The slice-versus-scalar loop: does some element of the slice contain
`v2`? -/
def sliceScanScalar (rec : RecFn) (v2 : GoVal) (t : CtxState) :
    List GoVal → Bool × CtxState
  | [] => (false, t)
  | el1 :: rest =>
    let r := rec el1 v2 t
    if r.1 then (true, r.2) else sliceScanScalar rec v2 r.2 rest

/-- The inner scan of `Searchv2`: the first index of `l1` (starting at `i1`)
whose element contains `val2`. -/
def sliceFind (rec : RecFn) (val2 : GoVal) (t : CtxState) :
    Nat → List GoVal → Option Nat × CtxState
  | _, [] => (none, t)
  | i1, value :: rest =>
    let r := rec value val2 t
    if r.1 then (some i1, r.2) else sliceFind rec val2 r.2 (i1 + 1) rest

/-- The `Searchv2` loop: every element of `v2` must be contained by some
element of `l1`; in equivalence mode the first matching `l1` index of each
element is collected (the `bits`/`bitmap` bookkeeping of the source). -/
def searchV2 (rec : RecFn) (l1 : List GoVal) (equiv : Bool) (vv1 vv2 : GoVal)
    (t : CtxState) : Nat → List GoVal → Option (List Nat) × CtxState
  | _, [] => (some [], t)
  | i, val2 :: rest =>
    match sliceFind rec val2 t 0 l1 with
    | (some i1, t2) =>
      let r := searchV2 rec l1 equiv vv1 vv2 t2 (i + 1) rest
      (if equiv then r.1.map (fun m => i1 :: m) else r.1, r.2)
    | (none, t2) =>
      (none, traceMsg t2
        ("v1 does not contain v2[" ++ toString i ++ "]: \"" ++ reprGo val2 ++ "\"")
        vv1 vv2)

/-- The inner scan of `Searchv1`: does some element of `l2` contain
`val1`? -/
def sliceAny (rec : RecFn) (val1 : GoVal) (t : CtxState) :
    List GoVal → Bool × CtxState
  | [] => (false, t)
  | val2 :: rest =>
    let r := rec val1 val2 t
    if r.1 then (true, r.2) else sliceAny rec val1 r.2 rest

/-- The `Searchv1` loop of equivalence mode: every element of `l1` not
already matched during `Searchv2` must be contained by some element of
`l2`. -/
def searchV1 (rec : RecFn) (l2 : List GoVal) (matched : List Nat)
    (vv1 vv2 : GoVal) (t : CtxState) : Nat → List GoVal → Bool × CtxState
  | _, [] => (true, t)
  | i, val1 :: rest =>
    if matched.contains i then searchV1 rec l2 matched vv1 vv2 t (i + 1) rest
    else
      let r := sliceAny rec val1 t l2
      if r.1 then searchV1 rec l2 matched vv1 vv2 r.2 (i + 1) rest
      else
        (false, traceMsg r.2
          ("v2 does not contain v1[" ++ toString i ++ "]:\"" ++ reprGo val1 ++ "\"")
          vv1 vv2)

/-- Model of the empty-value wildcard test
`reflect.DeepEqual(reflect.Zero(reflect.TypeOf(v1)).Interface(), v2)`.
Container and struct kinds have `nil`-container or composite zero values
that cannot match a normalized `v2` in this value model, so they yield
`false`. -/
def zeroValMatch (v1 v2 : GoVal) : Bool :=
  match v1 with
  | .vbool _ => v2 == .vbool false
  | .vnum _ => v2 == .vnum 0
  | .vnan => v2 == .vnum 0
  | .vint _ => v2 == .vint 0
  | .vstr _ => v2 == .vstr ""
  | .vtime _ => v2 == .vtime ⟨0, Location.utc⟩
  | _ => false

/-- Model of `containsNormalized`, the kind dispatch of the comparison,
written generically over the recursive callback `rec` (the fuelled
`contains` one level down). -/
def containsNormalizedF (rec : RecFn) (c : containsCtx) (v1 v2 : GoVal)
    (t : CtxState) : Bool × CtxState :=
  if c.copts.matchEmptyValues && v2 == GoVal.vnull then (true, t)
  else if c.copts.matchEmptyValues && v1 != GoVal.vnull && zeroValMatch v1 v2 then
    (true, t)
  else
    match v1 with
    | .vtime t1 =>
      if goIfaceEq v1 v2 then (true, t)
      else
        match v2 with
        | .vtime t2 => compareTimes t1 t2 c t
        | _ => (false, t)
    | .vstr s1 =>
      if goIfaceEq v1 v2 then (true, t)
      else
        match v2 with
        | .vstr s2 =>
          if c.copts.stringContains then
            if !strContains s1 s2 then
              (false, traceMsg t "v1 does not contain v2" v1 v2)
            else (true, t)
          else (false, t)
        | _ => (false, t)
    | .vbool _ => if !goIfaceEq v1 v2 then (false, t) else (true, t)
    | .vnull => if !goIfaceEq v1 v2 then (false, t) else (true, t)
    | .vnum _ => if !goIfaceEq v1 v2 then (false, t) else (true, t)
    | .vnan => if !goIfaceEq v1 v2 then (false, t) else (true, t)
    | .vmap l1 =>
      match v2 with
      | .vmap l2 =>
        match mapScan rec l1 t l2 with
        | (none, t2) => (false, t2)
        | (some extraKeys, t2) =>
          if extraKeys.length > 0 then
            (false, traceMsg t2
              ("v2 contains extra keys: " ++ reprStrings (sortStrings extraKeys)) v1 v2)
          else if c.equiv && l1.length > l2.length then
            let ek2 := extraKeysOf l1 l2
            if ek2.length > 0 then
              (false, traceMsg t2
                ("v1 contains extra keys: " ++ reprStrings (sortStrings ek2)) v1 v2)
            else (true, t2)
          else (true, t2)
      | _ => (false, t)
    | .vslice l1 =>
      match v2 with
      | .vslice l2 =>
        if c.equiv && l1.length != l2.length then
          (false, traceMsg t
            ("v1 len " ++ toString l1.length ++ " is not the same as v2 len "
              ++ toString l2.length) v1 v2)
        else
          match searchV2 rec l1 c.equiv v1 v2 t 0 l2 with
          | (none, t2) => (false, t2)
          | (some matched, t2) =>
            if c.equiv then searchV1 rec l2 matched v1 v2 t2 0 l1
            else (true, t2)
      | _ =>
        if c.equiv then (false, t)
        else
          let r := sliceScanScalar rec v2 t l1
          if r.1 then (true, r.2)
          else (false, traceMsg r.2 "v1 does not contain v2" v1 v2)
    | _ => (deepEq v1 v2, t)

/-- Model of the internal `contains`: normalize both operands (capturing a
normalization error in the context and failing), dispatch to
`containsNormalized`, and fall back to a generic not-equal trace when no
more specific message was produced.  The `Nat` argument is recursion fuel;
`containsFuel` below always provides enough. -/
def containsF (c : containsCtx) : Nat → GoVal → GoVal → CtxState → Bool × CtxState
  | 0, _, _, t => (false, t)
  | f + 1, v1, v2, t =>
    let (nv1, e1) := normalizeVal c.nopts v1
    match e1 with
    | some err =>
      (false, traceMsg { t with err := some err } ("err normalizing v1: " ++ err) v1 v2)
    | none =>
      let (nv2, e2) := normalizeVal c.nopts v2
      match e2 with
      | some err =>
        (false, traceMsg { t with err := some err } ("err normalizing v2: " ++ err) v1 v2)
      | none =>
        let t2 := { t with err := none }
        let r := containsNormalizedF (containsF c f) c nv1 nv2 t2
        if !r.1 && r.2.mismatchMsg == "" && r.2.err == none then
          (r.1, traceNotEqual r.2 v1 v2)
        else r

/-- Fuel that always suffices for `containsF` (the recursion descends into
strictly smaller values at every level). -/
def containsFuel (v1 v2 : GoVal) : Nat := gsize v1 + gsize v2 + 1

/-- Model of the `Match` result struct. -/
structure Match where
  Matches : Bool
  Path : String
  V1 : GoVal
  V2 : GoVal
  Error : Option String
  Message : String
deriving DecidableEq

/-- Assembly of the comparison context as `ContainsMatch`/`EquivalentMatch`
do: apply the options, then force copy, preserve-time and marshal modes, and
couple string-to-time parsing to the `ParseTimes` option. -/
def buildContainsCtx (options : List ContainsOption) (equiv : Bool) : containsCtx :=
  let co := options.foldl (fun o f => f o) {}
  { copts := co
    nopts :=
      { copy := true, preserveTime := true, marshal := true
        parseTime := co.parseTimes, deep := false }
    equiv := equiv }

/-- Model of `ContainsMatch`. -/
def ContainsMatch (v1 v2 : GoVal) (options : List ContainsOption := []) : Match :=
  let c := buildContainsCtx options false
  let r := containsF c (containsFuel v1 v2) v1 v2 {}
  { Matches := r.1, V1 := r.2.v1, V2 := r.2.v2, Error := r.2.err
    Path := r.2.eventPath, Message := r.2.mismatchMsg }

/-- Model of `Contains`. -/
def Contains (v1 v2 : GoVal) (options : List ContainsOption := []) : Bool :=
  (ContainsMatch v1 v2 options).Matches

/-- Model of `EquivalentMatch`. -/
def EquivalentMatch (v1 v2 : GoVal) (options : List ContainsOption := []) : Match :=
  let c := buildContainsCtx options true
  let r := containsF c (containsFuel v1 v2) v1 v2 {}
  { Matches := r.1, V1 := r.2.v1, V2 := r.2.v2, Error := r.2.err
    Path := r.2.eventPath, Message := r.2.mismatchMsg }

/-- Model of `Equivalent`. -/
def Equivalent (v1 v2 : GoVal) (options : List ContainsOption := []) : Bool :=
  (EquivalentMatch v1 v2 options).Matches

/-- Model of `Conflicts`: `!Contains(Merge(v1, v2), v1)`. -/
def Conflicts (v1 v2 : GoVal) : Bool :=
  !Contains (Merge v1 v2) v1

/-- Model of the Go `error` values a transformer function can return: the
distinguished sentinel `ErrStop` (a unique error object in Go, a dedicated
constructor here) or any other error. -/
inductive GoError where
  | errStop
  | errMsg (s : String)
deriving DecidableEq

/-- The `ErrStop` sentinel returned by transform functions to end recursion
early. -/
def ErrStop : GoError := .errStop

mutual

/-- Model of the internal `transform`: normalize (ignoring errors), apply the
transformer, bail out on its error, normalize again, then recurse into the
children of the (possibly restructured) result, breaking at the first child
error.  The `Nat` argument is recursion fuel: in Go the recursion depth is
unbounded (a transformer that keeps growing its output never terminates), so
the model represents the finitely deep runs; every claim proved about it is
fuel-generic. -/
def transformVal (fn : GoVal → GoVal × Option GoError) (o : NormalizeOptions) :
    Nat → GoVal → GoVal × Option GoError
  | 0, v => (v, none)
  | f + 1, v =>
    let v1 := (normalizeVal o v).1
    let (v2, err) := fn v1
    match err with
    | some e => (v2, some e)
    | none =>
      let v3 := (normalizeVal o v2).1
      match v3 with
      | .vmap l =>
        let (nl, e2) := transformEntries fn o f l
        (.vmap nl, e2)
      | .vslice l =>
        let (nl, e2) := transformList fn o f l
        (.vslice nl, e2)
      | other => (other, none)

/-- The map loop of `transform`: each value is replaced by its transform; on
an error the partial result is kept (the failing entry gets the value the
failed call returned) and the loop breaks. -/
def transformEntries (fn : GoVal → GoVal × Option GoError) (o : NormalizeOptions) :
    Nat → List (String × GoVal) → List (String × GoVal) × Option GoError
  | _, [] => ([], none)
  | f, (k, v) :: rest =>
    let (nv, e) := transformVal fn o f v
    match e with
    | some err => ((k, nv) :: rest, some err)
    | none =>
      let (nrest, e2) := transformEntries fn o f rest
      ((k, nv) :: nrest, e2)

/-- The slice loop of `transform`. -/
def transformList (fn : GoVal → GoVal × Option GoError) (o : NormalizeOptions) :
    Nat → List GoVal → List GoVal × Option GoError
  | _, [] => ([], none)
  | f, v :: rest =>
    let (nv, e) := transformVal fn o f v
    match e with
    | some err => (nv :: rest, some err)
    | none =>
      let (nrest, e2) := transformList fn o f rest
      (nv :: nrest, e2)

end

/-- Model of the public `Transform`: copy and marshal default to on, the
caller options are applied, deep is forced off, and the sentinel `ErrStop`
from the walk is swallowed (the caller sees a nil error).  The `fuel`
argument bounds the recursion depth of the walk (see `transformVal`). -/
def Transform (v : GoVal) (transformer : GoVal → GoVal × Option GoError)
    (fuel : Nat) (opts : List NormalizeOption := []) : GoVal × Option GoError :=
  let o0 := applyNormOptions { copy := true, marshal := true } opts
  let o := { o0 with deep := false }
  let r := transformVal transformer o fuel v
  if r.2 == some ErrStop then (r.1, none) else r

/-!
Allocation-instrumented model, used for the frame properties of `Merge`
(mutation and container sharing).  `ValA` is the value model with every
container (and every other heap value a caller could alias) tagged with an
allocation identity; `normalizeValA` and `mergeValsA` mirror `normalizeVal`
and `mergeVals` exactly, additionally threading a fresh-identity counter and
recording the identity of every container they write into (a Go map
assignment or slice append).
-/

/-- `GoVal` with allocation identities on containers. -/
inductive ValA where
  | anull
  | abool (b : Bool)
  | anum (x : Int)
  | aint (n : Int)
  | astr (s : String)
  | atime (tm : GoTime)
  | amap (id : Nat) (l : List (String × ValA))
  | aslice (id : Nat) (l : List ValA)
  | amapOther (id : Nat) (l : List (String × ValA))
  | asliceOther (id : Nat) (l : List ValA)
  | amarshaler (id : Nat) (j : Json)
  | afunc (id : Nat) (emsg : String)

mutual

/-- All allocation identities occurring in a value. -/
def idsOf : ValA → List Nat
  | .anull | .abool _ | .anum _ | .aint _ | .astr _ | .atime _ => []
  | .amap id l => id :: idsOfEntries l
  | .aslice id l => id :: idsOfList l
  | .amapOther id l => id :: idsOfEntries l
  | .asliceOther id l => id :: idsOfList l
  | .amarshaler id _ => [id]
  | .afunc id _ => [id]

def idsOfEntries : List (String × ValA) → List Nat
  | [] => []
  | (_, v) :: rest => idsOf v ++ idsOfEntries rest

def idsOfList : List ValA → List Nat
  | [] => []
  | v :: rest => idsOf v ++ idsOfList rest

end

mutual

/-- Identity erasure back to the plain value model. -/
def eraseA : ValA → GoVal
  | .anull => .vnull
  | .abool b => .vbool b
  | .anum x => .vnum x
  | .aint n => .vint n
  | .astr s => .vstr s
  | .atime tm => .vtime tm
  | .amap _ l => .vmap (eraseAEntries l)
  | .aslice _ l => .vslice (eraseAList l)
  | .amapOther _ l => .vmapOther (eraseAEntries l)
  | .asliceOther _ l => .vsliceOther (eraseAList l)
  | .amarshaler _ j => .vmarshaler j
  | .afunc _ e => .vfunc e

def eraseAEntries : List (String × ValA) → List (String × GoVal)
  | [] => []
  | (k, v) :: rest => (k, eraseA v) :: eraseAEntries rest

def eraseAList : List ValA → List GoVal
  | [] => []
  | v :: rest => eraseA v :: eraseAList rest

end

mutual

/-- `jsonToVal` with fresh allocation of every decoded container, as
`json.Unmarshal` allocates; threads the fresh counter. -/
def jsonToValA : Json → Nat → ValA × Nat
  | .null, c => (.anull, c)
  | .bool b, c => (.abool b, c)
  | .num x, c => (.anum x, c)
  | .str s, c => (.astr s, c)
  | .obj l, c =>
    let (nl, c2) := jsonToValAEntries l (c + 1)
    (.amap c nl, c2)
  | .arr l, c =>
    let (nl, c2) := jsonToValAArr l (c + 1)
    (.aslice c nl, c2)

def jsonToValAEntries : List (String × Json) → Nat → List (String × ValA) × Nat
  | [], c => ([], c)
  | (k, j) :: rest, c =>
    let (v, c2) := jsonToValA j c
    let (vs, c3) := jsonToValAEntries rest c2
    ((k, v) :: vs, c3)

def jsonToValAArr : List Json → Nat → List ValA × Nat
  | [], c => ([], c)
  | j :: rest, c =>
    let (v, c2) := jsonToValA j c
    let (vs, c3) := jsonToValAArr rest c2
    (v :: vs, c3)

end

/-- `slowNormalize` on the instrumented model: the JSON round trip decodes
into freshly allocated containers. -/
def slowNormalizeA : ValA → Nat → (ValA × Option String) × Nat
  | .amarshaler _ j, c =>
    let (v, c2) := jsonToValA j c
    ((v, none), c2)
  | .afunc _ emsg, c => ((.anull, some emsg), c)
  | .atime t, c => ((.astr (goTimeRFC t), none), c)
  | v, c => ((v, none), c)

mutual

/-- `normalizeVal` on the instrumented model.  Returns the value, the error,
the list of identities of containers written into, and the advanced fresh
counter.  Mirrors `normalizeVal` case by case; a `make` allocates the next
fresh identity, an in-place pass writes into the existing container. -/
def normalizeValA (o : NormalizeOptions) (v : ValA) (c : Nat) :
    ValA × Option String × List Nat × Nat :=
  match v with
  | .atime t =>
    if o.preserveTime then (.atime t, none, [], c)
    else if o.marshal then
      let ((nv, e), c2) := slowNormalizeA (.atime t) c
      (nv, e, [], c2)
    else (.atime t, none, [], c)
  | .astr s =>
    if o.preserveTime && o.parseTime then
      match goTimeParse s with
      | some tm => (.atime tm, none, [], c)
      | none => (.astr s, none, [], c)
    else (.astr s, none, [], c)
  | .anull => (.anull, none, [], c)
  | .abool b => (.abool b, none, [], c)
  | .anum x => (.anum x, none, [], c)
  | .aint n => (.anum n, none, [], c)
  | .amap id l =>
    if !o.copy && !o.deep then (.amap id l, none, [], c)
    else
      if o.deep then
        if o.copy then
          -- fresh container, fill while normalizing; on error the raw
          -- suffix was never copied in
          let (pre, e, w, c2) := normEntriesA o l (c + 1)
          match e with
          | none => (.amap c pre, none, c :: w, c2)
          | some err => (.amap c pre, some err, c :: w, c2)
        else
          -- in place: write into the caller container; on error the raw
          -- suffix stays
          let (pre, e, w, c2) := normEntriesA o l c
          match e with
          | none => (.amap id pre, none, id :: w, c2)
          | some err => (.amap id (pre ++ l.drop pre.length), some err, id :: w, c2)
      else
        -- copy is set: fresh container with the raw entries
        (.amap c l, none, [c], c + 1)
  | .aslice id l =>
    if !o.copy && !o.deep then (.aslice id l, none, [], c)
    else
      if o.deep then
        if o.copy then
          let (pre, e, w, c2) := normListA o l (c + 1)
          match e with
          | none => (.aslice c pre, none, c :: w, c2)
          | some err => (.aslice c pre, some err, c :: w, c2)
        else
          let (pre, e, w, c2) := normListA o l c
          match e with
          | none => (.aslice id pre, none, id :: w, c2)
          | some err => (.aslice id (pre ++ l.drop pre.length), some err, id :: w, c2)
      else (.aslice c l, none, [c], c + 1)
  | .amapOther _ l =>
    -- reflective copy into a fresh canonical map (`copied = true`), then the
    -- deep pass runs in place on the fresh copy
    if o.deep then
      let (pre, e, w, c2) := normEntriesA o l (c + 1)
      match e with
      | none => (.amap c pre, none, c :: w, c2)
      | some err => (.amap c (pre ++ l.drop pre.length), some err, c :: w, c2)
    else (.amap c l, none, [c], c + 1)
  | .asliceOther _ l =>
    if o.deep then
      let (pre, e, w, c2) := normListA o l (c + 1)
      match e with
      | none => (.aslice c pre, none, c :: w, c2)
      | some err => (.aslice c (pre ++ l.drop pre.length), some err, c :: w, c2)
    else (.aslice c l, none, [c], c + 1)
  | .amarshaler id j =>
    if o.marshal then
      let ((nv, e), c2) := slowNormalizeA (.amarshaler id j) c
      (nv, e, [], c2)
    else (.amarshaler id j, none, [], c)
  | .afunc id emsg =>
    if o.marshal then (.anull, some emsg, [], c)
    else (.afunc id emsg, none, [], c)

def normEntriesA (o : NormalizeOptions) :
    List (String × ValA) → Nat → List (String × ValA) × Option String × List Nat × Nat
  | [], c => ([], none, [], c)
  | (k, v) :: rest, c =>
    let (nv, e, w, c2) := normalizeValA o v c
    match e with
    | some err => ([], some err, w, c2)
    | none =>
      let (nrest, e2, w2, c3) := normEntriesA o rest c2
      ((k, nv) :: nrest, e2, w ++ w2, c3)

def normListA (o : NormalizeOptions) :
    List ValA → Nat → List ValA × Option String × List Nat × Nat
  | [], c => ([], none, [], c)
  | v :: rest, c =>
    let (nv, e, w, c2) := normalizeValA o v c
    match e with
    | some err => ([], some err, w, c2)
    | none =>
      let (nrest, e2, w2, c3) := normListA o rest c2
      (nv :: nrest, e2, w ++ w2, c3)

end

/-- `sliceContains` on the instrumented model: `reflect.DeepEqual` and Go
`==` ignore allocation identities, so the test is taken on the erasures. -/
def sliceContainsA (s : List ValA) (v : ValA) : Bool :=
  sliceContains (eraseAList s) (eraseA v)

/-- Key lookup on instrumented association lists. -/
def lookupKeyA (l : List (String × ValA)) (k : String) : Option ValA :=
  match l with
  | [] => none
  | (k1, v) :: rest => if k1 == k then some v else lookupKeyA rest k

/-- Go map assignment on instrumented association lists. -/
def setEntryA : List (String × ValA) → String → ValA → List (String × ValA)
  | [], k, v => [(k, v)]
  | (k1, v1) :: rest, k, v =>
    if k1 == k then (k, v) :: rest else (k1, v1) :: setEntryA rest k v

mutual

/-- `mergeVals` on the instrumented model, additionally returning the
identities of the containers written into: the map branch assigns into the
left map, the slice branch appends to the left slice; both keep the left
container identity in the result.  Any other combination returns the right
value with no write. -/
def mergeValsA : ValA → ValA → ValA × List Nat
  | .amap id1 l1, .amap _ l2 =>
    let (nl, w) := mergeEntriesA l1 l2
    (.amap id1 nl, id1 :: w)
  | .aslice id1 l1, .aslice _ l2 =>
    (.aslice id1 (l1 ++ l2.filter (fun value => !sliceContainsA l1 value)), [id1])
  | _, v2 => (v2, [])

def mergeEntriesA (l1 : List (String × ValA)) :
    List (String × ValA) → List (String × ValA) × List Nat
  | [] => (l1, [])
  | (k, v) :: rest =>
    let cur := match lookupKeyA l1 k with
      | some x => x
      | none => .anull
    let (mv, w) := mergeValsA cur v
    let (nl, w2) := mergeEntriesA (setEntryA l1 k mv) rest
    (nl, w ++ w2)

end

/-- `Merge` on the instrumented model: normalize both inputs with copy,
marshal and deep enabled (errors ignored, as in the source), then merge.
The counter `c0` is the next free allocation identity; the result is the
merged value, the identities of every container written into during the
whole call, and the advanced counter. -/
def MergeA (v1 v2 : ValA) (c0 : Nat) : ValA × List Nat × Nat :=
  let o : NormalizeOptions := { copy := true, marshal := true, deep := true }
  let (n1, _, w1, c1) := normalizeValA o v1 c0
  let (n2, _, w2, c2) := normalizeValA o v2 c1
  let (r, w3) := mergeValsA n1 n2
  (r, w1 ++ w2 ++ w3, c2)

/-!
Lemmas and claim theorems.
-/

/-- The truncation/rounding preprocessing `compareTimes` applies to each time
before the delta comparison. -/
def adjustedTime (co : containsOptions) (tm : GoTime) : GoTime :=
  let u := if co.truncateTimes > 0 then tm.truncate co.truncateTimes else tm
  if co.roundTimes > 0 then u.round co.roundTimes else u

/-- The delta `compareTimes` compares against the tolerance: the saturated
`Sub`, then the wrapping negation of a negative delta. -/
def timeDeltaAbs (co : containsOptions) (tm1 tm2 : GoTime) : Int :=
  goDurAbs ((adjustedTime co tm1).sub (adjustedTime co tm2))

theorem GoTime.truncate_loc (tm : GoTime) (d : Int) : (tm.truncate d).loc = tm.loc := by
  unfold GoTime.truncate
  split <;> rfl

theorem GoTime.round_loc (tm : GoTime) (d : Int) : (tm.round d).loc = tm.loc := by
  unfold GoTime.round
  split
  · rfl
  · simp only []
    split <;> rfl

theorem adjustedTime_loc (co : containsOptions) (tm : GoTime) :
    (adjustedTime co tm).loc = tm.loc := by
  unfold adjustedTime
  split <;> split <;> simp [GoTime.truncate_loc, GoTime.round_loc]

/-- The Boolean result of `compareTimes` as a function of the adjusted delta,
the tolerance, the ignore-time-zones flag and the locations (assuming the
empty-value wildcard is off). -/
theorem compareTimes_fst (tm1 tm2 : GoTime) (c : containsCtx) (t : CtxState)
    (hme : c.copts.matchEmptyValues = false) :
    (compareTimes tm1 tm2 c t).1 =
      (if c.copts.timeDelta < timeDeltaAbs c.copts tm1 tm2 then false
       else if c.copts.ignoreTimeZone then true
       else decide (tm1.loc = tm2.loc)) := by
  unfold compareTimes timeDeltaAbs adjustedTime
  simp only [hme, Bool.false_and, Bool.false_eq_true, if_false]
  set u1 := if c.copts.truncateTimes > 0 then tm1.truncate c.copts.truncateTimes else tm1 with hu1
  set u2 := if c.copts.truncateTimes > 0 then tm2.truncate c.copts.truncateTimes else tm2 with hu2
  set w1 := if c.copts.roundTimes > 0 then u1.round c.copts.roundTimes else u1 with hw1
  set w2 := if c.copts.roundTimes > 0 then u2.round c.copts.roundTimes else u2 with hw2
  have hloc1 : w1.loc = tm1.loc := by
    rw [hw1, hu1]
    split <;> split <;> simp [GoTime.truncate_loc, GoTime.round_loc]
  have hloc2 : w2.loc = tm2.loc := by
    rw [hw2, hu2]
    split <;> split <;> simp [GoTime.truncate_loc, GoTime.round_loc]
  by_cases hgt : c.copts.timeDelta < goDurAbs (w1.sub w2)
  · simp only [gt_iff_lt, hgt, if_true]
    split <;> simp
  · simp only [gt_iff_lt, hgt, if_false]
    by_cases hig : c.copts.ignoreTimeZone
    · simp [hig]
    · simp only [hig, Bool.false_eq_true, if_false]
      by_cases hl : w1.loc = w2.loc
      · rw [if_neg (by simp [hl])]
        simp [hloc1 ▸ hloc2 ▸ hl]
      · rw [if_pos (by simp [hl])]
        simp [hloc1 ▸ hloc2 ▸ hl]

/-- The comparison context that `ContainsMatch v1 v2 [fun _ => co]` builds. -/
def ctxOf (co : containsOptions) (equiv : Bool) : containsCtx :=
  { copts := co
    nopts :=
      { copy := true, preserveTime := true, marshal := true
        parseTime := co.parseTimes, deep := false }
    equiv := equiv }

theorem buildContainsCtx_single (co : containsOptions) (equiv : Bool) :
    buildContainsCtx [fun _ => co] equiv = ctxOf co equiv := rfl

/-- One successful step of `containsF`: when both operands normalize, the
Boolean result is the `containsNormalized` result on the normalized pair
(the final trace fallback does not change it). -/
theorem containsF_succ_fst (c : containsCtx) (f : Nat) (v1 v2 nv1 nv2 : GoVal)
    (t : CtxState) (h1 : normalizeVal c.nopts v1 = (nv1, none))
    (h2 : normalizeVal c.nopts v2 = (nv2, none)) :
    (containsF c (f + 1) v1 v2 t).1 =
      (containsNormalizedF (containsF c f) c nv1 nv2 { t with err := none }).1 := by
  unfold containsF
  rw [h1]
  simp only []
  rw [h2]
  simp only []
  split <;> rfl

/-- A failing step of `containsF`: the first operand fails to normalize. -/
theorem containsF_err1 (c : containsCtx) (f : Nat) (v1 v2 nv1 : GoVal)
    (t : CtxState) (err : String) (h1 : normalizeVal c.nopts v1 = (nv1, some err)) :
    containsF c (f + 1) v1 v2 t =
      (false, traceMsg { t with err := some err } ("err normalizing v1: " ++ err) v1 v2) := by
  unfold containsF
  rw [h1]

/-- A failing step of `containsF`: the second operand fails to normalize. -/
theorem containsF_err2 (c : containsCtx) (f : Nat) (v1 v2 nv1 nv2 : GoVal)
    (t : CtxState) (err : String) (h1 : normalizeVal c.nopts v1 = (nv1, none))
    (h2 : normalizeVal c.nopts v2 = (nv2, some err)) :
    containsF c (f + 1) v1 v2 t =
      (false, traceMsg { t with err := some err } ("err normalizing v2: " ++ err) v1 v2) := by
  unfold containsF
  rw [h1]
  simp only []
  rw [h2]

/-- `Contains` on two `time.Time` values (the wildcard option off): the exact
equality shortcut, then `compareTimes`. -/
theorem Contains_vtime (co : containsOptions) (tm1 tm2 : GoTime)
    (hme : co.matchEmptyValues = false) :
    Contains (.vtime tm1) (.vtime tm2) [fun _ => co] =
      (if tm1 = tm2 then true
       else if co.timeDelta < timeDeltaAbs co tm1 tm2 then false
       else if co.ignoreTimeZone then true
       else decide (tm1.loc = tm2.loc)) := by
  unfold Contains ContainsMatch
  rw [buildContainsCtx_single]
  show (containsF (ctxOf co false) (containsFuel (.vtime tm1) (.vtime tm2)) (.vtime tm1)
      (.vtime tm2) {}).1 = _
  have hfuel : containsFuel (.vtime tm1) (.vtime tm2) = 2 + 1 := rfl
  rw [hfuel]
  rw [containsF_succ_fst (ctxOf co false) 2 (.vtime tm1) (.vtime tm2) (.vtime tm1)
    (.vtime tm2) {} rfl rfl]
  unfold containsNormalizedF
  have hco : (ctxOf co false).copts = co := rfl
  rw [hco, hme]
  simp only [Bool.false_and, Bool.false_eq_true, if_false]
  have hif : goIfaceEq (.vtime tm1) (.vtime tm2) = (tm1 == tm2) := rfl
  rw [hif]
  by_cases heq : tm1 = tm2
  · simp [heq]
  · have : (tm1 == tm2) = false := by simp [heq]
    rw [this]
    simp only [Bool.false_eq_true, if_false, if_neg heq]
    rw [compareTimes_fst _ _ _ _ (by rw [hco]; exact hme)]
    rw [hco]

set_option maxRecDepth 400000

/-- C4, counterexample to the claim as stated: two time values with the same
instant (delta 0, within the default tolerance), `IgnoreTimeZones` not
enabled, and **identical UTC offsets** (both offset 0), yet `Contains` is
false — the source compares `tm1.Location() != tm2.Location()`, pointer
identity of the location objects (here: `time.FixedZone("test", 0)` versus
`time.UTC`), not UTC offsets. -/
theorem claim4_counterexample :
    (({ name := "test", offset := 0, allocId := 1 } : Location).offset
        = Location.utc.offset)
    ∧ timeDeltaAbs {} ⟨0, { name := "test", offset := 0, allocId := 1 }⟩
        ⟨0, Location.utc⟩ ≤ ({} : containsOptions).timeDelta
    ∧ ({} : containsOptions).ignoreTimeZone = false
    ∧ Contains (.vtime ⟨0, { name := "test", offset := 0, allocId := 1 }⟩)
        (.vtime ⟨0, Location.utc⟩) [] = false := by
  refine ⟨rfl, by decide, rfl, ?_⟩
  decide

/-- C4 (amended): when comparing two time values whose adjusted delta is
within the configured tolerance and the empty-value wildcard is off, and
`IgnoreTimeZones` is not enabled, `Contains` succeeds if and only if the two
times carry the **same location object** (Go compares the `*time.Location`
pointers; identical UTC offsets on distinct location objects do not
suffice); enabling `IgnoreTimeZones` skips that check and `Contains`
succeeds.  (The one-element option list `[fun _ => co]` realizes an
arbitrary reachable option configuration `co`.) -/
theorem claim4_time_zone_identity (co : containsOptions) (tm1 tm2 : GoTime)
    (hme : co.matchEmptyValues = false)
    (hdelta : timeDeltaAbs co tm1 tm2 ≤ co.timeDelta) :
    (co.ignoreTimeZone = false →
      (Contains (.vtime tm1) (.vtime tm2) [fun _ => co] = true ↔ tm1.loc = tm2.loc))
    ∧ (co.ignoreTimeZone = true →
      Contains (.vtime tm1) (.vtime tm2) [fun _ => co] = true) := by
  rw [Contains_vtime co tm1 tm2 hme]
  have hnot : ¬ co.timeDelta < timeDeltaAbs co tm1 tm2 := not_lt.mpr hdelta
  constructor
  · intro hig
    by_cases heq : tm1 = tm2
    · simp [heq, hig, hnot]
    · simp [heq, hig, hnot]
  · intro hig
    by_cases heq : tm1 = tm2 <;> simp [heq, hig, hnot]

/-- C4 witness: the amended theorem applied at concrete inputs. -/
theorem claim4_witness :
    Contains (.vtime ⟨3, Location.utc⟩) (.vtime ⟨0, Location.utc⟩)
      [fun _ => ({ timeDelta := 5 } : containsOptions)] = true :=
  ((claim4_time_zone_identity { timeDelta := 5 } ⟨3, Location.utc⟩ ⟨0, Location.utc⟩
    (by decide) (by decide)).1 (by decide)).mpr rfl

/-- C10, counterexample to the claim as stated, in two parts.  First: the
adjusted delta equals the configured tolerance exactly, yet the comparison
fails, because the two location objects differ (the claim ignores the
time-zone check that follows the delta check).  Second: the comparison can
succeed although the true delta strictly exceeds the tolerance: for two
same-location times more than 2^63ns apart, `time.Time.Sub` saturates at the
minimum `time.Duration` and the `delta *= -1` negation overflows back to the
same negative value, which passes the `delta > d` test. -/
theorem claim10_counterexample :
    (((AllowTimeDelta 100) {}).timeDelta = 100
      ∧ timeDeltaAbs ((AllowTimeDelta 100) {}) ⟨0, Location.utc⟩
          ⟨100, { name := "test", offset := 0, allocId := 1 }⟩ = 100
      ∧ Contains (.vtime ⟨0, Location.utc⟩)
          (.vtime ⟨100, { name := "test", offset := 0, allocId := 1 }⟩)
          [AllowTimeDelta 100] = false)
    ∧ ((2 : Int) ^ 63 + 5 > 100
      ∧ Contains (.vtime ⟨0, Location.utc⟩) (.vtime ⟨2 ^ 63 + 5, Location.utc⟩)
          [AllowTimeDelta 100] = true) := by
  refine ⟨⟨rfl, by decide, ?_⟩, by decide, ?_⟩ <;> decide

/-- C10 (amended): for time values that pass the time-zone check (same
location object, or `IgnoreTimeZones` enabled), with the wildcard off and a
nonnegative tolerance, `Contains` succeeds exactly when the delta as Go
computes it — the saturated `Sub` followed by the wrapping negation — is at
most the configured tolerance.  In particular the boundary is inclusive (a
delta of exactly the tolerance is contained), and within the int64 range the
comparison fails exactly when the true delta strictly exceeds the tolerance;
beyond ±2^63ns the saturation and negation overflow make the wrapped delta
negative and the comparison succeeds. -/
theorem claim10_inclusive_delta (co : containsOptions) (tm1 tm2 : GoTime)
    (hme : co.matchEmptyValues = false) (hd : 0 ≤ co.timeDelta)
    (hloc : tm1.loc = tm2.loc ∨ co.ignoreTimeZone = true) :
    (Contains (.vtime tm1) (.vtime tm2) [fun _ => co] = true ↔
      timeDeltaAbs co tm1 tm2 ≤ co.timeDelta) := by
  rw [Contains_vtime co tm1 tm2 hme]
  by_cases heq : tm1 = tm2
  · subst heq
    have h0 : timeDeltaAbs co tm1 tm1 = 0 := by
      unfold timeDeltaAbs GoTime.sub
      have hz : (adjustedTime co tm1).abs - (adjustedTime co tm1).abs = 0 := by omega
      rw [hz]
      have hmx : ¬((0 : Int) > maxDuration) := by unfold maxDuration; omega
      have hmn : ¬((0 : Int) < minDuration) := by unfold minDuration; omega
      rw [if_neg hmx, if_neg hmn]
      unfold goDurAbs
      rw [if_neg (by omega)]
    simp [h0, hd]
  · by_cases hlt : co.timeDelta < timeDeltaAbs co tm1 tm2
    · simp only [if_neg heq, if_pos hlt]
      constructor
      · intro h
        exact absurd h (by simp)
      · intro h
        exact absurd hlt (not_lt.mpr h)
    · have hle := not_lt.mp hlt
      simp only [if_neg heq, if_neg hlt]
      rcases hloc with hl | hig
      · cases hig2 : co.ignoreTimeZone with
        | true => simp [hle]
        | false => simp [hl, hle]
      · simp [hig, hle]

/-- C10 witness: the amended theorem applied at concrete inputs, once at the
exact boundary with equal locations, discharging every hypothesis. -/
theorem claim10_witness :
    Contains (.vtime ⟨0, Location.utc⟩) (.vtime ⟨100, Location.utc⟩)
      [fun _ => ({ timeDelta := 100 } : containsOptions)] = true :=
  (claim10_inclusive_delta { timeDelta := 100 } ⟨0, Location.utc⟩ ⟨100, Location.utc⟩
    (by decide) (by decide) (Or.inl rfl)).mpr (by decide)

/-- C5, counterexample to the claim as stated: with both `TruncateTimes` and
`RoundTimes` configured, the result differs from a truncation-only
comparison on the same times — so it is not the case that only one of the
two is applied with truncation taking precedence; the code truncates and
then additionally rounds. -/
theorem claim5_counterexample :
    Contains (.vtime ⟨600000, Location.utc⟩) (.vtime ⟨0, Location.utc⟩)
      [TruncateTimes 1000, RoundTimes 1000000, AllowTimeDelta 700000] = false
    ∧ Contains (.vtime ⟨600000, Location.utc⟩) (.vtime ⟨0, Location.utc⟩)
      [TruncateTimes 1000, AllowTimeDelta 700000] = true := by
  constructor
  · decide
  · decide

/-- C5 (amended): when both `TruncateTimes` and `RoundTimes` are configured,
`compareTimes` applies **both** to each time value before the delta
comparison — truncation first, then rounding; the comparison then behaves
exactly like a comparison of the truncated-then-rounded times with both
options cleared. -/
theorem claim5_truncate_then_round (c : containsCtx) (tm1 tm2 : GoTime) (t : CtxState)
    (htr : 0 < c.copts.truncateTimes) (hro : 0 < c.copts.roundTimes)
    (hme : c.copts.matchEmptyValues = false) :
    (compareTimes tm1 tm2 c t).1 =
      (compareTimes ((tm1.truncate c.copts.truncateTimes).round c.copts.roundTimes)
        ((tm2.truncate c.copts.truncateTimes).round c.copts.roundTimes)
        { c with copts := { c.copts with truncateTimes := 0, roundTimes := 0 } } t).1 := by
  rw [compareTimes_fst _ _ _ _ hme, compareTimes_fst _ _ _ _ (by simpa using hme)]
  have hadj : ∀ tm : GoTime, adjustedTime c.copts tm
      = (tm.truncate c.copts.truncateTimes).round c.copts.roundTimes := by
    intro tm
    simp [adjustedTime, htr, hro]
  have hzero : ∀ tm : GoTime,
      adjustedTime { c.copts with truncateTimes := 0, roundTimes := 0 } tm = tm := by
    intro tm
    simp [adjustedTime]
  have hdelta : timeDeltaAbs c.copts tm1 tm2
      = timeDeltaAbs { c.copts with truncateTimes := 0, roundTimes := 0 }
        ((tm1.truncate c.copts.truncateTimes).round c.copts.roundTimes)
        ((tm2.truncate c.copts.truncateTimes).round c.copts.roundTimes) := by
    simp [timeDeltaAbs, hadj, hzero]
  rw [hdelta]
  have hloc : ((tm1.truncate c.copts.truncateTimes).round c.copts.roundTimes).loc
      = tm1.loc := by simp [GoTime.truncate_loc, GoTime.round_loc]
  have hloc2 : ((tm2.truncate c.copts.truncateTimes).round c.copts.roundTimes).loc
      = tm2.loc := by simp [GoTime.truncate_loc, GoTime.round_loc]
  simp only [hloc, hloc2]

/-- C5 witness: the amended theorem applied at concrete inputs. -/
theorem claim5_witness :
    (compareTimes ⟨600000, Location.utc⟩ ⟨0, Location.utc⟩
      (ctxOf ((AllowTimeDelta 700000) ((RoundTimes 1000000) ((TruncateTimes 1000) {})))
        false) {}).1 =
    (compareTimes ((GoTime.truncate ⟨600000, Location.utc⟩ 1000).round 1000000)
      ((GoTime.truncate ⟨0, Location.utc⟩ 1000).round 1000000)
      { ctxOf ((AllowTimeDelta 700000) ((RoundTimes 1000000) ((TruncateTimes 1000) {})))
          false with
        copts := { (ctxOf ((AllowTimeDelta 700000) ((RoundTimes 1000000)
          ((TruncateTimes 1000) {}))) false).copts with
            truncateTimes := 0, roundTimes := 0 } } {}).1 :=
  claim5_truncate_then_round _ ⟨600000, Location.utc⟩ ⟨0, Location.utc⟩ {}
    (by decide) (by decide) (by decide)

theorem replaceChars_self (pat : List Char) :
    ∀ (f : Nat) (l : List Char), replaceChars pat pat f l = l := by
  intro f
  induction f with
  | zero => intro l; rfl
  | succ f ih =>
    intro l
    cases l with
    | nil => rfl
    | cons c rest =>
      unfold replaceChars
      by_cases hp : pat.isPrefixOf (c :: rest)
      · rw [if_pos hp, ih]
        have hpre : pat <+: (c :: rest) := by
          rwa [List.isPrefixOf_iff_prefix] at hp
        obtain ⟨suf, hsuf⟩ := hpre
        conv_rhs => rw [← hsuf]
        rw [← hsuf, List.drop_left]
      · rw [if_neg hp, ih]

/-- Replacing a pattern by itself is the identity (used for the top-level
trace message, where the path interpolation maps `v1` to `v1`). -/
theorem strReplaceAll_self (s pat : String) : strReplaceAll s pat pat = s := by
  unfold strReplaceAll
  split
  · rfl
  · rw [replaceChars_self]
    exact String.asString_toList s

/-- `traceMsg` at the empty path (the top level of a comparison). -/
theorem traceMsg_emptyPath (t : CtxState) (hp : t.path = []) (msg : String)
    (w1 w2 : GoVal) :
    traceMsg t msg w1 w2 =
      { t with
        eventPath := ""
        v1 := w1
        v2 := w2
        mismatchMsg := msg ++ "\n" ++ "v1" ++ " -> " ++ reprGo w1
          ++ "\n" ++ "v2" ++ " -> " ++ reprGo w2 } := by
  unfold traceMsg
  rw [hp]
  have hjoin : String.join ([] : List String) = "" := rfl
  have h1 : "v1" ++ "" = "v1" := rfl
  have h2 : "v2" ++ "" = "v2" := rfl
  have ht : trimDotPrefix "" = "" := rfl
  simp only [hjoin, h1, h2, ht, strReplaceAll_self]

/-- C8 (amended): when an operand of a comparison itself fails its
normalization, `Contains` and `Equivalent` are total Boolean functions that
return `false` (Go neither panics nor returns an error from them), while
`ContainsMatch` and `EquivalentMatch` surface the normalization error in the
`Match.Error` field and put the dedicated `err normalizing v1:`/`err
normalizing v2:` message — distinct from any structural-mismatch message —
into `Match.Message`.  This holds at every level where the failed value is
the operand of the (recursive) comparison; it does not extend to a failing
slice element of a larger successful scan, see the counterexample. -/
theorem claim8_norm_error_surfaced (v1 v2 : GoVal) (options : List ContainsOption) :
    (∀ e, (normalizeVal (buildContainsCtx options false).nopts v1).2 = some e →
      Contains v1 v2 options = false ∧ Equivalent v1 v2 options = false
      ∧ (ContainsMatch v1 v2 options).Error = some e
      ∧ (EquivalentMatch v1 v2 options).Error = some e
      ∧ (ContainsMatch v1 v2 options).Message
          = ("err normalizing v1: " ++ e) ++ "\n" ++ "v1" ++ " -> " ++ reprGo v1
            ++ "\n" ++ "v2" ++ " -> " ++ reprGo v2
      ∧ (EquivalentMatch v1 v2 options).Message
          = ("err normalizing v1: " ++ e) ++ "\n" ++ "v1" ++ " -> " ++ reprGo v1
            ++ "\n" ++ "v2" ++ " -> " ++ reprGo v2)
    ∧ (∀ e, (normalizeVal (buildContainsCtx options false).nopts v1).2 = none →
        (normalizeVal (buildContainsCtx options false).nopts v2).2 = some e →
      Contains v1 v2 options = false ∧ Equivalent v1 v2 options = false
      ∧ (ContainsMatch v1 v2 options).Error = some e
      ∧ (EquivalentMatch v1 v2 options).Error = some e
      ∧ (ContainsMatch v1 v2 options).Message
          = ("err normalizing v2: " ++ e) ++ "\n" ++ "v1" ++ " -> " ++ reprGo v1
            ++ "\n" ++ "v2" ++ " -> " ++ reprGo v2
      ∧ (EquivalentMatch v1 v2 options).Message
          = ("err normalizing v2: " ++ e) ++ "\n" ++ "v1" ++ " -> " ++ reprGo v1
            ++ "\n" ++ "v2" ++ " -> " ++ reprGo v2) := by
  have hnopts : (buildContainsCtx options true).nopts
      = (buildContainsCtx options false).nopts := rfl
  constructor
  · intro e he
    rcases hv1 : normalizeVal (buildContainsCtx options false).nopts v1 with ⟨nv1, e1⟩
    rw [hv1] at he
    simp only at he
    subst he
    have hres : ∀ equiv : Bool,
        containsF (buildContainsCtx options equiv) (containsFuel v1 v2) v1 v2 {}
          = (false, traceMsg { ({} : CtxState) with err := some e }
              ("err normalizing v1: " ++ e) v1 v2) := by
      intro equiv
      show containsF (buildContainsCtx options equiv)
        (gsize v1 + gsize v2 + 1) v1 v2 {} = _
      cases equiv
      · exact containsF_err1 _ _ _ _ _ _ _ hv1
      · exact containsF_err1 _ _ _ _ _ _ _ (hnopts ▸ hv1)
    have hmsg := traceMsg_emptyPath { ({} : CtxState) with err := some e } rfl
      ("err normalizing v1: " ++ e) v1 v2
    refine ⟨?_, ?_, ?_, ?_, ?_, ?_⟩
    · show (ContainsMatch v1 v2 options).Matches = false
      unfold ContainsMatch
      simp only [hres false]
    · show (EquivalentMatch v1 v2 options).Matches = false
      unfold EquivalentMatch
      simp only [hres true]
    · unfold ContainsMatch
      simp only [hres false, hmsg]
    · unfold EquivalentMatch
      simp only [hres true, hmsg]
    · unfold ContainsMatch
      simp only [hres false, hmsg]
    · unfold EquivalentMatch
      simp only [hres true, hmsg]
  · intro e h1 he
    rcases hv1 : normalizeVal (buildContainsCtx options false).nopts v1 with ⟨nv1, e1⟩
    rw [hv1] at h1
    simp only at h1
    subst h1
    rcases hv2 : normalizeVal (buildContainsCtx options false).nopts v2 with ⟨nv2, e2⟩
    rw [hv2] at he
    simp only at he
    subst he
    have hres : ∀ equiv : Bool,
        containsF (buildContainsCtx options equiv) (containsFuel v1 v2) v1 v2 {}
          = (false, traceMsg { ({} : CtxState) with err := some e }
              ("err normalizing v2: " ++ e) v1 v2) := by
      intro equiv
      show containsF (buildContainsCtx options equiv)
        (gsize v1 + gsize v2 + 1) v1 v2 {} = _
      cases equiv
      · exact containsF_err2 _ _ _ _ _ _ _ _ hv1 hv2
      · exact containsF_err2 _ _ _ _ _ _ _ _ (hnopts ▸ hv1) (hnopts ▸ hv2)
    have hmsg := traceMsg_emptyPath { ({} : CtxState) with err := some e } rfl
      ("err normalizing v2: " ++ e) v1 v2
    refine ⟨?_, ?_, ?_, ?_, ?_, ?_⟩
    · show (ContainsMatch v1 v2 options).Matches = false
      unfold ContainsMatch
      simp only [hres false]
    · show (EquivalentMatch v1 v2 options).Matches = false
      unfold EquivalentMatch
      simp only [hres true]
    · unfold ContainsMatch
      simp only [hres false, hmsg]
    · unfold EquivalentMatch
      simp only [hres true, hmsg]
    · unfold ContainsMatch
      simp only [hres false, hmsg]
    · unfold EquivalentMatch
      simp only [hres true, hmsg]

/-- C8 witness: a non-serializable first operand and a non-serializable
second operand, with no options, at concrete inputs. -/
theorem claim8_witness :
    (Contains (.vfunc "boom") (.vnum 1) [] = false
      ∧ (ContainsMatch (.vfunc "boom") (.vnum 1) []).Error = some "boom")
    ∧ (Equivalent (.vnum 1) (.vfunc "boom") [] = false
      ∧ (EquivalentMatch (.vnum 1) (.vfunc "boom") []).Error = some "boom") := by
  have h1 := (claim8_norm_error_surfaced (.vfunc "boom") (.vnum 1) []).1 "boom" (by decide)
  have h2 := (claim8_norm_error_surfaced (.vnum 1) (.vfunc "boom") []).2 "boom"
    (by decide) (by decide)
  exact ⟨⟨h1.1, h1.2.2.1⟩, ⟨h2.2.1, h2.2.2.2.1⟩⟩

/-- C8, counterexample to the claim as stated: a normalization failure of a
slice element during the recursive scan does not surface.  `Searchv2`
continues with the next element after the failed recursive `contains` call,
and that next call resets the context error before succeeding, so `Contains`
returns `true` and `Match.Error` is `nil` although `v1` contains a
non-serializable value whose normalization failed during the comparison. -/
theorem claim8_counterexample :
    Contains (.vslice [.vfunc "boom", .vnum 1]) (.vslice [.vnum 1]) [] = true
    ∧ (ContainsMatch (.vslice [.vfunc "boom", .vnum 1]) (.vslice [.vnum 1]) []).Error
        = none :=
  ⟨by decide, by decide⟩

mutual

theorem transformVal_err (fn : GoVal → GoVal × Option GoError) (o : NormalizeOptions) :
    ∀ (f : Nat) (v : GoVal) (e : GoError),
      (transformVal fn o f v).2 = some e → ∃ u, (fn u).2 = some e
  | 0, v, e => by simp [transformVal]
  | f + 1, v, e => by
      unfold transformVal
      rcases hfn : fn (normalizeVal o v).1 with ⟨v2, err⟩
      cases err with
      | some e2 =>
        intro h
        simp only [hfn] at h
        exact ⟨(normalizeVal o v).1, by rw [hfn]; simpa using h⟩
      | none =>
        simp only [hfn]
        cases hv3 : (normalizeVal o v2).1 with
        | vmap l =>
          intro h
          simp only at h
          exact transformEntries_err fn o f l e h
        | vslice l =>
          intro h
          simp only at h
          exact transformList_err fn o f l e h
        | vnull => simp
        | vbool b => simp
        | vnum x => simp
        | vnan => simp
        | vint n => simp
        | vstr s => simp
        | vtime tm => simp
        | vmapOther l => simp
        | vsliceOther l => simp
        | vmarshaler j => simp
        | vfunc m => simp
  termination_by f _ _ => (f, 0)

theorem transformEntries_err (fn : GoVal → GoVal × Option GoError) (o : NormalizeOptions) :
    ∀ (f : Nat) (l : List (String × GoVal)) (e : GoError),
      (transformEntries fn o f l).2 = some e → ∃ u, (fn u).2 = some e
  | _, [], e => by simp [transformEntries]
  | f, (k, v) :: rest, e => by
      unfold transformEntries
      rcases ht : transformVal fn o f v with ⟨nv, e1⟩
      cases e1 with
      | some err =>
        intro h
        simp only at h
        injection h with h2
        subst h2
        exact transformVal_err fn o f v err (by rw [ht])
      | none =>
        intro h
        simp only at h
        exact transformEntries_err fn o f rest e h
  termination_by f l _ => (f, l.length + 1)

theorem transformList_err (fn : GoVal → GoVal × Option GoError) (o : NormalizeOptions) :
    ∀ (f : Nat) (l : List GoVal) (e : GoError),
      (transformList fn o f l).2 = some e → ∃ u, (fn u).2 = some e
  | _, [], e => by simp [transformList]
  | f, v :: rest, e => by
      unfold transformList
      rcases ht : transformVal fn o f v with ⟨nv, e1⟩
      cases e1 with
      | some err =>
        intro h
        simp only at h
        injection h with h2
        subst h2
        exact transformVal_err fn o f v err (by rw [ht])
      | none =>
        intro h
        simp only at h
        exact transformList_err fn o f rest e h
  termination_by f l _ => (f, l.length + 1)

end

/-- C9: if the transformer returns the sentinel `ErrStop` at some node, the
walk aborts and `Transform` returns a nil error; if it returns any other
error, `Transform` returns exactly that error; and every error the walk
produces was returned by the transformer at some node (`transform` itself
never contributes one — it discards normalization errors). -/
theorem claim9_errstop_swallowed (v : GoVal) (fn : GoVal → GoVal × Option GoError)
    (fuel : Nat) (opts : List NormalizeOption) :
    let o := { applyNormOptions { copy := true, marshal := true } opts with deep := false }
    let r := transformVal fn o fuel v
    (r.2 = some ErrStop → Transform v fn fuel opts = (r.1, none))
    ∧ (∀ e, r.2 = some e → e ≠ ErrStop → Transform v fn fuel opts = (r.1, some e))
    ∧ (∀ e, r.2 = some e → ∃ u, (fn u).2 = some e) := by
  intro o r
  refine ⟨?_, ?_, ?_⟩
  · intro h
    show (if (r.2 == some ErrStop) = true then (r.1, none) else r) = (r.1, none)
    rw [h]
    rfl
  · intro e he hne
    show (if (r.2 == some ErrStop) = true then (r.1, none) else r) = (r.1, some e)
    rw [he]
    have hb : ((some e == some ErrStop) : Bool) = false := by
      simp [hne]
    rw [hb]
    simp only [Bool.false_eq_true, if_false]
    conv_lhs => rw [show r = (r.1, r.2) from rfl]
    rw [he]
  · intro e he
    exact transformVal_err fn o fuel v e he

/-- C9 witness: a transformer that immediately returns `ErrStop`; `Transform`
returns a nil error. -/
theorem claim9_witness :
    Transform .vnull (fun _ => (.vnull, some ErrStop)) 1 [] = (.vnull, none) := by
  have h := (claim9_errstop_swallowed .vnull (fun _ => (.vnull, some ErrStop)) 1 []).1
  have hr : (transformVal (fun _ => ((.vnull : GoVal), some ErrStop))
      { applyNormOptions { copy := true, marshal := true } [] with deep := false }
      1 .vnull) = (.vnull, some ErrStop) := by
    simp [transformVal, applyNormOptions]
  have h2 := h (by rw [hr])
  rw [h2, hr]

mutual

/-- Canonical values: the shapes `Normalize` (copy+marshal+deep) produces —
maps, slices, strings, `float64` numbers, bools and null, recursively. -/
def canonB : GoVal → Bool
  | .vnull => true
  | .vbool _ => true
  | .vnum _ => true
  | .vnan => true
  | .vstr _ => true
  | .vmap l => canonEntries l
  | .vslice l => canonList l
  | _ => false

def canonEntries : List (String × GoVal) → Bool
  | [] => true
  | (_, v) :: rest => canonB v && canonEntries rest

def canonList : List GoVal → Bool
  | [] => true
  | v :: rest => canonB v && canonList rest

end

mutual

/-- Normalization is the identity (and error-free) on canonical values, for
every option set. -/
theorem normalizeVal_canon (o : NormalizeOptions) :
    ∀ v : GoVal, canonB v = true → normalizeVal o v = (v, none)
  | .vnull, _ => rfl
  | .vbool b, _ => rfl
  | .vnum x, _ => rfl
  | .vnan, _ => rfl
  | .vstr s, _ => by
      unfold normalizeVal
      split
      · simp [goTimeParse]
      · rfl
  | .vmap l, h => by
      have hl : canonEntries l = true := by simpa [canonB] using h
      unfold normalizeVal
      rw [normEntries_canon o l hl]
      by_cases hc : !o.copy && !o.deep
      · simp [hc]
      · simp only [hc, Bool.false_eq_true, if_false]
        by_cases hd : o.deep
        · simp [hd]
        · simp [hd]
  | .vslice l, h => by
      have hl : canonList l = true := by simpa [canonB] using h
      unfold normalizeVal
      rw [normList_canon o l hl]
      by_cases hc : !o.copy && !o.deep
      · simp [hc]
      · simp only [hc, Bool.false_eq_true, if_false]
        by_cases hd : o.deep
        · simp [hd]
        · simp [hd]
  | .vint n, h => by simp [canonB] at h
  | .vtime tm, h => by simp [canonB] at h
  | .vmapOther l, h => by simp [canonB] at h
  | .vsliceOther l, h => by simp [canonB] at h
  | .vmarshaler j, h => by simp [canonB] at h
  | .vfunc e, h => by simp [canonB] at h

theorem normEntries_canon (o : NormalizeOptions) :
    ∀ l : List (String × GoVal), canonEntries l = true → normEntries o l = (l, none)
  | [], _ => rfl
  | (k, v) :: rest, h => by
      obtain ⟨hv, hr⟩ : canonB v = true ∧ canonEntries rest = true := by
        simpa [canonEntries] using h
      unfold normEntries
      rw [normalizeVal_canon o v hv]
      simp only []
      rw [normEntries_canon o rest hr]

theorem normList_canon (o : NormalizeOptions) :
    ∀ l : List GoVal, canonList l = true → normList o l = (l, none)
  | [], _ => rfl
  | v :: rest, h => by
      obtain ⟨hv, hr⟩ : canonB v = true ∧ canonList rest = true := by
        simpa [canonList] using h
      unfold normList
      rw [normalizeVal_canon o v hv]
      simp only []
      rw [normList_canon o rest hr]

end

mutual

/-- The JSON round trip decodes into canonical values. -/
theorem jsonToVal_canon : ∀ j : Json, canonB (jsonToVal j) = true
  | .null => rfl
  | .bool b => rfl
  | .num x => rfl
  | .str s => rfl
  | .obj l => by
      show canonB (.vmap (jsonToValEntries l)) = true
      unfold canonB
      exact jsonToValEntries_canon l
  | .arr l => by
      show canonB (.vslice (jsonToValArr l)) = true
      unfold canonB
      exact jsonToValArr_canon l

theorem jsonToValEntries_canon : ∀ l : List (String × Json),
    canonEntries (jsonToValEntries l) = true
  | [] => rfl
  | (k, j) :: rest => by
      show canonEntries ((k, jsonToVal j) :: jsonToValEntries rest) = true
      unfold canonEntries
      rw [jsonToVal_canon j, jsonToValEntries_canon rest]
      rfl

theorem jsonToValArr_canon : ∀ l : List Json, canonList (jsonToValArr l) = true
  | [] => rfl
  | j :: rest => by
      show canonList (jsonToVal j :: jsonToValArr rest) = true
      unfold canonList
      rw [jsonToVal_canon j, jsonToValArr_canon rest]
      rfl

end

/-- The default options of `Normalize` (and of `Merge`). -/
def defaultNormOptions : NormalizeOptions := { copy := true, marshal := true, deep := true }

mutual

/-- A successful default normalization produces a canonical value. -/
theorem normalizeVal_result_canon :
    ∀ (v n : GoVal), normalizeVal defaultNormOptions v = (n, none) → canonB n = true
  | .vnull, n, h => by
      rw [show normalizeVal defaultNormOptions .vnull = (.vnull, none) from rfl] at h
      cases h
      rfl
  | .vbool b, n, h => by
      rw [show normalizeVal defaultNormOptions (.vbool b) = (.vbool b, none) from rfl] at h
      cases h
      rfl
  | .vnum x, n, h => by
      rw [show normalizeVal defaultNormOptions (.vnum x) = (.vnum x, none) from rfl] at h
      cases h
      rfl
  | .vnan, n, h => by
      rw [show normalizeVal defaultNormOptions .vnan = (.vnan, none) from rfl] at h
      cases h
      rfl
  | .vint m, n, h => by
      rw [show normalizeVal defaultNormOptions (.vint m) = (.vnum m, none) from rfl] at h
      cases h
      rfl
  | .vstr s, n, h => by
      rw [show normalizeVal defaultNormOptions (.vstr s) = (.vstr s, none) from rfl] at h
      cases h
      rfl
  | .vtime tm, n, h => by
      rw [show normalizeVal defaultNormOptions (.vtime tm)
        = (.vstr (goTimeRFC tm), none) from rfl] at h
      cases h
      rfl
  | .vmarshaler j, n, h => by
      rw [show normalizeVal defaultNormOptions (.vmarshaler j)
        = (jsonToVal j, none) from rfl] at h
      cases h
      exact jsonToVal_canon j
  | .vfunc e, n, h => by
      rw [show normalizeVal defaultNormOptions (.vfunc e) = (.vnull, some e) from rfl] at h
      cases h
  | .vmap l, n, h => by
      unfold normalizeVal at h
      simp only [show ((!defaultNormOptions.copy && !defaultNormOptions.deep) = true)
          = False by simp [defaultNormOptions], if_false,
        show (defaultNormOptions.deep = true) = True by simp [defaultNormOptions],
        if_true] at h
      rcases he : normEntries defaultNormOptions l with ⟨pre, e⟩
      rw [he] at h
      cases e with
      | none =>
        simp only at h
        cases h
        show canonB (.vmap pre) = true
        unfold canonB
        exact normEntries_result_canon l pre he
      | some err =>
        simp only at h
        split at h <;> simp_all
  | .vslice l, n, h => by
      unfold normalizeVal at h
      simp only [show ((!defaultNormOptions.copy && !defaultNormOptions.deep) = true)
          = False by simp [defaultNormOptions], if_false,
        show (defaultNormOptions.deep = true) = True by simp [defaultNormOptions],
        if_true] at h
      rcases he : normList defaultNormOptions l with ⟨pre, e⟩
      rw [he] at h
      cases e with
      | none =>
        simp only at h
        cases h
        show canonB (.vslice pre) = true
        unfold canonB
        exact normList_result_canon l pre he
      | some err =>
        simp only at h
        split at h <;> simp_all
  | .vmapOther l, n, h => by
      unfold normalizeVal at h
      simp only [show (defaultNormOptions.deep = true) = True by simp [defaultNormOptions],
        if_true] at h
      rcases he : normEntries defaultNormOptions l with ⟨pre, e⟩
      rw [he] at h
      cases e with
      | none =>
        simp only at h
        cases h
        show canonB (.vmap pre) = true
        unfold canonB
        exact normEntries_result_canon l pre he
      | some err => simp at h
  | .vsliceOther l, n, h => by
      unfold normalizeVal at h
      simp only [show (defaultNormOptions.deep = true) = True by simp [defaultNormOptions],
        if_true] at h
      rcases he : normList defaultNormOptions l with ⟨pre, e⟩
      rw [he] at h
      cases e with
      | none =>
        simp only at h
        cases h
        show canonB (.vslice pre) = true
        unfold canonB
        exact normList_result_canon l pre he
      | some err => simp at h

theorem normEntries_result_canon :
    ∀ (l nl : List (String × GoVal)),
      normEntries defaultNormOptions l = (nl, none) → canonEntries nl = true
  | [], nl, h => by
      cases h
      rfl
  | (k, v) :: rest, nl, h => by
      unfold normEntries at h
      rcases hv : normalizeVal defaultNormOptions v with ⟨nv, e1⟩
      rw [hv] at h
      cases e1 with
      | some err => simp at h
      | none =>
        simp only at h
        rcases hr : normEntries defaultNormOptions rest with ⟨nrest, e2⟩
        rw [hr] at h
        cases e2 with
        | some err => simp at h
        | none =>
          simp only at h
          cases h
          show canonEntries ((k, nv) :: nrest) = true
          unfold canonEntries
          rw [normalizeVal_result_canon v nv hv, normEntries_result_canon rest nrest hr]
          rfl

theorem normList_result_canon :
    ∀ (l nl : List GoVal),
      normList defaultNormOptions l = (nl, none) → canonList nl = true
  | [], nl, h => by
      cases h
      rfl
  | v :: rest, nl, h => by
      unfold normList at h
      rcases hv : normalizeVal defaultNormOptions v with ⟨nv, e1⟩
      rw [hv] at h
      cases e1 with
      | some err => simp at h
      | none =>
        simp only at h
        rcases hr : normList defaultNormOptions rest with ⟨nrest, e2⟩
        rw [hr] at h
        cases e2 with
        | some err => simp at h
        | none =>
          simp only at h
          cases h
          show canonList (nv :: nrest) = true
          unfold canonList
          rw [normalizeVal_result_canon v nv hv, normList_result_canon rest nrest hr]
          rfl

end

/-- C3: normalization is idempotent — whenever `Normalize` (with its default
options) succeeds, normalizing the result again returns it unchanged with no
error. -/
theorem claim3_normalize_idempotent (v n : GoVal) (h : Normalize v = (n, none)) :
    Normalize n = (n, none) := by
  have hd : normalizeVal defaultNormOptions v = (n, none) := h
  have hc := normalizeVal_result_canon v n hd
  show normalizeVal defaultNormOptions n = (n, none)
  exact normalizeVal_canon defaultNormOptions n hc

/-- C3 witness: idempotence at a concrete value (integer widening plus a
custom marshaler, both normalized away by the first pass). -/
theorem claim3_witness :
    Normalize (.vmap [("a", .vint 5), ("b", .vmarshaler (.obj [("x", .num 1)]))])
      = (.vmap [("a", .vnum 5), ("b", .vmap [("x", .vnum 1)])], none)
    ∧ Normalize (.vmap [("a", .vnum 5), ("b", .vmap [("x", .vnum 1)])])
      = (.vmap [("a", .vnum 5), ("b", .vmap [("x", .vnum 1)])], none) := by
  constructor
  · decide
  · exact claim3_normalize_idempotent
      (.vmap [("a", .vint 5), ("b", .vmarshaler (.obj [("x", .num 1)]))])
      (.vmap [("a", .vnum 5), ("b", .vmap [("x", .vnum 1)])]) (by decide)

/-- The context `buildContainsCtx [] false`: no options, containment mode. -/
def cctxDefault : containsCtx := buildContainsCtx [] false

/-- The context `buildContainsCtx [] true`: no options, equivalence mode. -/
def cctxEquiv : containsCtx := buildContainsCtx [] true

theorem gsize_pos : ∀ v : GoVal, 0 < gsize v := by
  intro v
  cases v <;> simp [gsize]

theorem geq_refl (v : GoVal) : geq v v = true := (geq_iff v v).mpr rfl

theorem lookupKey_self :
    ∀ (l : List (String × GoVal)) (k : String) (w : GoVal),
      noDupKeys l = true → (k, w) ∈ l → lookupKey l k = some w := by
  intro l
  induction l with
  | nil => intro k w _ hm; cases hm
  | cons hd tl ih =>
    intro k w hnd hm
    obtain ⟨k1, v1⟩ := hd
    have hnd2 : (!(tl.any (fun e => e.1 == k1)) && noDupKeys tl) = true := hnd
    obtain ⟨hany, htl⟩ := Bool.and_eq_true_iff.mp hnd2
    unfold lookupKey
    rcases List.mem_cons.mp hm with heq | hmem
    · cases heq
      simp
    · by_cases hk : k1 = k
      · subst hk
        exfalso
        have : tl.any (fun e => e.1 == k1) = true :=
          List.any_eq_true.mpr ⟨(k1, w), hmem, by simp⟩
        simp [this] at hany
      · rw [if_neg (by simpa using hk)]
        exact ih k w htl hmem

theorem lookupKey_mem :
    ∀ (l : List (String × GoVal)) (k : String) (w : GoVal),
      lookupKey l k = some w → (k, w) ∈ l := by
  intro l
  induction l with
  | nil => intro k w h; cases h
  | cons hd tl ih =>
    intro k w h
    obtain ⟨k1, v1⟩ := hd
    unfold lookupKey at h
    by_cases hk : k1 == k
    · rw [if_pos hk] at h
      cases h
      have : k1 = k := by simpa using hk
      subst this
      exact List.mem_cons_self _ _
    · rw [if_neg (by simpa using hk)] at h
      exact List.mem_cons_of_mem _ (ih k w h)

theorem gsizeEntries_mem :
    ∀ (l : List (String × GoVal)) (kv : String × GoVal),
      kv ∈ l → gsize kv.2 + 1 ≤ gsizeEntries l := by
  intro l
  induction l with
  | nil => intro kv h; cases h
  | cons hd tl ih =>
    intro kv h
    obtain ⟨k1, v1⟩ := hd
    show gsize kv.2 + 1 ≤ 1 + gsize v1 + gsizeEntries tl
    rcases List.mem_cons.mp h with heq | hmem
    · subst heq
      show gsize v1 + 1 ≤ 1 + gsize v1 + gsizeEntries tl
      omega
    · have := ih kv hmem
      omega

theorem gsizeList_mem :
    ∀ (l : List GoVal) (x : GoVal), x ∈ l → gsize x + 1 ≤ gsizeList l := by
  intro l
  induction l with
  | nil => intro x h; cases h
  | cons hd tl ih =>
    intro x h
    show gsize x + 1 ≤ 1 + gsize hd + gsizeList tl
    rcases List.mem_cons.mp h with heq | hmem
    · subst heq
      omega
    · have := ih x hmem
      omega

theorem jsizeEntries_mem :
    ∀ (l : List (String × Json)) (kv : String × Json),
      kv ∈ l → jsize kv.2 + 1 ≤ jsizeEntries l := by
  intro l
  induction l with
  | nil => intro kv h; cases h
  | cons hd tl ih =>
    intro kv h
    obtain ⟨k1, v1⟩ := hd
    show jsize kv.2 + 1 ≤ 1 + jsize v1 + jsizeEntries tl
    rcases List.mem_cons.mp h with heq | hmem
    · subst heq
      show jsize v1 + 1 ≤ 1 + jsize v1 + jsizeEntries tl
      omega
    · have := ih kv hmem
      omega

theorem jsizeArr_mem :
    ∀ (l : List Json) (x : Json), x ∈ l → jsize x + 1 ≤ jsizeArr l := by
  intro l
  induction l with
  | nil => intro x h; cases h
  | cons hd tl ih =>
    intro x h
    show jsize x + 1 ≤ 1 + jsize hd + jsizeArr tl
    rcases List.mem_cons.mp h with heq | hmem
    · subst heq
      omega
    · have := ih x hmem
      omega

theorem gwfEntries_mem :
    ∀ (l : List (String × GoVal)) (kv : String × GoVal),
      gwfEntries l = true → kv ∈ l → gwf kv.2 = true := by
  intro l
  induction l with
  | nil => intro kv _ h; cases h
  | cons hd tl ih =>
    intro kv hw h
    obtain ⟨k1, v1⟩ := hd
    have hw2 : (gwf v1 && gwfEntries tl) = true := hw
    obtain ⟨h1, h2⟩ := Bool.and_eq_true_iff.mp hw2
    rcases List.mem_cons.mp h with heq | hmem
    · subst heq
      exact h1
    · exact ih kv h2 hmem

theorem gwfList_mem :
    ∀ (l : List GoVal) (x : GoVal), gwfList l = true → x ∈ l → gwf x = true := by
  intro l
  induction l with
  | nil => intro x _ h; cases h
  | cons hd tl ih =>
    intro x hw h
    have hw2 : (gwf hd && gwfList tl) = true := hw
    obtain ⟨h1, h2⟩ := Bool.and_eq_true_iff.mp hw2
    rcases List.mem_cons.mp h with heq | hmem
    · subst heq
      exact h1
    · exact ih x h2 hmem

theorem jwfEntries_mem :
    ∀ (l : List (String × Json)) (kv : String × Json),
      jwfEntries l = true → kv ∈ l → jwf kv.2 = true := by
  intro l
  induction l with
  | nil => intro kv _ h; cases h
  | cons hd tl ih =>
    intro kv hw h
    obtain ⟨k1, v1⟩ := hd
    have hw2 : (jwf v1 && jwfEntries tl) = true := hw
    obtain ⟨h1, h2⟩ := Bool.and_eq_true_iff.mp hw2
    rcases List.mem_cons.mp h with heq | hmem
    · subst heq
      exact h1
    · exact ih kv h2 hmem

theorem jwfArr_mem :
    ∀ (l : List Json) (x : Json), jwfArr l = true → x ∈ l → jwf x = true := by
  intro l
  induction l with
  | nil => intro x _ h; cases h
  | cons hd tl ih =>
    intro x hw h
    have hw2 : (jwf hd && jwfArr tl) = true := hw
    obtain ⟨h1, h2⟩ := Bool.and_eq_true_iff.mp hw2
    rcases List.mem_cons.mp h with heq | hmem
    · subst heq
      exact h1
    · exact ih x h2 hmem

/-- A successful deep normalization of a map entry list succeeds on each
entry value. -/
theorem normEntries_child_ok :
    ∀ (l : List (String × GoVal)) (o : NormalizeOptions) (kv : String × GoVal),
      (normEntries o l).2 = none → kv ∈ l → (normalizeVal o kv.2).2 = none := by
  intro l
  induction l with
  | nil => intro o kv _ h; cases h
  | cons hd tl ih =>
    intro o kv hn h
    obtain ⟨k1, v1⟩ := hd
    unfold normEntries at hn
    rcases hv : normalizeVal o v1 with ⟨nv, e1⟩
    rw [hv] at hn
    cases e1 with
    | some err => simp at hn
    | none =>
      simp only at hn
      rcases hr : normEntries o tl with ⟨nrest, e2⟩
      rw [hr] at hn
      simp only at hn
      rcases List.mem_cons.mp h with heq | hmem
      · subst heq
        rw [hv]
      · exact ih o kv (by rw [hr]; exact hn) hmem

theorem normList_child_ok :
    ∀ (l : List GoVal) (o : NormalizeOptions) (x : GoVal),
      (normList o l).2 = none → x ∈ l → (normalizeVal o x).2 = none := by
  intro l
  induction l with
  | nil => intro o x _ h; cases h
  | cons hd tl ih =>
    intro o x hn h
    unfold normList at hn
    rcases hv : normalizeVal o hd with ⟨nv, e1⟩
    rw [hv] at hn
    cases e1 with
    | some err => simp at hn
    | none =>
      simp only at hn
      rcases hr : normList o tl with ⟨nrest, e2⟩
      rw [hr] at hn
      simp only at hn
      rcases List.mem_cons.mp h with heq | hmem
      · subst heq
        rw [hv]
      · exact ih o x (by rw [hr]; exact hn) hmem

mutual

theorem jsonToVal_gsize : ∀ j : Json, gsize (jsonToVal j) = jsize j
  | .null => rfl
  | .bool b => rfl
  | .num x => rfl
  | .str s => rfl
  | .obj l => by
      show gsize (.vmap (jsonToValEntries l)) = 1 + jsizeEntries l
      unfold gsize
      rw [jsonToValEntries_gsize l]
  | .arr l => by
      show gsize (.vslice (jsonToValArr l)) = 1 + jsizeArr l
      unfold gsize
      rw [jsonToValArr_gsize l]

theorem jsonToValEntries_gsize :
    ∀ l : List (String × Json), gsizeEntries (jsonToValEntries l) = jsizeEntries l
  | [] => rfl
  | (k, j) :: rest => by
      show gsizeEntries ((k, jsonToVal j) :: jsonToValEntries rest)
        = 1 + jsize j + jsizeEntries rest
      unfold gsizeEntries
      rw [jsonToVal_gsize j, jsonToValEntries_gsize rest]

theorem jsonToValArr_gsize :
    ∀ l : List Json, gsizeList (jsonToValArr l) = jsizeArr l
  | [] => rfl
  | j :: rest => by
      show gsizeList (jsonToVal j :: jsonToValArr rest) = 1 + jsize j + jsizeArr rest
      unfold gsizeList
      rw [jsonToVal_gsize j, jsonToValArr_gsize rest]

end

theorem jsonToValEntries_keys_any :
    ∀ (l : List (String × Json)) (k : String),
      (jsonToValEntries l).any (fun e => e.1 == k) = l.any (fun e => e.1 == k) := by
  intro l k
  induction l with
  | nil => rfl
  | cons hd tl ih =>
    obtain ⟨k1, j1⟩ := hd
    show ((k1, jsonToVal j1) :: jsonToValEntries tl).any (fun e => e.1 == k) = _
    simp only [List.any_cons]
    rw [ih]

theorem jsonToValEntries_nodup :
    ∀ l : List (String × Json),
      jnoDupKeys l = true → noDupKeys (jsonToValEntries l) = true := by
  intro l
  induction l with
  | nil => intro _; rfl
  | cons hd tl ih =>
    intro h
    obtain ⟨k1, j1⟩ := hd
    have h2 : (!(tl.any (fun e => e.1 == k1)) && jnoDupKeys tl) = true := h
    obtain ⟨ha, ht⟩ := Bool.and_eq_true_iff.mp h2
    show noDupKeys ((k1, jsonToVal j1) :: jsonToValEntries tl) = true
    unfold noDupKeys
    rw [jsonToValEntries_keys_any, ih ht]
    simpa using ha

mutual

theorem jsonToVal_gwf : ∀ j : Json, jwf j = true → gwf (jsonToVal j) = true
  | .null, _ => rfl
  | .bool b, _ => rfl
  | .num x, _ => rfl
  | .str s, _ => rfl
  | .obj l, h => by
      obtain ⟨hnd, he⟩ : jnoDupKeys l = true ∧ jwfEntries l = true := by
        simpa [jwf] using h
      show gwf (.vmap (jsonToValEntries l)) = true
      unfold gwf
      rw [jsonToValEntries_nodup l hnd, jsonToValEntries_gwf l he]
      rfl
  | .arr l, h => by
      have ha : jwfArr l = true := by simpa [jwf] using h
      show gwf (.vslice (jsonToValArr l)) = true
      unfold gwf
      exact jsonToValArr_gwf l ha

theorem jsonToValEntries_gwf :
    ∀ l : List (String × Json),
      jwfEntries l = true → gwfEntries (jsonToValEntries l) = true
  | [], _ => rfl
  | (k, j) :: rest, h => by
      obtain ⟨hj, hr⟩ : jwf j = true ∧ jwfEntries rest = true := by
        simpa [jwfEntries] using h
      show gwfEntries ((k, jsonToVal j) :: jsonToValEntries rest) = true
      unfold gwfEntries
      rw [jsonToVal_gwf j hj, jsonToValEntries_gwf rest hr]
      rfl

theorem jsonToValArr_gwf :
    ∀ l : List Json, jwfArr l = true → gwfList (jsonToValArr l) = true
  | [], _ => rfl
  | j :: rest, h => by
      obtain ⟨hj, hr⟩ : jwf j = true ∧ jwfArr rest = true := by
        simpa [jwfArr] using h
      show gwfList (jsonToVal j :: jsonToValArr rest) = true
      unfold gwfList
      rw [jsonToVal_gwf j hj, jsonToValArr_gwf rest hr]
      rfl

end

theorem jsonToValEntries_mem :
    ∀ (l : List (String × Json)) (kv : String × GoVal),
      kv ∈ jsonToValEntries l → ∃ j : Json, (kv.1, j) ∈ l ∧ kv.2 = jsonToVal j := by
  intro l
  induction l with
  | nil => intro kv h; cases h
  | cons hd tl ih =>
    intro kv h
    obtain ⟨k1, j1⟩ := hd
    have h2 : kv ∈ (k1, jsonToVal j1) :: jsonToValEntries tl := h
    rcases List.mem_cons.mp h2 with heq | hmem
    · subst heq
      exact ⟨j1, List.mem_cons_self _ _, rfl⟩
    · obtain ⟨j, hj, he⟩ := ih kv hmem
      exact ⟨j, List.mem_cons_of_mem _ hj, he⟩

theorem jsonToValArr_mem :
    ∀ (l : List Json) (x : GoVal),
      x ∈ jsonToValArr l → ∃ j : Json, j ∈ l ∧ x = jsonToVal j := by
  intro l
  induction l with
  | nil => intro x h; cases h
  | cons hd tl ih =>
    intro x h
    have h2 : x ∈ jsonToVal hd :: jsonToValArr tl := h
    rcases List.mem_cons.mp h2 with heq | hmem
    · subst heq
      exact ⟨hd, List.mem_cons_self _ _, rfl⟩
    · obtain ⟨j, hj, he⟩ := ih x hmem
      exact ⟨j, List.mem_cons_of_mem _ hj, he⟩

theorem mapScan_complete (rec : RecFn) (l1 : List (String × GoVal)) :
    ∀ (l2 : List (String × GoVal)) (t : CtxState),
      (∀ kv ∈ l2, ∃ w, lookupKey l1 kv.1 = some w
        ∧ ∀ t2 : CtxState, (rec w kv.2 t2).1 = true) →
      (mapScan rec l1 t l2).1 = some [] := by
  intro l2
  induction l2 with
  | nil => intro t _; rfl
  | cons hd tl ih =>
    intro t h
    obtain ⟨k, val2⟩ := hd
    obtain ⟨w, hw, hrec⟩ := h (k, val2) (List.mem_cons_self _ _)
    unfold mapScan
    rw [hw]
    simp only [dive, hrec]
    exact ih _ (fun kv hkv => h kv (List.mem_cons_of_mem _ hkv))

theorem sliceFind_found (rec : RecFn) (val2 : GoVal) :
    ∀ (l1 : List GoVal) (i : Nat) (t : CtxState),
      (∃ x ∈ l1, ∀ t2 : CtxState, (rec x val2 t2).1 = true) →
      (sliceFind rec val2 t i l1).1.isSome = true := by
  intro l1
  induction l1 with
  | nil => intro i t h; obtain ⟨x, hx, _⟩ := h; cases hx
  | cons hd tl ih =>
    intro i t h
    unfold sliceFind
    by_cases hr : (rec hd val2 t).1 = true
    · simp [hr]
    · have hb : (rec hd val2 t).1 = false := by
        cases hh : (rec hd val2 t).1
        · rfl
        · exact absurd hh hr
      simp only [hb, Bool.false_eq_true, if_false]
      obtain ⟨x, hx, hrec⟩ := h
      rcases List.mem_cons.mp hx with heq | hmem
      · subst heq
        exact absurd (hrec t) hr
      · exact ih (i + 1) (rec hd val2 t).2 ⟨x, hmem, hrec⟩

theorem searchV2_complete (rec : RecFn) (l1 : List GoVal) (equiv : Bool)
    (vv1 vv2 : GoVal) :
    ∀ (l2 : List GoVal) (i : Nat) (t : CtxState),
      (∀ val2 ∈ l2, ∃ x ∈ l1, ∀ t2 : CtxState, (rec x val2 t2).1 = true) →
      ∃ m, (searchV2 rec l1 equiv vv1 vv2 t i l2).1 = some m := by
  intro l2
  induction l2 with
  | nil => intro i t _; exact ⟨[], rfl⟩
  | cons hd tl ih =>
    intro i t h
    unfold searchV2
    rcases hf : sliceFind rec hd t 0 l1 with ⟨oi, t2⟩
    cases oi with
    | none =>
      exfalso
      have := sliceFind_found rec hd l1 0 t (h hd (List.mem_cons_self _ _))
      rw [hf] at this
      simp at this
    | some i1 =>
      simp only []
      obtain ⟨m, hm⟩ := ih (i + 1) t2 (fun v hv => h v (List.mem_cons_of_mem _ hv))
      rw [hm]
      cases equiv <;> exact ⟨_, rfl⟩

/-- Reflexivity of `containsNormalized` in default containment mode, given
that the recursive callback is reflexive on the children of the (map or
slice) value. -/
theorem containsNormalizedF_refl (rec : RecFn) (nv : GoVal) (t : CtxState)
    (hnan : nanFreeB nv = true)
    (hmap : ∀ l, nv = .vmap l → noDupKeys l = true
      ∧ ∀ kv ∈ l, ∀ t2 : CtxState, (rec kv.2 kv.2 t2).1 = true)
    (hslice : ∀ l, nv = .vslice l →
      ∀ x ∈ l, ∀ t2 : CtxState, (rec x x t2).1 = true) :
    (containsNormalizedF rec cctxDefault nv nv t).1 = true := by
  unfold containsNormalizedF
  have hco : cctxDefault.copts = ({} : containsOptions) := rfl
  rw [hco]
  simp only [show ({} : containsOptions).matchEmptyValues = false from rfl,
    Bool.false_and, Bool.false_eq_true, if_false]
  cases nv with
  | vtime tm => simp [goIfaceEq]
  | vstr s => simp [goIfaceEq]
  | vbool b => simp [goIfaceEq]
  | vnull => simp [goIfaceEq]
  | vnum x => simp [goIfaceEq]
  | vmap l =>
    obtain ⟨hnd, hrec⟩ := hmap l rfl
    have hms : (mapScan rec l t l).1 = some [] := by
      apply mapScan_complete
      intro kv hkv
      exact ⟨kv.2, lookupKey_self l kv.1 kv.2 hnd (by
        rcases kv with ⟨a, b⟩
        exact hkv), hrec kv hkv⟩
    rcases hscan : mapScan rec l t l with ⟨res, t2⟩
    rw [hscan] at hms
    simp only at hms
    subst hms
    simp only []
    rw [hscan]
    simp
  | vslice l =>
    have hrec := hslice l rfl
    obtain ⟨m, hm⟩ := searchV2_complete rec l cctxDefault.equiv (.vslice l) (.vslice l) l 0 t
      (fun val2 hv => ⟨val2, hv, hrec val2 hv⟩)
    simp only [show cctxDefault.equiv = false from rfl] at hm ⊢
    simp only [Bool.false_and, Bool.false_eq_true, if_false]
    rcases hscan : searchV2 rec l false (.vslice l) (.vslice l) t 0 l with ⟨res, t2⟩
    rw [hscan] at hm
    simp only at hm
    subst hm
    rfl
  | vnan => simp [nanFreeB] at hnan
  | vint n => simp [deepEq, geq_refl, nanFreeB]
  | vmapOther l => simp [deepEq, geq_refl, show nanFreeB (.vmapOther l) = true from hnan]
  | vsliceOther l => simp [deepEq, geq_refl, show nanFreeB (.vsliceOther l) = true from hnan]
  | vmarshaler j => simp [deepEq, geq_refl, nanFreeB]
  | vfunc e => simp [deepEq, geq_refl, nanFreeB]

theorem normMap_deep_ok (l : List (String × GoVal))
    (h : (normalizeVal defaultNormOptions (.vmap l)).2 = none) :
    (normEntries defaultNormOptions l).2 = none := by
  unfold normalizeVal at h
  simp only [show ((!defaultNormOptions.copy && !defaultNormOptions.deep) = true) = False
      by simp [defaultNormOptions], if_false,
    show (defaultNormOptions.deep = true) = True by simp [defaultNormOptions], if_true] at h
  rcases he : normEntries defaultNormOptions l with ⟨pre, e⟩
  rw [he] at h
  cases e with
  | none => rfl
  | some err =>
    simp only at h
    split at h <;> simp at h

theorem normSlice_deep_ok (l : List GoVal)
    (h : (normalizeVal defaultNormOptions (.vslice l)).2 = none) :
    (normList defaultNormOptions l).2 = none := by
  unfold normalizeVal at h
  simp only [show ((!defaultNormOptions.copy && !defaultNormOptions.deep) = true) = False
      by simp [defaultNormOptions], if_false,
    show (defaultNormOptions.deep = true) = True by simp [defaultNormOptions], if_true] at h
  rcases he : normList defaultNormOptions l with ⟨pre, e⟩
  rw [he] at h
  cases e with
  | none => rfl
  | some err =>
    simp only at h
    split at h <;> simp at h

theorem normMapOther_deep_ok (l : List (String × GoVal))
    (h : (normalizeVal defaultNormOptions (.vmapOther l)).2 = none) :
    (normEntries defaultNormOptions l).2 = none := by
  unfold normalizeVal at h
  simp only [show (defaultNormOptions.deep = true) = True by simp [defaultNormOptions],
    if_true] at h
  rcases he : normEntries defaultNormOptions l with ⟨pre, e⟩
  rw [he] at h
  cases e with
  | none => rfl
  | some err => simp at h

theorem normSliceOther_deep_ok (l : List GoVal)
    (h : (normalizeVal defaultNormOptions (.vsliceOther l)).2 = none) :
    (normList defaultNormOptions l).2 = none := by
  unfold normalizeVal at h
  simp only [show (defaultNormOptions.deep = true) = True by simp [defaultNormOptions],
    if_true] at h
  rcases he : normList defaultNormOptions l with ⟨pre, e⟩
  rw [he] at h
  cases e with
  | none => rfl
  | some err => simp at h

theorem nanFreeEntries_mem :
    ∀ (l : List (String × GoVal)) (kv : String × GoVal),
      nanFreeEntries l = true → kv ∈ l → nanFreeB kv.2 = true := by
  intro l
  induction l with
  | nil => intro kv _ h; cases h
  | cons hd tl ih =>
    intro kv hs h
    obtain ⟨k1, v1⟩ := hd
    obtain ⟨h1, h2⟩ := Bool.and_eq_true_iff.mp
      (show (nanFreeB v1 && nanFreeEntries tl) = true from hs)
    rcases List.mem_cons.mp h with heq | hmem
    · subst heq
      exact h1
    · exact ih kv h2 hmem

theorem nanFreeList_mem :
    ∀ (l : List GoVal) (x : GoVal),
      nanFreeList l = true → x ∈ l → nanFreeB x = true := by
  intro l
  induction l with
  | nil => intro x _ h; cases h
  | cons hd tl ih =>
    intro x hs h
    obtain ⟨h1, h2⟩ := Bool.and_eq_true_iff.mp
      (show (nanFreeB hd && nanFreeList tl) = true from hs)
    rcases List.mem_cons.mp h with heq | hmem
    · subst heq
      exact h1
    · exact ih x h2 hmem

mutual

theorem jsonToVal_nanFree : ∀ j : Json, nanFreeB (jsonToVal j) = true
  | .null => rfl
  | .bool b => rfl
  | .num x => rfl
  | .str s => rfl
  | .obj l => by
      show nanFreeB (.vmap (jsonToValEntries l)) = true
      unfold nanFreeB
      exact jsonToValEntries_nanFree l
  | .arr l => by
      show nanFreeB (.vslice (jsonToValArr l)) = true
      unfold nanFreeB
      exact jsonToValArr_nanFree l

theorem jsonToValEntries_nanFree : ∀ l : List (String × Json),
    nanFreeEntries (jsonToValEntries l) = true
  | [] => rfl
  | (k, j) :: rest => by
      show nanFreeEntries ((k, jsonToVal j) :: jsonToValEntries rest) = true
      unfold nanFreeEntries
      rw [jsonToVal_nanFree j, jsonToValEntries_nanFree rest]
      rfl

theorem jsonToValArr_nanFree : ∀ l : List Json, nanFreeList (jsonToValArr l) = true
  | [] => rfl
  | j :: rest => by
      show nanFreeList (jsonToVal j :: jsonToValArr rest) = true
      unfold nanFreeList
      rw [jsonToVal_nanFree j, jsonToValArr_nanFree rest]
      rfl

end

/-- Reflexivity of the fuelled `contains` with no options, for well-formed
NaN-free values whose default (deep) normalization succeeds. -/
theorem containsF_refl :
    ∀ (f : Nat) (v : GoVal) (t : CtxState),
      gwf v = true → nanFreeB v = true →
      (normalizeVal defaultNormOptions v).2 = none → gsize v < f →
      (containsF cctxDefault f v v t).1 = true := by
  intro f
  induction f with
  | zero =>
    intro v t _ _ _ hf
    have := gsize_pos v
    omega
  | succ f ih =>
    intro v t hw hnanf hn hf
    cases v with
    | vnan => simp [nanFreeB] at hnanf
    | vnull =>
      rw [containsF_succ_fst cctxDefault f .vnull .vnull .vnull .vnull t rfl rfl]
      exact containsNormalizedF_refl _ _ _ rfl (by intro l h; cases h) (by intro l h; cases h)
    | vbool b =>
      rw [containsF_succ_fst cctxDefault f (.vbool b) (.vbool b) (.vbool b) (.vbool b) t rfl rfl]
      exact containsNormalizedF_refl _ _ _ rfl (by intro l h; cases h) (by intro l h; cases h)
    | vnum x =>
      rw [containsF_succ_fst cctxDefault f (.vnum x) (.vnum x) (.vnum x) (.vnum x) t rfl rfl]
      exact containsNormalizedF_refl _ _ _ rfl (by intro l h; cases h) (by intro l h; cases h)
    | vint n =>
      rw [containsF_succ_fst cctxDefault f (.vint n) (.vint n) (.vnum n) (.vnum n) t rfl rfl]
      exact containsNormalizedF_refl _ _ _ rfl (by intro l h; cases h) (by intro l h; cases h)
    | vstr s =>
      rw [containsF_succ_fst cctxDefault f (.vstr s) (.vstr s) (.vstr s) (.vstr s) t rfl rfl]
      exact containsNormalizedF_refl _ _ _ rfl (by intro l h; cases h) (by intro l h; cases h)
    | vtime tm =>
      rw [containsF_succ_fst cctxDefault f (.vtime tm) (.vtime tm) (.vtime tm) (.vtime tm) t rfl rfl]
      exact containsNormalizedF_refl _ _ _ rfl (by intro l h; cases h) (by intro l h; cases h)
    | vfunc e =>
      exfalso
      rw [show normalizeVal defaultNormOptions (.vfunc e) = (.vnull, some e) from rfl] at hn
      cases hn
    | vmap l =>
      rw [containsF_succ_fst cctxDefault f (.vmap l) (.vmap l) (.vmap l) (.vmap l) t rfl rfl]
      obtain ⟨hnd, hge⟩ := Bool.and_eq_true_iff.mp
        (show (noDupKeys l && gwfEntries l) = true from hw)
      have hch := normMap_deep_ok l hn
      apply containsNormalizedF_refl
      · exact hnanf
      · intro l2 h
        cases h
        refine ⟨hnd, ?_⟩
        intro kv hkv t2
        apply ih kv.2 t2 (gwfEntries_mem l kv hge hkv)
          (nanFreeEntries_mem l kv (show nanFreeEntries l = true from hnanf) hkv)
          (normEntries_child_ok l defaultNormOptions kv hch hkv)
        have h1 := gsizeEntries_mem l kv hkv
        have h2 : gsize (GoVal.vmap l) = 1 + gsizeEntries l := rfl
        omega
      · intro l2 h
        cases h
    | vslice l =>
      rw [containsF_succ_fst cctxDefault f (.vslice l) (.vslice l) (.vslice l) (.vslice l) t rfl rfl]
      have hgl : gwfList l = true := hw
      have hch := normSlice_deep_ok l hn
      apply containsNormalizedF_refl
      · exact hnanf
      · intro l2 h
        cases h
      · intro l2 h
        cases h
        intro x hx t2
        apply ih x t2 (gwfList_mem l x hgl hx)
          (nanFreeList_mem l x (show nanFreeList l = true from hnanf) hx)
          (normList_child_ok l defaultNormOptions x hch hx)
        have h1 := gsizeList_mem l x hx
        have h2 : gsize (GoVal.vslice l) = 1 + gsizeList l := rfl
        omega
    | vmapOther l =>
      rw [containsF_succ_fst cctxDefault f (.vmapOther l) (.vmapOther l) (.vmap l) (.vmap l) t rfl rfl]
      obtain ⟨hnd, hge⟩ := Bool.and_eq_true_iff.mp
        (show (noDupKeys l && gwfEntries l) = true from hw)
      have hch := normMapOther_deep_ok l hn
      apply containsNormalizedF_refl
      · exact hnanf
      · intro l2 h
        cases h
        refine ⟨hnd, ?_⟩
        intro kv hkv t2
        apply ih kv.2 t2 (gwfEntries_mem l kv hge hkv)
          (nanFreeEntries_mem l kv (show nanFreeEntries l = true from hnanf) hkv)
          (normEntries_child_ok l defaultNormOptions kv hch hkv)
        have h1 := gsizeEntries_mem l kv hkv
        have h2 : gsize (GoVal.vmapOther l) = 1 + gsizeEntries l := rfl
        omega
      · intro l2 h
        cases h
    | vsliceOther l =>
      rw [containsF_succ_fst cctxDefault f (.vsliceOther l) (.vsliceOther l) (.vslice l) (.vslice l) t rfl rfl]
      have hgl : gwfList l = true := hw
      have hch := normSliceOther_deep_ok l hn
      apply containsNormalizedF_refl
      · exact hnanf
      · intro l2 h
        cases h
      · intro l2 h
        cases h
        intro x hx t2
        apply ih x t2 (gwfList_mem l x hgl hx)
          (nanFreeList_mem l x (show nanFreeList l = true from hnanf) hx)
          (normList_child_ok l defaultNormOptions x hch hx)
        have h1 := gsizeList_mem l x hx
        have h2 : gsize (GoVal.vsliceOther l) = 1 + gsizeList l := rfl
        omega
    | vmarshaler j =>
      rw [containsF_succ_fst cctxDefault f (.vmarshaler j) (.vmarshaler j) (jsonToVal j) (jsonToVal j) t rfl rfl]
      have hjw : jwf j = true := hw
      apply containsNormalizedF_refl
      · exact jsonToVal_nanFree j
      · intro l2 h
        cases j with
        | obj lj =>
          have h2 : GoVal.vmap (jsonToValEntries lj) = GoVal.vmap l2 := h
          cases h2
          obtain ⟨hjnd, hjE⟩ := Bool.and_eq_true_iff.mp
            (show (jnoDupKeys lj && jwfEntries lj) = true from hjw)
          refine ⟨jsonToValEntries_nodup lj hjnd, ?_⟩
          intro kv hkv t2
          obtain ⟨j2, hj2, hkvj⟩ := jsonToValEntries_mem lj kv hkv
          rw [hkvj]
          apply ih (jsonToVal j2) t2
            (jsonToVal_gwf j2 (jwfEntries_mem lj (kv.1, j2) hjE hj2))
            (jsonToVal_nanFree j2)
            (by rw [normalizeVal_canon defaultNormOptions _ (jsonToVal_canon j2)])
          have h3 := jsizeEntries_mem lj (kv.1, j2) hj2
          have h4 : gsize (jsonToVal j2) = jsize j2 := jsonToVal_gsize j2
          have h5 : gsize (GoVal.vmarshaler (.obj lj)) = 1 + (1 + jsizeEntries lj) := rfl
          have h6 : jsize (kv.1, j2).2 = jsize j2 := rfl
          omega
        | null => cases h
        | bool b => cases h
        | num x => cases h
        | str s => cases h
        | arr lj => cases h
      · intro l2 h
        cases j with
        | arr lj =>
          have h2 : GoVal.vslice (jsonToValArr lj) = GoVal.vslice l2 := h
          cases h2
          have hjA : jwfArr lj = true := hjw
          intro x hx t2
          obtain ⟨j2, hj2, hxj⟩ := jsonToValArr_mem lj x hx
          rw [hxj]
          apply ih (jsonToVal j2) t2
            (jsonToVal_gwf j2 (jwfArr_mem lj j2 hjA hj2))
            (jsonToVal_nanFree j2)
            (by rw [normalizeVal_canon defaultNormOptions _ (jsonToVal_canon j2)])
          have h3 := jsizeArr_mem lj j2 hj2
          have h4 : gsize (jsonToVal j2) = jsize j2 := jsonToVal_gsize j2
          have h5 : gsize (GoVal.vmarshaler (.arr lj)) = 1 + (1 + jsizeArr lj) := rfl
          omega
        | null => cases h
        | bool b => cases h
        | num x => cases h
        | str s => cases h
        | obj lj => cases h

/-- C2, counterexample to the claim as stated: a float64 NaN normalizes
without error, so it is a normalizable value, yet `Contains(NaN, NaN)` is
false — `containsNormalized` compares float64 operands with Go `==`, and NaN
is unequal to itself. -/
theorem claim2_counterexample :
    Normalize .vnan = (.vnan, none) ∧ gwf .vnan = true
    ∧ Contains .vnan .vnan [] = false :=
  ⟨by decide, by decide, by decide⟩

/-- C2 (amended): `Contains(v, v)` is true, with no options, for every
well-formed value on which `Normalize` succeeds and which contains no
float64 NaN. -/
theorem claim2_contains_reflexive (v : GoVal) (hw : gwf v = true)
    (hnan : nanFreeB v = true) (hn : (Normalize v).2 = none) :
    Contains v v [] = true := by
  show (containsF cctxDefault (containsFuel v v) v v {}).1 = true
  apply containsF_refl (containsFuel v v) v {} hw hnan hn
  show gsize v < gsize v + gsize v + 1
  have := gsize_pos v
  omega

/-- C2 witness: reflexivity at a concrete value mixing maps, slices, times
and a custom marshaler. -/
theorem claim2_witness :
    Contains (.vmap [("a", .vint 5), ("b", .vslice [.vstr "x", .vtime ⟨7, Location.utc⟩]),
        ("c", .vmarshaler (.obj [("k", .num 2)]))])
      (.vmap [("a", .vint 5), ("b", .vslice [.vstr "x", .vtime ⟨7, Location.utc⟩]),
        ("c", .vmarshaler (.obj [("k", .num 2)]))]) [] = true :=
  claim2_contains_reflexive _ (by decide) (by decide) (by decide)

mutual

/-- JSON trees containing no arrays anywhere. -/
def jsliceFree : Json → Bool
  | .arr _ => false
  | .obj l => jsliceFreeEntries l
  | _ => true

def jsliceFreeEntries : List (String × Json) → Bool
  | [] => true
  | (_, j) :: rest => jsliceFree j && jsliceFreeEntries rest

end

mutual

/-- Values containing no sequences anywhere: no slices of any kind, and no
marshaler whose JSON payload contains an array. -/
def sliceFreeB : GoVal → Bool
  | .vslice _ => false
  | .vsliceOther _ => false
  | .vmap l => sliceFreeEntries l
  | .vmapOther l => sliceFreeEntries l
  | .vmarshaler j => jsliceFree j
  | _ => true

def sliceFreeEntries : List (String × GoVal) → Bool
  | [] => true
  | (_, v) :: rest => sliceFreeB v && sliceFreeEntries rest

end

theorem sliceFreeEntries_mem :
    ∀ (l : List (String × GoVal)) (kv : String × GoVal),
      sliceFreeEntries l = true → kv ∈ l → sliceFreeB kv.2 = true := by
  intro l
  induction l with
  | nil => intro kv _ h; cases h
  | cons hd tl ih =>
    intro kv hs h
    obtain ⟨k1, v1⟩ := hd
    obtain ⟨h1, h2⟩ := Bool.and_eq_true_iff.mp
      (show (sliceFreeB v1 && sliceFreeEntries tl) = true from hs)
    rcases List.mem_cons.mp h with heq | hmem
    · subst heq
      exact h1
    · exact ih kv h2 hmem

theorem jsliceFreeEntries_mem :
    ∀ (l : List (String × Json)) (kv : String × Json),
      jsliceFreeEntries l = true → kv ∈ l → jsliceFree kv.2 = true := by
  intro l
  induction l with
  | nil => intro kv _ h; cases h
  | cons hd tl ih =>
    intro kv hs h
    obtain ⟨k1, v1⟩ := hd
    obtain ⟨h1, h2⟩ := Bool.and_eq_true_iff.mp
      (show (jsliceFree v1 && jsliceFreeEntries tl) = true from hs)
    rcases List.mem_cons.mp h with heq | hmem
    · subst heq
      exact h1
    · exact ih kv h2 hmem

mutual

theorem jsonToVal_sliceFree : ∀ j : Json,
    jsliceFree j = true → sliceFreeB (jsonToVal j) = true
  | .null, _ => rfl
  | .bool b, _ => rfl
  | .num x, _ => rfl
  | .str s, _ => rfl
  | .obj l, h => by
      show sliceFreeB (.vmap (jsonToValEntries l)) = true
      unfold sliceFreeB
      exact jsonToValEntries_sliceFree l (by simpa [jsliceFree] using h)
  | .arr l, h => by simp [jsliceFree] at h

theorem jsonToValEntries_sliceFree : ∀ l : List (String × Json),
    jsliceFreeEntries l = true → sliceFreeEntries (jsonToValEntries l) = true
  | [], _ => rfl
  | (k, j) :: rest, h => by
      obtain ⟨h1, h2⟩ : jsliceFree j = true ∧ jsliceFreeEntries rest = true := by
        simpa [jsliceFreeEntries] using h
      show sliceFreeEntries ((k, jsonToVal j) :: jsonToValEntries rest) = true
      unfold sliceFreeEntries
      rw [jsonToVal_sliceFree j h1, jsonToValEntries_sliceFree rest h2]
      rfl

end

/-- The head shapes a shallow (`contains`-side) normalization can produce on
slice-free input: canonical primitives, times, strings and maps. -/
def headOkB : GoVal → Bool
  | .vnull => true
  | .vbool _ => true
  | .vnum _ => true
  | .vnan => true
  | .vstr _ => true
  | .vtime _ => true
  | .vmap _ => true
  | _ => false

/-- `x` is the value at some key of the map `nv`. -/
def ChildRel (nv x : GoVal) : Prop :=
  ∃ l k, nv = .vmap l ∧ (k, x) ∈ l

/-- Case analysis of the shallow normalization `contains` performs on each
operand, for well-formed slice-free values: either it fails, or it produces
a value with a canonical non-slice head, duplicate-free keys, and
well-formed slice-free children. -/
theorem shallowNorm_cases (v : GoVal) (hw : gwf v = true) (hs : sliceFreeB v = true) :
    (∃ nv e, normalizeVal cctxDefault.nopts v = (nv, some e))
    ∨ (∃ nv, normalizeVal cctxDefault.nopts v = (nv, none)
        ∧ headOkB nv = true
        ∧ (∀ l, nv = .vmap l → noDupKeys l = true)
        ∧ (∀ x, ChildRel nv x → gwf x = true ∧ sliceFreeB x = true)) := by
  cases v with
  | vnull =>
    refine Or.inr ⟨.vnull, rfl, rfl, ?_, ?_⟩
    · intro l h; cases h
    · intro x ⟨l, k, h, _⟩; cases h
  | vbool b =>
    refine Or.inr ⟨.vbool b, rfl, rfl, ?_, ?_⟩
    · intro l h; cases h
    · intro x ⟨l, k, h, _⟩; cases h
  | vnum xx =>
    refine Or.inr ⟨.vnum xx, rfl, rfl, ?_, ?_⟩
    · intro l h; cases h
    · intro x ⟨l, k, h, _⟩; cases h
  | vnan =>
    refine Or.inr ⟨.vnan, rfl, rfl, ?_, ?_⟩
    · intro l h; cases h
    · intro x ⟨l, k, h, _⟩; cases h
  | vint n =>
    refine Or.inr ⟨.vnum n, rfl, rfl, ?_, ?_⟩
    · intro l h; cases h
    · intro x ⟨l, k, h, _⟩; cases h
  | vstr s =>
    refine Or.inr ⟨.vstr s, rfl, rfl, ?_, ?_⟩
    · intro l h; cases h
    · intro x ⟨l, k, h, _⟩; cases h
  | vtime tm =>
    refine Or.inr ⟨.vtime tm, rfl, rfl, ?_, ?_⟩
    · intro l h; cases h
    · intro x ⟨l, k, h, _⟩; cases h
  | vfunc e => exact Or.inl ⟨.vnull, e, rfl⟩
  | vslice l => simp [sliceFreeB] at hs
  | vsliceOther l => simp [sliceFreeB] at hs
  | vmap l =>
    obtain ⟨hnd, hge⟩ := Bool.and_eq_true_iff.mp
      (show (noDupKeys l && gwfEntries l) = true from hw)
    have hsf : sliceFreeEntries l = true := hs
    refine Or.inr ⟨.vmap l, rfl, rfl, ?_, ?_⟩
    · intro l2 h; cases h; exact hnd
    · intro x ⟨l2, k, h, hm⟩
      cases h
      exact ⟨gwfEntries_mem l (k, x) hge hm, sliceFreeEntries_mem l (k, x) hsf hm⟩
  | vmapOther l =>
    obtain ⟨hnd, hge⟩ := Bool.and_eq_true_iff.mp
      (show (noDupKeys l && gwfEntries l) = true from hw)
    have hsf : sliceFreeEntries l = true := hs
    refine Or.inr ⟨.vmap l, rfl, rfl, ?_, ?_⟩
    · intro l2 h; cases h; exact hnd
    · intro x ⟨l2, k, h, hm⟩
      cases h
      exact ⟨gwfEntries_mem l (k, x) hge hm, sliceFreeEntries_mem l (k, x) hsf hm⟩
  | vmarshaler j =>
    have hjw : jwf j = true := hw
    have hjs : jsliceFree j = true := hs
    cases j with
    | null =>
      refine Or.inr ⟨.vnull, rfl, rfl, ?_, ?_⟩
      · intro l h; cases h
      · intro x ⟨l, k, h, _⟩; cases h
    | bool b =>
      refine Or.inr ⟨.vbool b, rfl, rfl, ?_, ?_⟩
      · intro l h; cases h
      · intro x ⟨l, k, h, _⟩; cases h
    | num xx =>
      refine Or.inr ⟨.vnum xx, rfl, rfl, ?_, ?_⟩
      · intro l h; cases h
      · intro x ⟨l, k, h, _⟩; cases h
    | str s =>
      refine Or.inr ⟨.vstr s, rfl, rfl, ?_, ?_⟩
      · intro l h; cases h
      · intro x ⟨l, k, h, _⟩; cases h
    | arr lj => simp [jsliceFree] at hjs
    | obj lj =>
      obtain ⟨hjnd, hjE⟩ := Bool.and_eq_true_iff.mp
        (show (jnoDupKeys lj && jwfEntries lj) = true from hjw)
      have hjsE : jsliceFreeEntries lj = true := by simpa [jsliceFree] using hjs
      refine Or.inr ⟨.vmap (jsonToValEntries lj), rfl, rfl, ?_, ?_⟩
      · intro l2 h
        have h2 : jsonToValEntries lj = l2 := by cases h; rfl
        subst h2
        exact jsonToValEntries_nodup lj hjnd
      · intro x ⟨l2, k, h, hm⟩
        have h2 : jsonToValEntries lj = l2 := by cases h; rfl
        subst h2
        obtain ⟨j2, hj2, hxj⟩ := jsonToValEntries_mem lj (k, x) hm
        have hxj2 : x = jsonToVal j2 := hxj
        subst hxj2
        exact ⟨jsonToVal_gwf j2 (jwfEntries_mem lj (k, j2) hjE hj2),
          jsonToVal_sliceFree j2 (jsliceFreeEntries_mem lj (k, j2) hjsE hj2)⟩

/-- Soundness extraction from a fully successful `mapScan`: every key of
`l2` is present in `l1` and the dive at that key succeeded from some
state. -/
theorem mapScan_sound (rec : RecFn) (l1 : List (String × GoVal)) :
    ∀ (l2 : List (String × GoVal)) (t : CtxState),
      (mapScan rec l1 t l2).1 = some [] →
      ∀ kv ∈ l2, ∃ w, lookupKey l1 kv.1 = some w
        ∧ ∃ t2 : CtxState, (rec w kv.2 t2).1 = true := by
  intro l2
  induction l2 with
  | nil => intro t _ kv h; cases h
  | cons hd tl ih =>
    intro t hscan kv hkv
    obtain ⟨k, val2⟩ := hd
    unfold mapScan at hscan
    cases hlk : lookupKey l1 k with
    | none =>
      rw [hlk] at hscan
      simp only [] at hscan
      rcases hm : (mapScan rec l1 t tl).1 with _ | ks <;>
        rw [hm] at hscan <;> simp at hscan
    | some val1 =>
      rw [hlk] at hscan
      simp only [] at hscan
      by_cases hd1 : (dive rec ("." ++ k) val1 val2 t).1 = true
      · rw [if_pos hd1] at hscan
        rcases List.mem_cons.mp hkv with heq | hmem
        · subst heq
          exact ⟨val1, hlk, ⟨_, by simpa [dive] using hd1⟩⟩
        · exact ih _ hscan kv hmem
      · rw [if_neg hd1] at hscan
        simp at hscan

/-- If every key of `l1` is present in `l2`, equivalence mode collects no
extra `l1` keys. -/
theorem extraKeysOf_nil : ∀ (l1 l2 : List (String × GoVal)),
    (∀ kv ∈ l1, (lookupKey l2 kv.1).isSome = true) → extraKeysOf l1 l2 = []
  | [], _, _ => rfl
  | kv :: tl, l2, h => by
      have h1 := h kv (List.mem_cons_self _ _)
      have hn : (lookupKey l2 kv.1).isNone = false := by
        cases hlk : lookupKey l2 kv.1 with
        | none => rw [hlk] at h1; simp at h1
        | some w => rfl
      have ht := extraKeysOf_nil tl l2 (fun e he => h e (List.mem_cons_of_mem _ he))
      unfold extraKeysOf at ht ⊢
      simp only [List.filter_cons, hn, Bool.false_eq_true, if_false]
      exact ht

/-- A true map-to-map comparison implies its `mapScan` returned no missing
keys and no failed dive (default containment context). -/
theorem cnf_map_true (rec : RecFn) (l1 l2 : List (String × GoVal)) (t : CtxState)
    (h : (containsNormalizedF rec cctxDefault (.vmap l1) (.vmap l2) t).1 = true) :
    (mapScan rec l1 t l2).1 = some [] := by
  unfold containsNormalizedF at h
  have hco : cctxDefault.copts = ({} : containsOptions) := rfl
  rw [hco] at h
  simp only [show ({} : containsOptions).matchEmptyValues = false from rfl,
    Bool.false_and, Bool.false_eq_true, if_false] at h
  rcases hscan : mapScan rec l1 t l2 with ⟨res, t2⟩
  rw [hscan] at h
  cases res with
  | none =>
    simp only [] at h
    exact absurd h (by decide)
  | some ek =>
    cases ek with
    | nil => rfl
    | cons a as =>
      simp only [] at h
      rw [if_pos (by simp)] at h
      simp only [] at h
      exact absurd h (by decide)

/-- `containsNormalized` on a null `v1` (wildcards off) is interface
equality. -/
theorem cnf_fst_vnull (rec : RecFn) (c : containsCtx) (nb : GoVal) (t : CtxState)
    (hme : c.copts.matchEmptyValues = false) :
    (containsNormalizedF rec c .vnull nb t).1 = goIfaceEq .vnull nb := by
  unfold containsNormalizedF
  simp only [hme, Bool.false_and, Bool.false_eq_true, if_false]
  cases hg : goIfaceEq .vnull nb <;> simp [hg]

/-- `containsNormalized` on a boolean `v1` (wildcards off) is interface
equality. -/
theorem cnf_fst_vbool (rec : RecFn) (c : containsCtx) (b : Bool) (nb : GoVal)
    (t : CtxState) (hme : c.copts.matchEmptyValues = false) :
    (containsNormalizedF rec c (.vbool b) nb t).1 = goIfaceEq (.vbool b) nb := by
  unfold containsNormalizedF
  simp only [hme, Bool.false_and, Bool.false_eq_true, if_false]
  cases hg : goIfaceEq (.vbool b) nb <;> simp [hg]

/-- `containsNormalized` on a float `v1` (wildcards off) is interface
equality. -/
theorem cnf_fst_vnum (rec : RecFn) (c : containsCtx) (x : Int) (nb : GoVal)
    (t : CtxState) (hme : c.copts.matchEmptyValues = false) :
    (containsNormalizedF rec c (.vnum x) nb t).1 = goIfaceEq (.vnum x) nb := by
  unfold containsNormalizedF
  simp only [hme, Bool.false_and, Bool.false_eq_true, if_false]
  cases hg : goIfaceEq (.vnum x) nb <;> simp [hg]

/-- `containsNormalized` on a NaN `v1` (wildcards off) is interface
equality — identically false, since NaN equals nothing. -/
theorem cnf_fst_vnan (rec : RecFn) (c : containsCtx) (nb : GoVal)
    (t : CtxState) (hme : c.copts.matchEmptyValues = false) :
    (containsNormalizedF rec c .vnan nb t).1 = goIfaceEq .vnan nb := by
  unfold containsNormalizedF
  simp only [hme, Bool.false_and, Bool.false_eq_true, if_false]
  cases hg : goIfaceEq .vnan nb <;> simp [hg]

/-- `containsNormalized` on a string `v1` (wildcards and `StringContains`
off) is interface equality. -/
theorem cnf_fst_vstr (rec : RecFn) (c : containsCtx) (s : String) (nb : GoVal)
    (t : CtxState) (hme : c.copts.matchEmptyValues = false)
    (hsc : c.copts.stringContains = false) :
    (containsNormalizedF rec c (.vstr s) nb t).1 = goIfaceEq (.vstr s) nb := by
  unfold containsNormalizedF
  simp only [hme, Bool.false_and, Bool.false_eq_true, if_false]
  cases hg : goIfaceEq (.vstr s) nb
  · simp only [hg, Bool.false_eq_true, if_false]
    cases nb <;> simp [hsc]
  · simp [hg]

/-- `containsNormalized` on a time `v1` (wildcards off): interface equality
with a `compareTimes` fallback against a time `v2`. -/
theorem cnf_fst_vtime (rec : RecFn) (c : containsCtx) (tm : GoTime) (nb : GoVal)
    (t : CtxState) (hme : c.copts.matchEmptyValues = false) :
    (containsNormalizedF rec c (.vtime tm) nb t).1 =
      (match nb with
       | .vtime tm2 => goIfaceEq (.vtime tm) (.vtime tm2) || (compareTimes tm tm2 c t).1
       | _ => goIfaceEq (.vtime tm) nb) := by
  unfold containsNormalizedF
  simp only [hme, Bool.false_and, Bool.false_eq_true, if_false]
  cases hg : goIfaceEq (.vtime tm) nb
  · simp only [hg, Bool.false_eq_true, if_false]
    cases nb <;> simp [hg]
  · cases nb <;> simp [hg]

/-- `containsNormalized` of a map against a non-map (wildcards off) is
false. -/
theorem cnf_fst_vmap_nonmap (rec : RecFn) (c : containsCtx)
    (l1 : List (String × GoVal)) (nb : GoVal) (t : CtxState)
    (hme : c.copts.matchEmptyValues = false)
    (hnm : ∀ l2, nb ≠ GoVal.vmap l2) :
    (containsNormalizedF rec c (.vmap l1) nb t).1 = false := by
  unfold containsNormalizedF
  cases nb
  case vmap l2 => exact absurd rfl (hnm l2)
  all_goals simp [hme]

/-- On two shallow-normalized slice-free operands, mutual default-mode
containment implies equivalence-mode containment, given the same implication
for the map children (the recursive hypothesis discharged by fuel induction
below). -/
theorem cnf_equiv_of_mutual (rd re : RecFn) (na nb : GoVal) (t1 t2 t3 : CtxState)
    (hha : headOkB na = true) (hhb : headOkB nb = true)
    (hnda : ∀ l, na = GoVal.vmap l → noDupKeys l = true)
    (hndb : ∀ l, nb = GoVal.vmap l → noDupKeys l = true)
    (hIH : ∀ x y, ChildRel na x → ChildRel nb y →
      (∃ ta : CtxState, (rd x y ta).1 = true) →
      (∃ tb : CtxState, (rd y x tb).1 = true) →
      ∀ tc : CtxState, (re x y tc).1 = true)
    (h1 : (containsNormalizedF rd cctxDefault na nb t1).1 = true)
    (h2 : (containsNormalizedF rd cctxDefault nb na t2).1 = true) :
    (containsNormalizedF re cctxEquiv na nb t3).1 = true := by
  cases na with
  | vnull =>
    rw [cnf_fst_vnull rd cctxDefault nb t1 rfl] at h1
    rw [cnf_fst_vnull re cctxEquiv nb t3 rfl]
    exact h1
  | vbool bb =>
    rw [cnf_fst_vbool rd cctxDefault bb nb t1 rfl] at h1
    rw [cnf_fst_vbool re cctxEquiv bb nb t3 rfl]
    exact h1
  | vnum x =>
    rw [cnf_fst_vnum rd cctxDefault x nb t1 rfl] at h1
    rw [cnf_fst_vnum re cctxEquiv x nb t3 rfl]
    exact h1
  | vnan =>
    rw [cnf_fst_vnan rd cctxDefault nb t1 rfl] at h1
    rw [cnf_fst_vnan re cctxEquiv nb t3 rfl]
    exact h1
  | vstr s =>
    rw [cnf_fst_vstr rd cctxDefault s nb t1 rfl rfl] at h1
    rw [cnf_fst_vstr re cctxEquiv s nb t3 rfl rfl]
    exact h1
  | vtime tm =>
    rw [cnf_fst_vtime rd cctxDefault tm nb t1 rfl] at h1
    rw [cnf_fst_vtime re cctxEquiv tm nb t3 rfl]
    cases nb <;> try exact h1
    case vtime tm2 =>
      simp only [] at h1 ⊢
      rw [compareTimes_fst tm tm2 cctxDefault t1 rfl] at h1
      rw [compareTimes_fst tm tm2 cctxEquiv t3 rfl]
      exact h1
  | vmap l1 =>
    cases nb
    case vmap l2 =>
      have hms1 : (mapScan rd l1 t1 l2).1 = some [] := cnf_map_true rd l1 l2 t1 h1
      have hms2 : (mapScan rd l2 t2 l1).1 = some [] := cnf_map_true rd l2 l1 t2 h2
      have e1 := mapScan_sound rd l1 l2 t1 hms1
      have e2 := mapScan_sound rd l2 l1 t2 hms2
      have hnd2 : noDupKeys l2 = true := hndb l2 rfl
      have hall : ∀ kv ∈ l2, ∃ w, lookupKey l1 kv.1 = some w
          ∧ ∀ tc : CtxState, (re w kv.2 tc).1 = true := by
        intro kv hkv
        obtain ⟨w, hw, hta⟩ := e1 kv hkv
        have hwmem : (kv.1, w) ∈ l1 := lookupKey_mem l1 kv.1 w hw
        obtain ⟨w2, hw2, htb⟩ := e2 (kv.1, w) hwmem
        have hkv2 : lookupKey l2 kv.1 = some kv.2 := by
          apply lookupKey_self l2 kv.1 kv.2 hnd2
          rcases kv with ⟨a, b⟩
          exact hkv
        have hw2eq : w2 = kv.2 := by
          rw [hkv2] at hw2
          injection hw2 with hh
          exact hh.symm
        refine ⟨w, hw, ?_⟩
        intro tc
        refine hIH w kv.2 ⟨l1, kv.1, rfl, hwmem⟩ ⟨l2, kv.1, rfl, ?_⟩ hta (hw2eq ▸ htb) tc
        rcases kv with ⟨a, b⟩
        exact hkv
      have hek : extraKeysOf l1 l2 = [] := by
        apply extraKeysOf_nil
        intro kv1 hkv1
        obtain ⟨w2, hw2, _⟩ := e2 kv1 hkv1
        rw [hw2]
        rfl
      have hcomp := mapScan_complete re l1 l2 t3 hall
      unfold containsNormalizedF
      simp only [show cctxEquiv.copts.matchEmptyValues = false from rfl,
        Bool.false_and, Bool.false_eq_true, if_false]
      rcases hscan3 : mapScan re l1 t3 l2 with ⟨res3, t4⟩
      rw [hscan3] at hcomp
      simp only at hcomp
      subst hcomp
      by_cases hlen : l1.length > l2.length
      · simp [hlen, hek]
      · simp [hlen]
    all_goals {
      rw [cnf_fst_vmap_nonmap rd cctxDefault l1 _ t1 rfl (by intro l h; cases h)] at h1
      exact absurd h1 (by decide)
    }
  | vint n => simp [headOkB] at hha
  | vslice l => simp [headOkB] at hha
  | vmapOther l => simp [headOkB] at hha
  | vsliceOther l => simp [headOkB] at hha
  | vmarshaler j => simp [headOkB] at hha
  | vfunc e => simp [headOkB] at hha

/-- Mutual containment implies equivalence at every fuel, for well-formed
slice-free operands. -/
theorem equiv_of_mutual_aux :
    ∀ (f : Nat) (a b : GoVal) (t1 t2 t3 : CtxState),
      gwf a = true → gwf b = true → sliceFreeB a = true → sliceFreeB b = true →
      (containsF cctxDefault f a b t1).1 = true →
      (containsF cctxDefault f b a t2).1 = true →
      (containsF cctxEquiv f a b t3).1 = true := by
  intro f
  induction f with
  | zero =>
    intro a b t1 t2 t3 _ _ _ _ h1 _
    simp [containsF] at h1
  | succ f ih =>
    intro a b t1 t2 t3 hwa hwb hsa hsb h1 h2
    rcases shallowNorm_cases a hwa hsa with ⟨nva, ea, hna⟩ | ⟨na, hna, hhna, hnda, hcha⟩
    · rw [containsF_err1 cctxDefault f a b nva t1 ea hna] at h1
      simp at h1
    rcases shallowNorm_cases b hwb hsb with ⟨nvb, eb, hnb⟩ | ⟨nb, hnb, hhnb, hndb, hchb⟩
    · rw [containsF_err2 cctxDefault f a b na nvb t1 eb hna hnb] at h1
      simp at h1
    have hna2 : normalizeVal cctxEquiv.nopts a = (na, none) := hna
    have hnb2 : normalizeVal cctxEquiv.nopts b = (nb, none) := hnb
    rw [containsF_succ_fst cctxDefault f a b na nb t1 hna hnb] at h1
    rw [containsF_succ_fst cctxDefault f b a nb na t2 hnb hna] at h2
    rw [containsF_succ_fst cctxEquiv f a b na nb t3 hna2 hnb2]
    refine cnf_equiv_of_mutual (containsF cctxDefault f) (containsF cctxEquiv f)
      na nb _ _ _ hhna hhnb hnda hndb ?_ h1 h2
    intro x y hx hy hxy hyx tc
    obtain ⟨ta, hta⟩ := hxy
    obtain ⟨tb, htb⟩ := hyx
    exact ih x y ta tb tc (hcha x hx).1 (hchb y hy).1 (hcha x hx).2 (hchb y hy).2 hta htb

/-- Counterexample to the unconditional claim: slices tolerate duplicate
matching in both directions, but equivalence mode also compares lengths, so
`[1, 1]` and `[1]` mutually contain each other without being equivalent. -/
theorem claim1_counterexample :
    Contains (.vslice [.vnum 1, .vnum 1]) (.vslice [.vnum 1]) [] = true
    ∧ Contains (.vslice [.vnum 1]) (.vslice [.vnum 1, .vnum 1]) [] = true
    ∧ Equivalent (.vslice [.vnum 1, .vnum 1]) (.vslice [.vnum 1]) [] = false := by
  exact ⟨by decide, by decide, by decide⟩

/-- C1 (amended): for well-formed values containing no sequences anywhere
(maps, primitives, times and marshalers only), mutual containment with no
comparison options implies equivalence. -/
theorem claim1_mutual_containment_equivalence (a b : GoVal)
    (hwa : gwf a = true) (hwb : gwf b = true)
    (hsa : sliceFreeB a = true) (hsb : sliceFreeB b = true)
    (h1 : Contains a b [] = true) (h2 : Contains b a [] = true) :
    Equivalent a b [] = true := by
  have h1x : (containsF cctxDefault (containsFuel a b) a b {}).1 = true := h1
  have h2x : (containsF cctxDefault (containsFuel b a) b a {}).1 = true := h2
  rw [show containsFuel b a = containsFuel a b by unfold containsFuel; omega] at h2x
  exact equiv_of_mutual_aux (containsFuel a b) a b {} {} {} hwa hwb hsa hsb h1x h2x

/-- Witness: two distinct slice-free maps (an int leaf against its widened
float) that mutually contain each other are equivalent. -/
theorem claim1_witness :
    gwf (GoVal.vmap [("x", .vint 1), ("y", .vstr "s")]) = true
    ∧ gwf (GoVal.vmap [("x", .vnum 1), ("y", .vstr "s")]) = true
    ∧ sliceFreeB (GoVal.vmap [("x", .vint 1), ("y", .vstr "s")]) = true
    ∧ sliceFreeB (GoVal.vmap [("x", .vnum 1), ("y", .vstr "s")]) = true
    ∧ Contains (GoVal.vmap [("x", .vint 1), ("y", .vstr "s")])
        (GoVal.vmap [("x", .vnum 1), ("y", .vstr "s")]) [] = true
    ∧ Contains (GoVal.vmap [("x", .vnum 1), ("y", .vstr "s")])
        (GoVal.vmap [("x", .vint 1), ("y", .vstr "s")]) [] = true
    ∧ Equivalent (GoVal.vmap [("x", .vint 1), ("y", .vstr "s")])
        (GoVal.vmap [("x", .vnum 1), ("y", .vstr "s")]) [] = true :=
  ⟨by decide, by decide, by decide, by decide, by decide, by decide,
    claim1_mutual_containment_equivalence _ _ (by decide) (by decide) (by decide)
      (by decide) (by decide) (by decide)⟩

mutual

/-- Map values whose leaves are all primitive scalars (no slices, times,
marshalers, non-serializable values, and no NaN floats, whose irreflexive
equality breaks the symmetry), with duplicate-free keys at every level: the
input class of the conflict-symmetry claim. -/
def pmVal : GoVal → Bool
  | .vnull => true
  | .vbool _ => true
  | .vnum _ => true
  | .vint _ => true
  | .vstr _ => true
  | .vmap l => noDupKeys l && pmEntries l
  | _ => false

def pmEntries : List (String × GoVal) → Bool
  | [] => true
  | (_, v) :: rest => pmVal v && pmEntries rest

end

mutual

/-- Normalized primitive-leaf map values (as above, with ints widened
away). -/
def pmN : GoVal → Bool
  | .vnull => true
  | .vbool _ => true
  | .vnum _ => true
  | .vstr _ => true
  | .vmap l => noDupKeys l && pmNEntries l
  | _ => false

def pmNEntries : List (String × GoVal) → Bool
  | [] => true
  | (_, v) :: rest => pmN v && pmNEntries rest

end

mutual

/-- The deep normalization of a primitive-leaf map value: ints widen to
floats, maps recurse, other primitives stay. -/
def pmNorm : GoVal → GoVal
  | .vint n => .vnum n
  | .vmap l => .vmap (pmNormEntries l)
  | v => v

def pmNormEntries : List (String × GoVal) → List (String × GoVal)
  | [] => []
  | (k, v) :: rest => (k, pmNorm v) :: pmNormEntries rest

end

/-- The shallow (`contains`-side) normalization of a primitive-leaf map
value: only a top-level int widens. -/
def pmShallow : GoVal → GoVal
  | .vint n => .vnum n
  | v => v

mutual

/-- Specification of merge conflict-freedom: on two normalized
primitive-leaf values, maps are conflict-free when their shared keys are
recursively conflict-free, and anything else is conflict-free exactly when
interface-equal. -/
def ncVal : GoVal → GoVal → Bool
  | .vmap l1, .vmap l2 => ncEntries l1 l2
  | .vmap _, _ => false
  | _, .vmap _ => false
  | a, b => goIfaceEq a b

def ncEntries (l1 : List (String × GoVal)) : List (String × GoVal) → Bool
  | [] => true
  | (k, v) :: rest =>
    (match lookupKey l1 k with
     | none => true
     | some w => ncVal w v) && ncEntries l1 rest

end

theorem pmEntries_mem :
    ∀ (l : List (String × GoVal)) (kv : String × GoVal),
      pmEntries l = true → kv ∈ l → pmVal kv.2 = true := by
  intro l
  induction l with
  | nil => intro kv _ h; cases h
  | cons hd tl ih =>
    intro kv hs h
    obtain ⟨k1, v1⟩ := hd
    obtain ⟨h1, h2⟩ := Bool.and_eq_true_iff.mp
      (show (pmVal v1 && pmEntries tl) = true from hs)
    rcases List.mem_cons.mp h with heq | hmem
    · subst heq
      exact h1
    · exact ih kv h2 hmem

theorem pmNEntries_mem :
    ∀ (l : List (String × GoVal)) (kv : String × GoVal),
      pmNEntries l = true → kv ∈ l → pmN kv.2 = true := by
  intro l
  induction l with
  | nil => intro kv _ h; cases h
  | cons hd tl ih =>
    intro kv hs h
    obtain ⟨k1, v1⟩ := hd
    obtain ⟨h1, h2⟩ := Bool.and_eq_true_iff.mp
      (show (pmN v1 && pmNEntries tl) = true from hs)
    rcases List.mem_cons.mp h with heq | hmem
    · subst heq
      exact h1
    · exact ih kv h2 hmem

theorem pmNormEntries_anyKey : ∀ (l : List (String × GoVal)) (k : String),
    (pmNormEntries l).any (fun e => e.1 == k) = l.any (fun e => e.1 == k)
  | [], _ => rfl
  | (k1, v) :: rest, k => by
      show ((k1, pmNorm v) :: pmNormEntries rest).any (fun e => e.1 == k) = _
      simp only [List.any_cons]
      rw [pmNormEntries_anyKey rest k]

theorem pmNormEntries_noDup : ∀ l : List (String × GoVal),
    noDupKeys (pmNormEntries l) = noDupKeys l
  | [] => rfl
  | (k, v) :: rest => by
      show noDupKeys ((k, pmNorm v) :: pmNormEntries rest) = _
      unfold noDupKeys
      rw [pmNormEntries_anyKey rest k, pmNormEntries_noDup rest]

theorem pmNormEntries_lookup : ∀ (l : List (String × GoVal)) (k : String),
    lookupKey (pmNormEntries l) k = (lookupKey l k).map pmNorm
  | [], _ => rfl
  | (k1, v) :: rest, k => by
      show lookupKey ((k1, pmNorm v) :: pmNormEntries rest) k = _
      unfold lookupKey
      by_cases h : (k1 == k) = true
      · rw [if_pos h, if_pos h]
        rfl
      · rw [if_neg h, if_neg h]
        exact pmNormEntries_lookup rest k

mutual

theorem pmNorm_pmN : ∀ v, pmVal v = true → pmN (pmNorm v) = true
  | .vnull, _ => rfl
  | .vbool b, _ => rfl
  | .vnum x, _ => rfl
  | .vint n, _ => rfl
  | .vstr s, _ => rfl
  | .vmap l, h => by
      obtain ⟨hnd, hpe⟩ := Bool.and_eq_true_iff.mp
        (show (noDupKeys l && pmEntries l) = true from h)
      show pmN (.vmap (pmNormEntries l)) = true
      unfold pmN
      rw [pmNormEntries_noDup l, hnd, pmNormEntries_pmN l hpe]
      rfl
  | .vtime tm, h => by simp [pmVal] at h
  | .vslice l, h => by simp [pmVal] at h
  | .vsliceOther l, h => by simp [pmVal] at h
  | .vmapOther l, h => by simp [pmVal] at h
  | .vmarshaler j, h => by simp [pmVal] at h
  | .vfunc e, h => by simp [pmVal] at h

theorem pmNormEntries_pmN : ∀ l, pmEntries l = true →
    pmNEntries (pmNormEntries l) = true
  | [], _ => rfl
  | (k, v) :: rest, h => by
      obtain ⟨h1, h2⟩ := Bool.and_eq_true_iff.mp
        (show (pmVal v && pmEntries rest) = true from h)
      show pmNEntries ((k, pmNorm v) :: pmNormEntries rest) = true
      unfold pmNEntries
      rw [pmNorm_pmN v h1, pmNormEntries_pmN rest h2]
      rfl

end

mutual

theorem pmN_canon : ∀ v, pmN v = true → canonB v = true
  | .vnull, _ => rfl
  | .vbool b, _ => rfl
  | .vnum x, _ => rfl
  | .vstr s, _ => rfl
  | .vmap l, h => by
      obtain ⟨_, hpe⟩ := Bool.and_eq_true_iff.mp
        (show (noDupKeys l && pmNEntries l) = true from h)
      show canonB (.vmap l) = true
      unfold canonB
      exact pmNEntries_canon l hpe
  | .vint n, h => by simp [pmN] at h
  | .vtime tm, h => by simp [pmN] at h
  | .vslice l, h => by simp [pmN] at h
  | .vsliceOther l, h => by simp [pmN] at h
  | .vmapOther l, h => by simp [pmN] at h
  | .vmarshaler j, h => by simp [pmN] at h
  | .vfunc e, h => by simp [pmN] at h

theorem pmNEntries_canon : ∀ l, pmNEntries l = true → canonEntries l = true
  | [], _ => rfl
  | (k, v) :: rest, h => by
      obtain ⟨h1, h2⟩ := Bool.and_eq_true_iff.mp
        (show (pmN v && pmNEntries rest) = true from h)
      unfold canonEntries
      rw [pmN_canon v h1, pmNEntries_canon rest h2]
      rfl

end

/-- Shallow (`contains`-side) normalization of a primitive-leaf map value
succeeds, widening only a top-level int. -/
theorem pm_shallow_norm : ∀ v, pmVal v = true →
    normalizeVal cctxDefault.nopts v = (pmShallow v, none)
  | .vnull, _ => rfl
  | .vbool b, _ => rfl
  | .vnum x, _ => rfl
  | .vint n, _ => rfl
  | .vstr s, _ => rfl
  | .vmap l, _ => rfl
  | .vtime tm, h => by simp [pmVal] at h
  | .vslice l, h => by simp [pmVal] at h
  | .vsliceOther l, h => by simp [pmVal] at h
  | .vmapOther l, h => by simp [pmVal] at h
  | .vmarshaler j, h => by simp [pmVal] at h
  | .vfunc e, h => by simp [pmVal] at h

mutual

/-- Deep normalization (as `Merge` performs) of a primitive-leaf map value
succeeds and produces `pmNorm`. -/
theorem pm_deep_norm : ∀ v, pmVal v = true →
    normalizeVal defaultNormOptions v = (pmNorm v, none)
  | .vnull, _ => rfl
  | .vbool b, _ => rfl
  | .vnum x, _ => rfl
  | .vint n, _ => rfl
  | .vstr s, _ => rfl
  | .vmap l, h => by
      obtain ⟨hnd, hpe⟩ := Bool.and_eq_true_iff.mp
        (show (noDupKeys l && pmEntries l) = true from h)
      show normalizeVal defaultNormOptions (.vmap l) = (.vmap (pmNormEntries l), none)
      unfold normalizeVal
      simp only [show (!defaultNormOptions.copy && !defaultNormOptions.deep) = false from rfl,
        Bool.false_eq_true, if_false,
        show defaultNormOptions.deep = true from rfl, if_true]
      rw [pm_deep_normEntries l hpe]
      rfl
  | .vtime tm, h => by simp [pmVal] at h
  | .vslice l, h => by simp [pmVal] at h
  | .vsliceOther l, h => by simp [pmVal] at h
  | .vmapOther l, h => by simp [pmVal] at h
  | .vmarshaler j, h => by simp [pmVal] at h
  | .vfunc e, h => by simp [pmVal] at h

theorem pm_deep_normEntries : ∀ l, pmEntries l = true →
    normEntries defaultNormOptions l = (pmNormEntries l, none)
  | [], _ => rfl
  | (k, v) :: rest, h => by
      obtain ⟨h1, h2⟩ := Bool.and_eq_true_iff.mp
        (show (pmVal v && pmEntries rest) = true from h)
      show normEntries defaultNormOptions ((k, v) :: rest) = _
      unfold normEntries
      rw [pm_deep_norm v h1]
      simp only []
      rw [pm_deep_normEntries rest h2]
      rfl

end

theorem lookupKey_none_of_anyKey_false : ∀ (l : List (String × GoVal)) (k : String),
    l.any (fun e => e.1 == k) = false → lookupKey l k = none
  | [], _, _ => rfl
  | (k1, v) :: rest, k, h => by
      unfold lookupKey
      cases hk : (k1 == k) with
      | true =>
        rw [List.any_cons] at h
        simp only at h
        rw [hk] at h
        simp at h
      | false =>
        rw [if_neg Bool.false_ne_true]
        apply lookupKey_none_of_anyKey_false rest k
        rw [List.any_cons] at h
        simp only at h
        rw [hk] at h
        simpa using h

theorem setEntry_lookup_self : ∀ (l : List (String × GoVal)) (k : String) (v : GoVal),
    lookupKey (setEntry l k v) k = some v
  | [], k, v => by
      show lookupKey [(k, v)] k = some v
      unfold lookupKey
      rw [if_pos (by simp)]
  | (k1, v1) :: rest, k, v => by
      unfold setEntry
      by_cases hk : (k1 == k) = true
      · rw [if_pos hk]
        show lookupKey ((k, v) :: rest) k = some v
        unfold lookupKey
        rw [if_pos (by simp)]
      · rw [if_neg hk]
        show lookupKey ((k1, v1) :: setEntry rest k v) k = some v
        unfold lookupKey
        rw [if_neg hk]
        exact setEntry_lookup_self rest k v

theorem setEntry_lookup_other : ∀ (l : List (String × GoVal)) (k : String) (v : GoVal)
    (k2 : String), (k == k2) = false →
    lookupKey (setEntry l k v) k2 = lookupKey l k2
  | [], k, v, k2, h => by
      show lookupKey [(k, v)] k2 = lookupKey [] k2
      unfold lookupKey
      rw [if_neg (by rw [h]; exact Bool.false_ne_true)]
      rfl
  | (k1, v1) :: rest, k, v, k2, h => by
      unfold setEntry
      by_cases hk : (k1 == k) = true
      · rw [if_pos hk]
        have e1 : k1 = k := by simpa using hk
        subst e1
        show lookupKey ((k1, v) :: rest) k2 = lookupKey ((k1, v1) :: rest) k2
        unfold lookupKey
        rw [if_neg (by rw [h]; exact Bool.false_ne_true),
          if_neg (by rw [h]; exact Bool.false_ne_true)]
      · rw [if_neg hk]
        show lookupKey ((k1, v1) :: setEntry rest k v) k2 = lookupKey ((k1, v1) :: rest) k2
        unfold lookupKey
        by_cases hk12 : (k1 == k2) = true
        · rw [if_pos hk12, if_pos hk12]
        · rw [if_neg hk12, if_neg hk12]
          exact setEntry_lookup_other rest k v k2 h

theorem setEntry_anyKey : ∀ (l : List (String × GoVal)) (k : String) (v : GoVal)
    (k2 : String),
    (setEntry l k v).any (fun e => e.1 == k2) = (l.any (fun e => e.1 == k2) || (k == k2))
  | [], k, v, k2 => by
      unfold setEntry
      simp
  | (k1, v1) :: rest, k, v, k2 => by
      unfold setEntry
      by_cases hk : (k1 == k) = true
      · rw [if_pos hk]
        have e1 : k1 = k := by simpa using hk
        subst e1
        show ((k1, v) :: rest).any (fun e => e.1 == k2) = _
        simp only [List.any_cons]
        cases hkk : (k1 == k2) <;> simp [hkk]
      · rw [if_neg hk]
        show ((k1, v1) :: setEntry rest k v).any (fun e => e.1 == k2) = _
        simp only [List.any_cons]
        rw [setEntry_anyKey rest k v k2]
        cases hkk : (k1 == k2) <;> simp [Bool.or_assoc]

theorem setEntry_noDup : ∀ (l : List (String × GoVal)) (k : String) (v : GoVal),
    noDupKeys l = true → noDupKeys (setEntry l k v) = true
  | [], k, v, _ => by
      show noDupKeys [(k, v)] = true
      simp [noDupKeys]
  | (k1, v1) :: rest, k, v, h => by
      obtain ⟨h1, h2⟩ := Bool.and_eq_true_iff.mp
        (show (!(rest.any (fun e => e.1 == k1)) && noDupKeys rest) = true from h)
      have hr : rest.any (fun e => e.1 == k1) = false := by
        cases hh : rest.any (fun e => e.1 == k1)
        · rfl
        · rw [hh] at h1; exact absurd h1 (by decide)
      unfold setEntry
      by_cases hk : (k1 == k) = true
      · rw [if_pos hk]
        have e1 : k1 = k := by simpa using hk
        subst e1
        show noDupKeys ((k1, v) :: rest) = true
        unfold noDupKeys
        rw [hr, h2]
        rfl
      · rw [if_neg hk]
        show noDupKeys ((k1, v1) :: setEntry rest k v) = true
        unfold noDupKeys
        rw [setEntry_anyKey rest k v k1, hr]
        have hkk1 : (k == k1) = false := by
          cases hh : (k == k1)
          · rfl
          · exfalso
            apply hk
            have e2 : k = k1 := by simpa using hh
            subst e2
            simp
        rw [hkk1, setEntry_noDup rest k v h2]
        rfl

/-- The key-wise result of the map-merge loop. -/
def mergedLookup (l1 l2 : List (String × GoVal)) (k : String) : Option GoVal :=
  match lookupKey l2 k with
  | some v2 => some (mergeVals (match lookupKey l1 k with
      | some w => w
      | none => GoVal.vnull) v2)
  | none => lookupKey l1 k

theorem mergeEntries_lookup : ∀ (l2 l1 : List (String × GoVal)) (k : String),
    noDupKeys l2 = true →
    lookupKey (mergeEntries l1 l2) k = mergedLookup l1 l2 k
  | [], l1, k, _ => by
      show lookupKey l1 k = mergedLookup l1 [] k
      unfold mergedLookup
      rfl
  | (k2, v2) :: rest, l1, k, h => by
      obtain ⟨h1, h2⟩ := Bool.and_eq_true_iff.mp
        (show (!(rest.any (fun e => e.1 == k2)) && noDupKeys rest) = true from h)
      have hrany : rest.any (fun e => e.1 == k2) = false := by
        cases hh : rest.any (fun e => e.1 == k2)
        · rfl
        · rw [hh] at h1; exact absurd h1 (by decide)
      show lookupKey (mergeEntries (setEntry l1 k2 (mergeVals (match lookupKey l1 k2 with
        | some x => x
        | none => GoVal.vnull) v2)) rest) k = mergedLookup l1 ((k2, v2) :: rest) k
      rw [mergeEntries_lookup rest _ k h2]
      unfold mergedLookup
      by_cases hk : (k2 == k) = true
      · have e1 : k2 = k := by simpa using hk
        subst e1
        rw [lookupKey_none_of_anyKey_false rest k2 hrany]
        simp only []
        rw [setEntry_lookup_self]
        show _ = (match lookupKey ((k2, v2) :: rest) k2 with
          | some v2 => some (mergeVals (match lookupKey l1 k2 with
              | some w => w
              | none => GoVal.vnull) v2)
          | none => lookupKey l1 k2)
        unfold lookupKey
        rw [if_pos (by simp)]
      · have hne : (k2 == k) = false := by
          cases hh : (k2 == k)
          · rfl
          · exact absurd hh hk
        have hl1 : lookupKey (setEntry l1 k2 (mergeVals (match lookupKey l1 k2 with
            | some x => x
            | none => GoVal.vnull) v2)) k = lookupKey l1 k :=
          setEntry_lookup_other l1 k2 _ k hne
        show (match lookupKey rest k with
          | some w2 => some (mergeVals (match lookupKey (setEntry l1 k2 _) k with
              | some w => w
              | none => GoVal.vnull) w2)
          | none => lookupKey (setEntry l1 k2 _) k) =
          (match lookupKey ((k2, v2) :: rest) k with
          | some w2 => some (mergeVals (match lookupKey l1 k with
              | some w => w
              | none => GoVal.vnull) w2)
          | none => lookupKey l1 k)
        rw [hl1]
        have hcons : lookupKey ((k2, v2) :: rest) k = lookupKey rest k := by
          show (if (k2 == k) = true then some v2 else lookupKey rest k) = lookupKey rest k
          rw [if_neg (by rw [hne]; exact Bool.false_ne_true)]
        rw [hcons]

theorem setEntry_pmNEntries : ∀ (l : List (String × GoVal)) (k : String) (v : GoVal),
    pmNEntries l = true → pmN v = true → pmNEntries (setEntry l k v) = true
  | [], k, v, _, hv => by
      show pmNEntries [(k, v)] = true
      unfold pmNEntries
      rw [hv]
      rfl
  | (k1, v1) :: rest, k, v, h, hv => by
      obtain ⟨h1, h2⟩ := Bool.and_eq_true_iff.mp
        (show (pmN v1 && pmNEntries rest) = true from h)
      unfold setEntry
      by_cases hk : (k1 == k) = true
      · rw [if_pos hk]
        show pmNEntries ((k, v) :: rest) = true
        unfold pmNEntries
        rw [hv, h2]
        rfl
      · rw [if_neg hk]
        show pmNEntries ((k1, v1) :: setEntry rest k v) = true
        unfold pmNEntries
        rw [h1, setEntry_pmNEntries rest k v h2 hv]
        rfl

mutual

/-- The merge of two normalized primitive-leaf values is again a normalized
primitive-leaf value. -/
theorem mergeVals_pmN : ∀ (b a : GoVal), pmN a = true → pmN b = true →
    pmN (mergeVals a b) = true
  | .vmap l2, a, ha, hb => by
      obtain ⟨hnd2, hpe2⟩ := Bool.and_eq_true_iff.mp
        (show (noDupKeys l2 && pmNEntries l2) = true from hb)
      cases a with
      | vmap l1 =>
        obtain ⟨hnd1, hpe1⟩ := Bool.and_eq_true_iff.mp
          (show (noDupKeys l1 && pmNEntries l1) = true from ha)
        show pmN (.vmap (mergeEntries l1 l2)) = true
        unfold pmN
        obtain ⟨hd, hp⟩ := mergeEntries_pmN l2 l1 hnd1 hpe1 hpe2
        rw [hd, hp]
        rfl
      | vnull => exact hb
      | vbool bb => exact hb
      | vnum x => exact hb
      | vstr s => exact hb
      | vnan => simp [pmN] at ha
      | vint n => simp [pmN] at ha
      | vtime tm => simp [pmN] at ha
      | vslice l => simp [pmN] at ha
      | vsliceOther l => simp [pmN] at ha
      | vmapOther l => simp [pmN] at ha
      | vmarshaler j => simp [pmN] at ha
      | vfunc e => simp [pmN] at ha
  | .vnull, a, ha, hb => by
      cases a <;> exact hb
  | .vbool bb, a, ha, hb => by
      cases a <;> exact hb
  | .vnum x, a, ha, hb => by
      cases a <;> exact hb
  | .vstr s, a, ha, hb => by
      cases a <;> exact hb
  | .vnan, _, _, hb => by simp [pmN] at hb
  | .vint n, _, _, hb => by simp [pmN] at hb
  | .vtime tm, _, _, hb => by simp [pmN] at hb
  | .vslice l, _, _, hb => by simp [pmN] at hb
  | .vsliceOther l, _, _, hb => by simp [pmN] at hb
  | .vmapOther l, _, _, hb => by simp [pmN] at hb
  | .vmarshaler j, _, _, hb => by simp [pmN] at hb
  | .vfunc e, _, _, hb => by simp [pmN] at hb

theorem mergeEntries_pmN : ∀ (l2 l1 : List (String × GoVal)),
    noDupKeys l1 = true → pmNEntries l1 = true → pmNEntries l2 = true →
    noDupKeys (mergeEntries l1 l2) = true ∧ pmNEntries (mergeEntries l1 l2) = true
  | [], l1, hnd1, hpe1, _ => ⟨hnd1, hpe1⟩
  | (k, v) :: rest, l1, hnd1, hpe1, hpe2 => by
      obtain ⟨hv, hrest⟩ := Bool.and_eq_true_iff.mp
        (show (pmN v && pmNEntries rest) = true from hpe2)
      have hcur : pmN (match lookupKey l1 k with
          | some x => x
          | none => GoVal.vnull) = true := by
        cases hlk : lookupKey l1 k with
        | none => rfl
        | some x => exact pmNEntries_mem l1 (k, x) hpe1 (lookupKey_mem l1 k x hlk)
      have hmv := mergeVals_pmN v _ hcur hv
      exact mergeEntries_pmN rest
        (setEntry l1 k (mergeVals (match lookupKey l1 k with
          | some x => x
          | none => GoVal.vnull) v))
        (setEntry_noDup l1 k _ hnd1)
        (setEntry_pmNEntries l1 k _ hpe1 hmv) hrest

end

theorem beq_symm_lawful {α : Type} [BEq α] [LawfulBEq α] (a b : α) :
    (a == b) = (b == a) := by
  by_cases h : a = b
  · subst h
    rfl
  · have h1 : (a == b) = false := by
      cases hh : a == b
      · rfl
      · exact absurd (eq_of_beq hh) h
    have h2 : (b == a) = false := by
      cases hh : b == a
      · rfl
      · exact absurd (eq_of_beq hh).symm h
    rw [h1, h2]

theorem goIfaceEq_symm : ∀ (x y : GoVal), goIfaceEq x y = goIfaceEq y x := by
  intro x y
  cases x <;> cases y <;> first | rfl | exact beq_symm_lawful _ _

/-- A fully successful `mapScan` makes the map-to-map comparison true in
default containment mode. -/
theorem cnf_map_of_scan (rec : RecFn) (l1 l2 : List (String × GoVal)) (t : CtxState)
    (h : (mapScan rec l1 t l2).1 = some []) :
    (containsNormalizedF rec cctxDefault (.vmap l1) (.vmap l2) t).1 = true := by
  unfold containsNormalizedF
  have hco : cctxDefault.copts = ({} : containsOptions) := rfl
  rw [hco]
  simp only [show ({} : containsOptions).matchEmptyValues = false from rfl,
    Bool.false_and, Bool.false_eq_true, if_false]
  rcases hscan : mapScan rec l1 t l2 with ⟨res, t2⟩
  rw [hscan] at h
  simp only at h
  subst h
  simp only []
  try rw [hscan]
  simp [show cctxDefault.equiv = false from rfl]

/-- `contains` of the deep normalization of a primitive-leaf value against
the raw value itself is true. -/
theorem pmRefl : ∀ (f : Nat) (a : GoVal) (t : CtxState), pmVal a = true →
    gsize a < f → (containsF cctxDefault f (pmNorm a) a t).1 = true := by
  intro f
  induction f with
  | zero => intro a t _ h; omega
  | succ f ih =>
    intro a t hpm hsz
    have hN : pmN (pmNorm a) = true := pmNorm_pmN a hpm
    have hshallow : normalizeVal cctxDefault.nopts (pmNorm a) = (pmNorm a, none) :=
      normalizeVal_canon _ _ (pmN_canon _ hN)
    have hshallow2 : normalizeVal cctxDefault.nopts a = (pmShallow a, none) :=
      pm_shallow_norm a hpm
    rw [containsF_succ_fst cctxDefault f (pmNorm a) a (pmNorm a) (pmShallow a) t
      hshallow hshallow2]
    cases a with
    | vnull =>
      simp only [pmNorm, pmShallow]
      rw [cnf_fst_vnull _ _ _ _ rfl]
      rfl
    | vbool b =>
      simp only [pmNorm, pmShallow]
      rw [cnf_fst_vbool _ _ _ _ _ rfl]
      simp [goIfaceEq]
    | vnum x =>
      simp only [pmNorm, pmShallow]
      rw [cnf_fst_vnum _ _ _ _ _ rfl]
      simp [goIfaceEq]
    | vint n =>
      simp only [pmNorm, pmShallow]
      rw [cnf_fst_vnum _ _ _ _ _ rfl]
      simp [goIfaceEq]
    | vstr s =>
      simp only [pmNorm, pmShallow]
      rw [cnf_fst_vstr _ _ _ _ _ rfl rfl]
      simp [goIfaceEq]
    | vmap l =>
      obtain ⟨hnd, hpe⟩ := Bool.and_eq_true_iff.mp
        (show (noDupKeys l && pmEntries l) = true from hpm)
      simp only [pmNorm, pmShallow]
      apply cnf_map_of_scan
      apply mapScan_complete
      intro kv hkv
      have hmem : (kv.1, kv.2) ∈ l := by
        rcases kv with ⟨a1, b1⟩
        exact hkv
      refine ⟨pmNorm kv.2, ?_, ?_⟩
      · rw [pmNormEntries_lookup l kv.1, lookupKey_self l kv.1 kv.2 hnd hmem]
        rfl
      · intro t2
        have hsz2 : gsize kv.2 < f := by
          have h1 := gsizeEntries_mem l kv hkv
          have h2 : gsize (GoVal.vmap l) = 1 + gsizeEntries l := rfl
          omega
        exact ih kv.2 t2 (pmEntries_mem l kv hpe hkv) hsz2
    | vnan => simp [pmVal] at hpm
    | vtime tm => simp [pmVal] at hpm
    | vslice l => simp [pmVal] at hpm
    | vsliceOther l => simp [pmVal] at hpm
    | vmapOther l => simp [pmVal] at hpm
    | vmarshaler j => simp [pmVal] at hpm
    | vfunc e => simp [pmVal] at hpm

theorem ncEntries_iff (l1 : List (String × GoVal)) : ∀ l2 : List (String × GoVal),
    ncEntries l1 l2 = true ↔
      ∀ kv ∈ l2, ∀ w, lookupKey l1 kv.1 = some w → ncVal w kv.2 = true
  | [] => by
      constructor
      · intro _ kv h
        cases h
      · intro _
        rfl
  | (k, v) :: rest => by
      show ((match lookupKey l1 k with
        | none => true
        | some w => ncVal w v) && ncEntries l1 rest) = true ↔ _
      rw [Bool.and_eq_true_iff, ncEntries_iff l1 rest]
      constructor
      · intro ⟨hh, ht⟩ kv hkv w hw
        rcases List.mem_cons.mp hkv with heq | hmem
        · subst heq
          have hw2 : lookupKey l1 k = some w := hw
          rw [hw2] at hh
          exact hh
        · exact ht kv hmem w hw
      · intro hall
        constructor
        · cases hlk : lookupKey l1 k with
          | none => rfl
          | some w => exact hall (k, v) (List.mem_cons_self _ _) w hlk
        · intro kv hkv w hw
          exact hall kv (List.mem_cons_of_mem _ hkv) w hw

/-- A `mapScan` that did not fully succeed makes the map-to-map comparison
false in default containment mode. -/
theorem cnf_map_false_of_scan (rec : RecFn) (l1 l2 : List (String × GoVal))
    (t : CtxState) (h : ¬((mapScan rec l1 t l2).1 = some [])) :
    (containsNormalizedF rec cctxDefault (.vmap l1) (.vmap l2) t).1 = false := by
  unfold containsNormalizedF
  have hco : cctxDefault.copts = ({} : containsOptions) := rfl
  rw [hco]
  simp only [show ({} : containsOptions).matchEmptyValues = false from rfl,
    Bool.false_and, Bool.false_eq_true, if_false]
  rcases hscan : mapScan rec l1 t l2 with ⟨res, t2⟩
  cases res with
  | none =>
    simp only []
  | some ek =>
    cases ek with
    | nil =>
      exfalso
      apply h
      rw [hscan]
    | cons a as =>
      simp only []
      try rw [hscan]
      simp

/-- The heart of conflict symmetry: containment of the merged value over the
left operand computes the conflict-freedom specification. -/
theorem contains_merge_nc : ∀ (f : Nat) (a nb : GoVal) (t : CtxState),
    pmVal a = true → pmN nb = true → gsize a < f →
    (containsF cctxDefault f (mergeVals (pmNorm a) nb) a t).1 = ncVal (pmNorm a) nb := by
  intro f
  induction f with
  | zero =>
    intro a nb t _ _ h
    omega
  | succ f ih =>
    intro a nb t hpm hnb hsz
    have hM : pmN (mergeVals (pmNorm a) nb) = true :=
      mergeVals_pmN nb (pmNorm a) (pmNorm_pmN a hpm) hnb
    have hs1 : normalizeVal cctxDefault.nopts (mergeVals (pmNorm a) nb)
        = (mergeVals (pmNorm a) nb, none) :=
      normalizeVal_canon _ _ (pmN_canon _ hM)
    have hs2 : normalizeVal cctxDefault.nopts a = (pmShallow a, none) :=
      pm_shallow_norm a hpm
    rw [containsF_succ_fst cctxDefault f (mergeVals (pmNorm a) nb) a _ _ t hs1 hs2]
    cases a with
    | vnull =>
      simp only [pmNorm, pmShallow]
      cases nb with
      | vnull =>
        simp only [mergeVals]
        rw [cnf_fst_vnull _ _ _ _ rfl]
        exact goIfaceEq_symm _ _
      | vbool b2 =>
        simp only [mergeVals]
        rw [cnf_fst_vbool _ _ _ _ _ rfl]
        exact goIfaceEq_symm _ _
      | vnum x2 =>
        simp only [mergeVals]
        rw [cnf_fst_vnum _ _ _ _ _ rfl]
        exact goIfaceEq_symm _ _
      | vstr s2 =>
        simp only [mergeVals]
        rw [cnf_fst_vstr _ _ _ _ _ rfl rfl]
        exact goIfaceEq_symm _ _
      | vmap l2 =>
        simp only [mergeVals]
        exact cnf_fst_vmap_nonmap _ _ l2 _ _ rfl (by intro l hh; cases hh)
      | vnan => simp [pmN] at hnb
      | vint n2 => simp [pmN] at hnb
      | vtime tm2 => simp [pmN] at hnb
      | vslice l2 => simp [pmN] at hnb
      | vsliceOther l2 => simp [pmN] at hnb
      | vmapOther l2 => simp [pmN] at hnb
      | vmarshaler j2 => simp [pmN] at hnb
      | vfunc e2 => simp [pmN] at hnb
    | vbool b1 =>
      simp only [pmNorm, pmShallow]
      cases nb with
      | vnull =>
        simp only [mergeVals]
        rw [cnf_fst_vnull _ _ _ _ rfl]
        exact goIfaceEq_symm _ _
      | vbool b2 =>
        simp only [mergeVals]
        rw [cnf_fst_vbool _ _ _ _ _ rfl]
        exact goIfaceEq_symm _ _
      | vnum x2 =>
        simp only [mergeVals]
        rw [cnf_fst_vnum _ _ _ _ _ rfl]
        exact goIfaceEq_symm _ _
      | vstr s2 =>
        simp only [mergeVals]
        rw [cnf_fst_vstr _ _ _ _ _ rfl rfl]
        exact goIfaceEq_symm _ _
      | vmap l2 =>
        simp only [mergeVals]
        exact cnf_fst_vmap_nonmap _ _ l2 _ _ rfl (by intro l hh; cases hh)
      | vnan => simp [pmN] at hnb
      | vint n2 => simp [pmN] at hnb
      | vtime tm2 => simp [pmN] at hnb
      | vslice l2 => simp [pmN] at hnb
      | vsliceOther l2 => simp [pmN] at hnb
      | vmapOther l2 => simp [pmN] at hnb
      | vmarshaler j2 => simp [pmN] at hnb
      | vfunc e2 => simp [pmN] at hnb
    | vnum x1 =>
      simp only [pmNorm, pmShallow]
      cases nb with
      | vnull =>
        simp only [mergeVals]
        rw [cnf_fst_vnull _ _ _ _ rfl]
        exact goIfaceEq_symm _ _
      | vbool b2 =>
        simp only [mergeVals]
        rw [cnf_fst_vbool _ _ _ _ _ rfl]
        exact goIfaceEq_symm _ _
      | vnum x2 =>
        simp only [mergeVals]
        rw [cnf_fst_vnum _ _ _ _ _ rfl]
        exact goIfaceEq_symm _ _
      | vstr s2 =>
        simp only [mergeVals]
        rw [cnf_fst_vstr _ _ _ _ _ rfl rfl]
        exact goIfaceEq_symm _ _
      | vmap l2 =>
        simp only [mergeVals]
        exact cnf_fst_vmap_nonmap _ _ l2 _ _ rfl (by intro l hh; cases hh)
      | vnan => simp [pmN] at hnb
      | vint n2 => simp [pmN] at hnb
      | vtime tm2 => simp [pmN] at hnb
      | vslice l2 => simp [pmN] at hnb
      | vsliceOther l2 => simp [pmN] at hnb
      | vmapOther l2 => simp [pmN] at hnb
      | vmarshaler j2 => simp [pmN] at hnb
      | vfunc e2 => simp [pmN] at hnb
    | vint n1 =>
      simp only [pmNorm, pmShallow]
      cases nb with
      | vnull =>
        simp only [mergeVals]
        rw [cnf_fst_vnull _ _ _ _ rfl]
        exact goIfaceEq_symm _ _
      | vbool b2 =>
        simp only [mergeVals]
        rw [cnf_fst_vbool _ _ _ _ _ rfl]
        exact goIfaceEq_symm _ _
      | vnum x2 =>
        simp only [mergeVals]
        rw [cnf_fst_vnum _ _ _ _ _ rfl]
        exact goIfaceEq_symm _ _
      | vstr s2 =>
        simp only [mergeVals]
        rw [cnf_fst_vstr _ _ _ _ _ rfl rfl]
        exact goIfaceEq_symm _ _
      | vmap l2 =>
        simp only [mergeVals]
        exact cnf_fst_vmap_nonmap _ _ l2 _ _ rfl (by intro l hh; cases hh)
      | vnan => simp [pmN] at hnb
      | vint n2 => simp [pmN] at hnb
      | vtime tm2 => simp [pmN] at hnb
      | vslice l2 => simp [pmN] at hnb
      | vsliceOther l2 => simp [pmN] at hnb
      | vmapOther l2 => simp [pmN] at hnb
      | vmarshaler j2 => simp [pmN] at hnb
      | vfunc e2 => simp [pmN] at hnb
    | vstr s1 =>
      simp only [pmNorm, pmShallow]
      cases nb with
      | vnull =>
        simp only [mergeVals]
        rw [cnf_fst_vnull _ _ _ _ rfl]
        exact goIfaceEq_symm _ _
      | vbool b2 =>
        simp only [mergeVals]
        rw [cnf_fst_vbool _ _ _ _ _ rfl]
        exact goIfaceEq_symm _ _
      | vnum x2 =>
        simp only [mergeVals]
        rw [cnf_fst_vnum _ _ _ _ _ rfl]
        exact goIfaceEq_symm _ _
      | vstr s2 =>
        simp only [mergeVals]
        rw [cnf_fst_vstr _ _ _ _ _ rfl rfl]
        exact goIfaceEq_symm _ _
      | vmap l2 =>
        simp only [mergeVals]
        exact cnf_fst_vmap_nonmap _ _ l2 _ _ rfl (by intro l hh; cases hh)
      | vnan => simp [pmN] at hnb
      | vint n2 => simp [pmN] at hnb
      | vtime tm2 => simp [pmN] at hnb
      | vslice l2 => simp [pmN] at hnb
      | vsliceOther l2 => simp [pmN] at hnb
      | vmapOther l2 => simp [pmN] at hnb
      | vmarshaler j2 => simp [pmN] at hnb
      | vfunc e2 => simp [pmN] at hnb
    | vmap l1 =>
      obtain ⟨hnd1, hpe1⟩ := Bool.and_eq_true_iff.mp
        (show (noDupKeys l1 && pmEntries l1) = true from hpm)
      have hgs : gsize (GoVal.vmap l1) = 1 + gsizeEntries l1 := rfl
      simp only [pmNorm, pmShallow]
      cases nb with
      | vnull =>
        simp only [mergeVals]
        rw [cnf_fst_vnull _ _ _ _ rfl]
        rfl
      | vbool b2 =>
        simp only [mergeVals]
        rw [cnf_fst_vbool _ _ _ _ _ rfl]
        rfl
      | vnum x2 =>
        simp only [mergeVals]
        rw [cnf_fst_vnum _ _ _ _ _ rfl]
        rfl
      | vstr s2 =>
        simp only [mergeVals]
        rw [cnf_fst_vstr _ _ _ _ _ rfl rfl]
        rfl
      | vmap l2 =>
        obtain ⟨hnd2, hpe2⟩ := Bool.and_eq_true_iff.mp
          (show (noDupKeys l2 && pmNEntries l2) = true from hnb)
        simp only [mergeVals]
        rw [show ncVal (.vmap (pmNormEntries l1)) (.vmap l2)
          = ncEntries (pmNormEntries l1) l2 from rfl]
        cases hnc : ncEntries (pmNormEntries l1) l2 with
        | true =>
          apply cnf_map_of_scan
          apply mapScan_complete
          intro kv hkv
          have hmem1 : (kv.1, kv.2) ∈ l1 := by
            rcases kv with ⟨x, y⟩
            exact hkv
          have hlk1 : lookupKey l1 kv.1 = some kv.2 :=
            lookupKey_self l1 kv.1 kv.2 hnd1 hmem1
          have hlkn : lookupKey (pmNormEntries l1) kv.1 = some (pmNorm kv.2) := by
            rw [pmNormEntries_lookup, hlk1]
            rfl
          have hpmv : pmVal kv.2 = true := pmEntries_mem l1 kv hpe1 hkv
          have hszv : gsize kv.2 < f := by
            have h1 := gsizeEntries_mem l1 kv hkv
            omega
          cases hlk2 : lookupKey l2 kv.1 with
          | some v2 =>
            refine ⟨mergeVals (pmNorm kv.2) v2, ?_, ?_⟩
            · rw [mergeEntries_lookup l2 (pmNormEntries l1) kv.1 hnd2]
              unfold mergedLookup
              rw [hlk2, hlkn]
            · intro t2
              have hv2pm : pmN v2 = true :=
                pmNEntries_mem l2 (kv.1, v2) hpe2 (lookupKey_mem l2 kv.1 v2 hlk2)
              rw [ih kv.2 v2 t2 hpmv hv2pm hszv]
              exact (ncEntries_iff (pmNormEntries l1) l2).mp hnc (kv.1, v2)
                (lookupKey_mem l2 kv.1 v2 hlk2) (pmNorm kv.2) hlkn
          | none =>
            refine ⟨pmNorm kv.2, ?_, ?_⟩
            · rw [mergeEntries_lookup l2 (pmNormEntries l1) kv.1 hnd2]
              unfold mergedLookup
              rw [hlk2, hlkn]
            · intro t2
              exact pmRefl f kv.2 t2 hpmv hszv
        | false =>
          apply cnf_map_false_of_scan
          intro hms
          have hsound := mapScan_sound _ _ _ _ hms
          have hcontr : ncEntries (pmNormEntries l1) l2 = true := by
            apply (ncEntries_iff _ _).mpr
            intro kv hkv w hw
            have hmap : (lookupKey l1 kv.1).map pmNorm = some w := by
              rw [← pmNormEntries_lookup]
              exact hw
            cases hlk1 : lookupKey l1 kv.1 with
            | none =>
              rw [hlk1] at hmap
              simp at hmap
            | some v1k =>
              rw [hlk1] at hmap
              simp only [Option.map] at hmap
              injection hmap with hw2
              have hmem1 : (kv.1, v1k) ∈ l1 := lookupKey_mem l1 kv.1 v1k hlk1
              obtain ⟨wm, hwm, t2, ht2⟩ := hsound (kv.1, v1k) hmem1
              have hlk2 : lookupKey l2 kv.1 = some kv.2 :=
                lookupKey_self l2 kv.1 kv.2 hnd2 (by
                  rcases kv with ⟨x, y⟩
                  exact hkv)
              rw [mergeEntries_lookup l2 (pmNormEntries l1) kv.1 hnd2] at hwm
              unfold mergedLookup at hwm
              rw [hlk2, hw] at hwm
              injection hwm with hwm2
              subst hwm2
              subst hw2
              have hpmv : pmVal v1k = true := pmEntries_mem l1 (kv.1, v1k) hpe1 hmem1
              have hv2pm : pmN kv.2 = true := pmNEntries_mem l2 kv hpe2 hkv
              have hszv : gsize v1k < f := by
                have h1 := gsizeEntries_mem l1 (kv.1, v1k) hmem1
                simp only at h1
                omega
              have heq := ih v1k kv.2 t2 hpmv hv2pm hszv
              rw [heq] at ht2
              exact ht2
          rw [hcontr] at hnc
          exact absurd hnc (by decide)
      | vnan => simp [pmN] at hnb
      | vint n2 => simp [pmN] at hnb
      | vtime tm2 => simp [pmN] at hnb
      | vslice l2 => simp [pmN] at hnb
      | vsliceOther l2 => simp [pmN] at hnb
      | vmapOther l2 => simp [pmN] at hnb
      | vmarshaler j2 => simp [pmN] at hnb
      | vfunc e2 => simp [pmN] at hnb
    | vnan => simp [pmVal] at hpm
    | vtime tm => simp [pmVal] at hpm
    | vslice l => simp [pmVal] at hpm
    | vsliceOther l => simp [pmVal] at hpm
    | vmapOther l => simp [pmVal] at hpm
    | vmarshaler j => simp [pmVal] at hpm
    | vfunc e => simp [pmVal] at hpm

/-- The conflict-freedom specification is symmetric on normalized
primitive-leaf values. -/
theorem ncVal_symm_aux : ∀ (n : Nat) (a b : GoVal), pmN a = true → pmN b = true →
    gsize a + gsize b ≤ n → ncVal a b = ncVal b a := by
  intro n
  induction n with
  | zero =>
    intro a b _ _ h
    have := gsize_pos a
    omega
  | succ n ih =>
    intro a b ha hb hsz
    cases a with
    | vnull =>
      cases b with
      | vnull => simp only [ncVal]
      | vbool b2 =>
        simp only [ncVal]
        exact goIfaceEq_symm _ _
      | vnum x2 =>
        simp only [ncVal]
        exact goIfaceEq_symm _ _
      | vstr s2 =>
        simp only [ncVal]
        exact goIfaceEq_symm _ _
      | vmap l2 => simp only [ncVal]
      | vnan => simp [pmN] at hb
      | vint n2 => simp [pmN] at hb
      | vtime tm2 => simp [pmN] at hb
      | vslice l2 => simp [pmN] at hb
      | vsliceOther l2 => simp [pmN] at hb
      | vmapOther l2 => simp [pmN] at hb
      | vmarshaler j2 => simp [pmN] at hb
      | vfunc e2 => simp [pmN] at hb
    | vbool b1 =>
      cases b with
      | vnull =>
        simp only [ncVal]
        exact goIfaceEq_symm _ _
      | vbool b2 =>
        simp only [ncVal]
        exact goIfaceEq_symm _ _
      | vnum x2 =>
        simp only [ncVal]
        exact goIfaceEq_symm _ _
      | vstr s2 =>
        simp only [ncVal]
        exact goIfaceEq_symm _ _
      | vmap l2 => simp only [ncVal]
      | vnan => simp [pmN] at hb
      | vint n2 => simp [pmN] at hb
      | vtime tm2 => simp [pmN] at hb
      | vslice l2 => simp [pmN] at hb
      | vsliceOther l2 => simp [pmN] at hb
      | vmapOther l2 => simp [pmN] at hb
      | vmarshaler j2 => simp [pmN] at hb
      | vfunc e2 => simp [pmN] at hb
    | vnum x1 =>
      cases b with
      | vnull =>
        simp only [ncVal]
        exact goIfaceEq_symm _ _
      | vbool b2 =>
        simp only [ncVal]
        exact goIfaceEq_symm _ _
      | vnum x2 =>
        simp only [ncVal]
        exact goIfaceEq_symm _ _
      | vstr s2 =>
        simp only [ncVal]
        exact goIfaceEq_symm _ _
      | vmap l2 => simp only [ncVal]
      | vnan => simp [pmN] at hb
      | vint n2 => simp [pmN] at hb
      | vtime tm2 => simp [pmN] at hb
      | vslice l2 => simp [pmN] at hb
      | vsliceOther l2 => simp [pmN] at hb
      | vmapOther l2 => simp [pmN] at hb
      | vmarshaler j2 => simp [pmN] at hb
      | vfunc e2 => simp [pmN] at hb
    | vstr s1 =>
      cases b with
      | vnull =>
        simp only [ncVal]
        exact goIfaceEq_symm _ _
      | vbool b2 =>
        simp only [ncVal]
        exact goIfaceEq_symm _ _
      | vnum x2 =>
        simp only [ncVal]
        exact goIfaceEq_symm _ _
      | vstr s2 =>
        simp only [ncVal]
        exact goIfaceEq_symm _ _
      | vmap l2 => simp only [ncVal]
      | vnan => simp [pmN] at hb
      | vint n2 => simp [pmN] at hb
      | vtime tm2 => simp [pmN] at hb
      | vslice l2 => simp [pmN] at hb
      | vsliceOther l2 => simp [pmN] at hb
      | vmapOther l2 => simp [pmN] at hb
      | vmarshaler j2 => simp [pmN] at hb
      | vfunc e2 => simp [pmN] at hb
    | vmap l1 =>
      cases b with
      | vnull => simp only [ncVal]
      | vbool b2 => simp only [ncVal]
      | vnum x2 => simp only [ncVal]
      | vstr s2 => simp only [ncVal]
      | vmap l2 =>
        obtain ⟨hnd1, hpe1⟩ := Bool.and_eq_true_iff.mp
          (show (noDupKeys l1 && pmNEntries l1) = true from ha)
        obtain ⟨hnd2, hpe2⟩ := Bool.and_eq_true_iff.mp
          (show (noDupKeys l2 && pmNEntries l2) = true from hb)
        have hszE : gsizeEntries l1 + gsizeEntries l2 ≤ n := by
          have e1 : gsize (GoVal.vmap l1) = 1 + gsizeEntries l1 := rfl
          have e2 : gsize (GoVal.vmap l2) = 1 + gsizeEntries l2 := rfl
          omega
        have key : ∀ (lx ly : List (String × GoVal)), noDupKeys lx = true →
            pmNEntries lx = true → pmNEntries ly = true →
            gsizeEntries lx + gsizeEntries ly ≤ n →
            ncEntries lx ly = true → ncEntries ly lx = true := by
          intro lx ly hndx hpex hpey hszxy hxy
          apply (ncEntries_iff ly lx).mpr
          intro kv hkv w hw
          have hmemy : (kv.1, w) ∈ ly := lookupKey_mem ly kv.1 w hw
          have hmemx : (kv.1, kv.2) ∈ lx := by
            rcases kv with ⟨x, y⟩
            exact hkv
          have hlkx : lookupKey lx kv.1 = some kv.2 :=
            lookupKey_self lx kv.1 kv.2 hndx hmemx
          have hthis := (ncEntries_iff lx ly).mp hxy (kv.1, w) hmemy kv.2 hlkx
          have hsmall : gsize kv.2 + gsize w ≤ n := by
            have e1 := gsizeEntries_mem lx kv hkv
            have e2 := gsizeEntries_mem ly (kv.1, w) hmemy
            simp only at e2
            omega
          rw [ih w kv.2 (pmNEntries_mem ly (kv.1, w) hpey hmemy)
            (pmNEntries_mem lx kv hpex hkv) (by omega)]
          exact hthis
        show ncEntries l1 l2 = ncEntries l2 l1
        cases h12 : ncEntries l1 l2 with
        | true =>
          rw [key l1 l2 hnd1 hpe1 hpe2 hszE h12]
        | false =>
          cases h21 : ncEntries l2 l1 with
          | false => rfl
          | true =>
            exfalso
            have hk := key l2 l1 hnd2 hpe2 hpe1 (by omega) h21
            rw [hk] at h12
            exact absurd h12 (by decide)
      | vnan => simp [pmN] at hb
      | vint n2 => simp [pmN] at hb
      | vtime tm2 => simp [pmN] at hb
      | vslice l2 => simp [pmN] at hb
      | vsliceOther l2 => simp [pmN] at hb
      | vmapOther l2 => simp [pmN] at hb
      | vmarshaler j2 => simp [pmN] at hb
      | vfunc e2 => simp [pmN] at hb
    | vnan => simp [pmN] at ha
    | vint n1 => simp [pmN] at ha
    | vtime tm => simp [pmN] at ha
    | vslice l => simp [pmN] at ha
    | vsliceOther l => simp [pmN] at ha
    | vmapOther l => simp [pmN] at ha
    | vmarshaler j => simp [pmN] at ha
    | vfunc e => simp [pmN] at ha

/-- C7, counterexample to the claim as stated: a NaN float is a primitive
scalar leaf, but `Conflicts` is not symmetric on maps holding one.  Merging
`{"a": NaN}` with `{}` returns `{"a": NaN}`, which does not contain itself
(NaN is unequal to itself under Go `==`), so `Conflicts` is true; in the
other order the merged map trivially contains the empty map, so `Conflicts`
is false. -/
theorem claim7_counterexample :
    Conflicts (.vmap [("a", .vnan)]) (.vmap []) = true
    ∧ Conflicts (.vmap []) (.vmap [("a", .vnan)]) = false :=
  ⟨by decide, by decide⟩

/-- C7 (amended): Conflicts is symmetric on string-keyed maps whose nested
values contain only maps and primitive scalars — no slices and no NaN
floats — with duplicate-free keys at every level. -/
theorem claim7_conflicts_symmetric (l1 l2 : List (String × GoVal))
    (h1 : pmVal (.vmap l1) = true) (h2 : pmVal (.vmap l2) = true) :
    Conflicts (.vmap l1) (.vmap l2) = Conflicts (.vmap l2) (.vmap l1) := by
  have hM12 : Merge (.vmap l1) (.vmap l2)
      = mergeVals (pmNorm (.vmap l1)) (pmNorm (.vmap l2)) := by
    show mergeVals (normalizeVal defaultNormOptions (.vmap l1)).1
      (normalizeVal defaultNormOptions (.vmap l2)).1 = _
    rw [pm_deep_norm _ h1, pm_deep_norm _ h2]
  have hM21 : Merge (.vmap l2) (.vmap l1)
      = mergeVals (pmNorm (.vmap l2)) (pmNorm (.vmap l1)) := by
    show mergeVals (normalizeVal defaultNormOptions (.vmap l2)).1
      (normalizeVal defaultNormOptions (.vmap l1)).1 = _
    rw [pm_deep_norm _ h1, pm_deep_norm _ h2]
  have e12 : Contains (Merge (.vmap l1) (.vmap l2)) (.vmap l1) []
      = ncVal (pmNorm (.vmap l1)) (pmNorm (.vmap l2)) := by
    show (containsF cctxDefault
      (containsFuel (Merge (.vmap l1) (.vmap l2)) (.vmap l1))
      (Merge (.vmap l1) (.vmap l2)) (.vmap l1) {}).1 = _
    rw [hM12]
    exact contains_merge_nc _ _ (pmNorm (.vmap l2)) {} h1 (pmNorm_pmN _ h2)
      (by
        unfold containsFuel
        have := gsize_pos (mergeVals (pmNorm (.vmap l1)) (pmNorm (.vmap l2)))
        omega)
  have e21 : Contains (Merge (.vmap l2) (.vmap l1)) (.vmap l2) []
      = ncVal (pmNorm (.vmap l2)) (pmNorm (.vmap l1)) := by
    show (containsF cctxDefault
      (containsFuel (Merge (.vmap l2) (.vmap l1)) (.vmap l2))
      (Merge (.vmap l2) (.vmap l1)) (.vmap l2) {}).1 = _
    rw [hM21]
    exact contains_merge_nc _ _ (pmNorm (.vmap l1)) {} h2 (pmNorm_pmN _ h1)
      (by
        unfold containsFuel
        have := gsize_pos (mergeVals (pmNorm (.vmap l2)) (pmNorm (.vmap l1)))
        omega)
  show (!Contains (Merge (.vmap l1) (.vmap l2)) (.vmap l1) [])
    = (!Contains (Merge (.vmap l2) (.vmap l1)) (.vmap l2) [])
  rw [e12, e21, ncVal_symm_aux
    (gsize (pmNorm (.vmap l1)) + gsize (pmNorm (.vmap l2)))
    (pmNorm (.vmap l1)) (pmNorm (.vmap l2))
    (pmNorm_pmN _ h1) (pmNorm_pmN _ h2) (le_refl _)]

/-- Witness: two overlapping primitive-leaf maps, with a genuine conflict at
key a, give the same symmetric Conflicts verdict. -/
theorem claim7_witness :
    pmVal (GoVal.vmap [("a", .vint 1), ("b", .vstr "x")]) = true
    ∧ pmVal (GoVal.vmap [("a", .vnum 2)]) = true
    ∧ Conflicts (GoVal.vmap [("a", .vint 1), ("b", .vstr "x")])
        (GoVal.vmap [("a", .vnum 2)])
      = Conflicts (GoVal.vmap [("a", .vnum 2)])
        (GoVal.vmap [("a", .vint 1), ("b", .vstr "x")]) :=
  ⟨by decide, by decide, claim7_conflicts_symmetric _ _ (by decide) (by decide)⟩

mutual

/-- `json.Unmarshal` allocates only fresh containers: every identity in the
decoded value lies in the consumed counter interval. -/
theorem jsonToValA_fresh : ∀ (j : Json) (c : Nat),
    c ≤ (jsonToValA j c).2
    ∧ (∀ i ∈ idsOf (jsonToValA j c).1, c ≤ i ∧ i < (jsonToValA j c).2)
  | .null, c => ⟨le_refl c, by intro i h; cases h⟩
  | .bool b, c => ⟨le_refl c, by intro i h; cases h⟩
  | .num x, c => ⟨le_refl c, by intro i h; cases h⟩
  | .str s, c => ⟨le_refl c, by intro i h; cases h⟩
  | .obj l, c => by
      have ih := jsonToValAEntries_fresh l (c + 1)
      rcases he : jsonToValAEntries l (c + 1) with ⟨nl, c2⟩
      rw [he] at ih
      simp only at ih
      obtain ⟨hc, hids⟩ := ih
      unfold jsonToValA
      rw [he]
      simp only []
      constructor
      · omega
      · intro i hi
        rcases List.mem_cons.mp (show i ∈ c :: idsOfEntries nl from hi) with h | h
        · subst h; omega
        · have := hids i h; omega
  | .arr l, c => by
      have ih := jsonToValAArr_fresh l (c + 1)
      rcases he : jsonToValAArr l (c + 1) with ⟨nl, c2⟩
      rw [he] at ih
      simp only at ih
      obtain ⟨hc, hids⟩ := ih
      unfold jsonToValA
      rw [he]
      simp only []
      constructor
      · omega
      · intro i hi
        rcases List.mem_cons.mp (show i ∈ c :: idsOfList nl from hi) with h | h
        · subst h; omega
        · have := hids i h; omega

theorem jsonToValAEntries_fresh : ∀ (l : List (String × Json)) (c : Nat),
    c ≤ (jsonToValAEntries l c).2
    ∧ (∀ i ∈ idsOfEntries (jsonToValAEntries l c).1, c ≤ i ∧ i < (jsonToValAEntries l c).2)
  | [], c => ⟨le_refl c, by intro i h; cases h⟩
  | (k, j) :: rest, c => by
      have ih1 := jsonToValA_fresh j c
      rcases h1 : jsonToValA j c with ⟨v, c2⟩
      rw [h1] at ih1
      simp only at ih1
      obtain ⟨hc1, hv⟩ := ih1
      have ih2 := jsonToValAEntries_fresh rest c2
      rcases h2 : jsonToValAEntries rest c2 with ⟨vs, c3⟩
      rw [h2] at ih2
      simp only at ih2
      obtain ⟨hc2, hvs⟩ := ih2
      unfold jsonToValAEntries
      rw [h1]
      simp only []
      rw [h2]
      simp only []
      constructor
      · omega
      · intro i hi
        rcases List.mem_append.mp (show i ∈ idsOf v ++ idsOfEntries vs from hi) with h | h
        · have := hv i h; omega
        · have := hvs i h; omega

theorem jsonToValAArr_fresh : ∀ (l : List Json) (c : Nat),
    c ≤ (jsonToValAArr l c).2
    ∧ (∀ i ∈ idsOfList (jsonToValAArr l c).1, c ≤ i ∧ i < (jsonToValAArr l c).2)
  | [], c => ⟨le_refl c, by intro i h; cases h⟩
  | j :: rest, c => by
      have ih1 := jsonToValA_fresh j c
      rcases h1 : jsonToValA j c with ⟨v, c2⟩
      rw [h1] at ih1
      simp only at ih1
      obtain ⟨hc1, hv⟩ := ih1
      have ih2 := jsonToValAArr_fresh rest c2
      rcases h2 : jsonToValAArr rest c2 with ⟨vs, c3⟩
      rw [h2] at ih2
      simp only at ih2
      obtain ⟨hc2, hvs⟩ := ih2
      unfold jsonToValAArr
      rw [h1]
      simp only []
      rw [h2]
      simp only []
      constructor
      · omega
      · intro i hi
        rcases List.mem_append.mp (show i ∈ idsOf v ++ idsOfList vs from hi) with h | h
        · have := hv i h; omega
        · have := hvs i h; omega

end

mutual

/-- Default (copy + marshal + deep) normalization allocates only fresh
containers: the counter is monotone, every container written into is fresh,
and on success every identity in the result is fresh.  This is the formal
content of "the normalized copy shares nothing with the input and the input
is not written into". -/
theorem normalizeValA_fresh : ∀ (v : ValA) (c : Nat),
    c ≤ (normalizeValA defaultNormOptions v c).2.2.2
    ∧ (∀ i ∈ (normalizeValA defaultNormOptions v c).2.2.1,
        c ≤ i ∧ i < (normalizeValA defaultNormOptions v c).2.2.2)
    ∧ ((normalizeValA defaultNormOptions v c).2.1 = none →
        ∀ i ∈ idsOf (normalizeValA defaultNormOptions v c).1,
          c ≤ i ∧ i < (normalizeValA defaultNormOptions v c).2.2.2)
  | .anull, c => ⟨le_refl c, ⟨(by intro i h; cases h), (by intro _ i h; cases h)⟩⟩
  | .abool b, c => ⟨le_refl c, ⟨(by intro i h; cases h), (by intro _ i h; cases h)⟩⟩
  | .anum x, c => ⟨le_refl c, ⟨(by intro i h; cases h), (by intro _ i h; cases h)⟩⟩
  | .aint n, c => ⟨le_refl c, ⟨(by intro i h; cases h), (by intro _ i h; cases h)⟩⟩
  | .astr s, c => ⟨le_refl c, ⟨(by intro i h; cases h), (by intro _ i h; cases h)⟩⟩
  | .atime t, c => ⟨le_refl c, ⟨(by intro i h; cases h), (by intro _ i h; cases h)⟩⟩
  | .afunc id emsg, c =>
      ⟨le_refl c, ⟨(by intro i h; cases h), (by intro h; cases h)⟩⟩
  | .amarshaler id j, c => by
      have ihj := jsonToValA_fresh j c
      rcases hj : jsonToValA j c with ⟨v, c2⟩
      rw [hj] at ihj
      simp only at ihj
      obtain ⟨hc, hv⟩ := ihj
      unfold normalizeValA slowNormalizeA
      simp only [show (defaultNormOptions.marshal = true) = True
        by simp [defaultNormOptions], if_true]
      rw [hj]
      simp only []
      exact ⟨hc, ⟨(by intro i h; cases h), fun _ i hi => hv i hi⟩⟩
  | .amap id l, c => by
      have ihe := normEntriesA_fresh l (c + 1)
      rcases he : normEntriesA defaultNormOptions l (c + 1) with ⟨pre, e, w, c2⟩
      rw [he] at ihe
      simp only at ihe
      obtain ⟨hc, hw, hids⟩ := ihe
      unfold normalizeValA
      simp only [show ((!defaultNormOptions.copy && !defaultNormOptions.deep) = true) = False
          by simp [defaultNormOptions], if_false,
        show (defaultNormOptions.deep = true) = True by simp [defaultNormOptions], if_true,
        show (defaultNormOptions.copy = true) = True by simp [defaultNormOptions], if_true]
      rw [he]
      simp only []
      cases e with
      | none =>
        simp only []
        refine ⟨by omega, ?_, ?_⟩
        · intro i hi
          rcases List.mem_cons.mp (show i ∈ c :: w from hi) with h | h
          · subst h; omega
          · have := hw i h; omega
        · intro _ i hi
          rcases List.mem_cons.mp (show i ∈ c :: idsOfEntries pre from hi) with h | h
          · subst h; omega
          · have := hids rfl i h; omega
      | some err =>
        simp only []
        refine ⟨by omega, ?_, ?_⟩
        · intro i hi
          rcases List.mem_cons.mp (show i ∈ c :: w from hi) with h | h
          · subst h; omega
          · have := hw i h; omega
        · intro h
          cases h
  | .aslice id l, c => by
      have ihe := normListA_fresh l (c + 1)
      rcases he : normListA defaultNormOptions l (c + 1) with ⟨pre, e, w, c2⟩
      rw [he] at ihe
      simp only at ihe
      obtain ⟨hc, hw, hids⟩ := ihe
      unfold normalizeValA
      simp only [show ((!defaultNormOptions.copy && !defaultNormOptions.deep) = true) = False
          by simp [defaultNormOptions], if_false,
        show (defaultNormOptions.deep = true) = True by simp [defaultNormOptions], if_true,
        show (defaultNormOptions.copy = true) = True by simp [defaultNormOptions], if_true]
      rw [he]
      simp only []
      cases e with
      | none =>
        simp only []
        refine ⟨by omega, ?_, ?_⟩
        · intro i hi
          rcases List.mem_cons.mp (show i ∈ c :: w from hi) with h | h
          · subst h; omega
          · have := hw i h; omega
        · intro _ i hi
          rcases List.mem_cons.mp (show i ∈ c :: idsOfList pre from hi) with h | h
          · subst h; omega
          · have := hids rfl i h; omega
      | some err =>
        simp only []
        refine ⟨by omega, ?_, ?_⟩
        · intro i hi
          rcases List.mem_cons.mp (show i ∈ c :: w from hi) with h | h
          · subst h; omega
          · have := hw i h; omega
        · intro h
          cases h
  | .amapOther id l, c => by
      have ihe := normEntriesA_fresh l (c + 1)
      rcases he : normEntriesA defaultNormOptions l (c + 1) with ⟨pre, e, w, c2⟩
      rw [he] at ihe
      simp only at ihe
      obtain ⟨hc, hw, hids⟩ := ihe
      unfold normalizeValA
      simp only [show (defaultNormOptions.deep = true) = True
        by simp [defaultNormOptions], if_true]
      rw [he]
      simp only []
      cases e with
      | none =>
        simp only []
        refine ⟨by omega, ?_, ?_⟩
        · intro i hi
          rcases List.mem_cons.mp (show i ∈ c :: w from hi) with h | h
          · subst h; omega
          · have := hw i h; omega
        · intro _ i hi
          rcases List.mem_cons.mp (show i ∈ c :: idsOfEntries pre from hi) with h | h
          · subst h; omega
          · have := hids rfl i h; omega
      | some err =>
        simp only []
        refine ⟨by omega, ?_, ?_⟩
        · intro i hi
          rcases List.mem_cons.mp (show i ∈ c :: w from hi) with h | h
          · subst h; omega
          · have := hw i h; omega
        · intro h
          cases h
  | .asliceOther id l, c => by
      have ihe := normListA_fresh l (c + 1)
      rcases he : normListA defaultNormOptions l (c + 1) with ⟨pre, e, w, c2⟩
      rw [he] at ihe
      simp only at ihe
      obtain ⟨hc, hw, hids⟩ := ihe
      unfold normalizeValA
      simp only [show (defaultNormOptions.deep = true) = True
        by simp [defaultNormOptions], if_true]
      rw [he]
      simp only []
      cases e with
      | none =>
        simp only []
        refine ⟨by omega, ?_, ?_⟩
        · intro i hi
          rcases List.mem_cons.mp (show i ∈ c :: w from hi) with h | h
          · subst h; omega
          · have := hw i h; omega
        · intro _ i hi
          rcases List.mem_cons.mp (show i ∈ c :: idsOfList pre from hi) with h | h
          · subst h; omega
          · have := hids rfl i h; omega
      | some err =>
        simp only []
        refine ⟨by omega, ?_, ?_⟩
        · intro i hi
          rcases List.mem_cons.mp (show i ∈ c :: w from hi) with h | h
          · subst h; omega
          · have := hw i h; omega
        · intro h
          cases h

theorem normEntriesA_fresh : ∀ (l : List (String × ValA)) (c : Nat),
    c ≤ (normEntriesA defaultNormOptions l c).2.2.2
    ∧ (∀ i ∈ (normEntriesA defaultNormOptions l c).2.2.1,
        c ≤ i ∧ i < (normEntriesA defaultNormOptions l c).2.2.2)
    ∧ ((normEntriesA defaultNormOptions l c).2.1 = none →
        ∀ i ∈ idsOfEntries (normEntriesA defaultNormOptions l c).1,
          c ≤ i ∧ i < (normEntriesA defaultNormOptions l c).2.2.2)
  | [], c => ⟨le_refl c, ⟨(by intro i h; cases h), (by intro _ i h; cases h)⟩⟩
  | (k, v) :: rest, c => by
      have ih1 := normalizeValA_fresh v c
      rcases h1 : normalizeValA defaultNormOptions v c with ⟨nv, e, w, c2⟩
      rw [h1] at ih1
      simp only at ih1
      obtain ⟨hc1, hw1, hids1⟩ := ih1
      unfold normEntriesA
      rw [h1]
      simp only []
      cases e with
      | some err =>
        simp only []
        exact ⟨hc1, ⟨fun i hi => hw1 i hi, (by intro h; cases h)⟩⟩
      | none =>
        have ih2 := normEntriesA_fresh rest c2
        rcases h2 : normEntriesA defaultNormOptions rest c2 with ⟨nrest, e2, w2, c3⟩
        rw [h2] at ih2
        simp only at ih2
        obtain ⟨hc2, hw2, hids2⟩ := ih2
        simp only []
        try rw [h2]
        refine ⟨by omega, ?_, ?_⟩
        · intro i hi
          rcases List.mem_append.mp (show i ∈ w ++ w2 from hi) with h | h
          · have := hw1 i h; omega
          · have := hw2 i h; omega
        · intro he2 i hi
          rcases List.mem_append.mp (show i ∈ idsOf nv ++ idsOfEntries nrest from hi) with h | h
          · have := hids1 rfl i h; omega
          · have := hids2 he2 i h; omega

theorem normListA_fresh : ∀ (l : List ValA) (c : Nat),
    c ≤ (normListA defaultNormOptions l c).2.2.2
    ∧ (∀ i ∈ (normListA defaultNormOptions l c).2.2.1,
        c ≤ i ∧ i < (normListA defaultNormOptions l c).2.2.2)
    ∧ ((normListA defaultNormOptions l c).2.1 = none →
        ∀ i ∈ idsOfList (normListA defaultNormOptions l c).1,
          c ≤ i ∧ i < (normListA defaultNormOptions l c).2.2.2)
  | [], c => ⟨le_refl c, ⟨(by intro i h; cases h), (by intro _ i h; cases h)⟩⟩
  | v :: rest, c => by
      have ih1 := normalizeValA_fresh v c
      rcases h1 : normalizeValA defaultNormOptions v c with ⟨nv, e, w, c2⟩
      rw [h1] at ih1
      simp only at ih1
      obtain ⟨hc1, hw1, hids1⟩ := ih1
      unfold normListA
      rw [h1]
      simp only []
      cases e with
      | some err =>
        simp only []
        exact ⟨hc1, ⟨fun i hi => hw1 i hi, (by intro h; cases h)⟩⟩
      | none =>
        have ih2 := normListA_fresh rest c2
        rcases h2 : normListA defaultNormOptions rest c2 with ⟨nrest, e2, w2, c3⟩
        rw [h2] at ih2
        simp only at ih2
        obtain ⟨hc2, hw2, hids2⟩ := ih2
        simp only []
        try rw [h2]
        refine ⟨by omega, ?_, ?_⟩
        · intro i hi
          rcases List.mem_append.mp (show i ∈ w ++ w2 from hi) with h | h
          · have := hw1 i h; omega
          · have := hw2 i h; omega
        · intro he2 i hi
          rcases List.mem_append.mp (show i ∈ idsOf nv ++ idsOfList nrest from hi) with h | h
          · have := hids1 rfl i h; omega
          · have := hids2 he2 i h; omega

end

theorem lookupKeyA_ids : ∀ (l : List (String × ValA)) (k : String) (x : ValA),
    lookupKeyA l k = some x → ∀ i ∈ idsOf x, i ∈ idsOfEntries l
  | [], k, x, h => by cases h
  | (k1, v) :: rest, k, x, h => by
      unfold lookupKeyA at h
      by_cases hk : (k1 == k) = true
      · rw [if_pos hk] at h
        injection h with h2
        intro i hi
        show i ∈ idsOf v ++ idsOfEntries rest
        refine List.mem_append.mpr (Or.inl ?_)
        rw [h2]
        exact hi
      · rw [if_neg hk] at h
        intro i hi
        show i ∈ idsOf v ++ idsOfEntries rest
        exact List.mem_append.mpr (Or.inr (lookupKeyA_ids rest k x h i hi))

theorem setEntryA_ids : ∀ (l : List (String × ValA)) (k : String) (v : ValA) (i : Nat),
    i ∈ idsOfEntries (setEntryA l k v) → i ∈ idsOfEntries l ∨ i ∈ idsOf v
  | [], k, v, i, h => by
      rcases List.mem_append.mp
        (show i ∈ idsOf v ++ idsOfEntries [] from h) with h2 | h2
      · exact Or.inr h2
      · cases h2
  | (k1, v1) :: rest, k, v, i, h => by
      unfold setEntryA at h
      by_cases hk : (k1 == k) = true
      · rw [if_pos hk] at h
        rcases List.mem_append.mp
          (show i ∈ idsOf v ++ idsOfEntries rest from h) with h2 | h2
        · exact Or.inr h2
        · refine Or.inl ?_
          show i ∈ idsOf v1 ++ idsOfEntries rest
          exact List.mem_append.mpr (Or.inr h2)
      · rw [if_neg hk] at h
        rcases List.mem_append.mp
          (show i ∈ idsOf v1 ++ idsOfEntries (setEntryA rest k v) from h) with h2 | h2
        · refine Or.inl ?_
          show i ∈ idsOf v1 ++ idsOfEntries rest
          exact List.mem_append.mpr (Or.inl h2)
        · rcases setEntryA_ids rest k v i h2 with h3 | h3
          · refine Or.inl ?_
            show i ∈ idsOf v1 ++ idsOfEntries rest
            exact List.mem_append.mpr (Or.inr h3)
          · exact Or.inr h3

theorem idsOfList_append : ∀ (x y : List ValA),
    idsOfList (x ++ y) = idsOfList x ++ idsOfList y
  | [], y => rfl
  | v :: rest, y => by
      show idsOf v ++ idsOfList (rest ++ y) = (idsOf v ++ idsOfList rest) ++ idsOfList y
      rw [idsOfList_append rest y, List.append_assoc]

theorem idsOfList_filter : ∀ (l : List ValA) (p : ValA → Bool) (i : Nat),
    i ∈ idsOfList (l.filter p) → i ∈ idsOfList l
  | [], p, i, h => by cases h
  | v :: rest, p, i, h => by
      rw [List.filter_cons] at h
      by_cases hp : p v = true
      · rw [if_pos hp] at h
        rcases List.mem_append.mp
          (show i ∈ idsOf v ++ idsOfList (rest.filter p) from h) with h2 | h2
        · exact List.mem_append.mpr (Or.inl h2)
        · exact List.mem_append.mpr (Or.inr (idsOfList_filter rest p i h2))
      · rw [if_neg hp] at h
        exact List.mem_append.mpr (Or.inr (idsOfList_filter rest p i h))

mutual

/-- The merge walk neither allocates nor reaches outside its operands: every
identity in the merged value, and every identity it writes into, comes from
one of the two operands. -/
theorem mergeValsA_ids : ∀ (b a : ValA),
    (∀ i, i ∈ idsOf (mergeValsA a b).1 → i ∈ idsOf a ∨ i ∈ idsOf b)
    ∧ (∀ i, i ∈ (mergeValsA a b).2 → i ∈ idsOf a ∨ i ∈ idsOf b)
  | .amap id2 l2, a => by
      cases a
      case amap id1 l1 =>
        have ih := mergeEntriesA_ids l2 l1
        rcases hm : mergeEntriesA l1 l2 with ⟨nl, w⟩
        rw [hm] at ih
        simp only at ih
        obtain ⟨hres, hw⟩ := ih
        unfold mergeValsA
        rw [hm]
        simp only []
        constructor
        · intro i hi
          rcases List.mem_cons.mp (show i ∈ id1 :: idsOfEntries nl from hi) with h | h
          · subst h
            exact Or.inl (List.mem_cons_self _ _)
          · rcases hres i h with h2 | h2
            · exact Or.inl (List.mem_cons_of_mem _ h2)
            · exact Or.inr (List.mem_cons_of_mem _ h2)
        · intro i hi
          rcases List.mem_cons.mp (show i ∈ id1 :: w from hi) with h | h
          · subst h
            exact Or.inl (List.mem_cons_self _ _)
          · rcases hw i h with h2 | h2
            · exact Or.inl (List.mem_cons_of_mem _ h2)
            · exact Or.inr (List.mem_cons_of_mem _ h2)
      all_goals exact ⟨fun i hi => Or.inr hi, fun i hi => by cases hi⟩
  | .aslice id2 l2, a => by
      cases a
      case aslice id1 l1 =>
        unfold mergeValsA
        constructor
        · intro i hi
          rcases List.mem_cons.mp
            (show i ∈ id1 :: idsOfList (l1 ++ l2.filter
              (fun value => !sliceContainsA l1 value)) from hi) with h | h
          · subst h
            exact Or.inl (List.mem_cons_self _ _)
          · rw [idsOfList_append] at h
            rcases List.mem_append.mp h with h2 | h2
            · exact Or.inl (List.mem_cons_of_mem _ h2)
            · exact Or.inr (List.mem_cons_of_mem _ (idsOfList_filter l2 _ i h2))
        · intro i hi
          rcases List.mem_cons.mp (show i ∈ [id1] from hi) with h | h
          · subst h
            exact Or.inl (List.mem_cons_self _ _)
          · cases h
      all_goals exact ⟨fun i hi => Or.inr hi, fun i hi => by cases hi⟩
  | .anull, a => by
      cases a <;> exact ⟨fun i hi => Or.inr hi, fun i hi => by cases hi⟩
  | .abool b2, a => by
      cases a <;> exact ⟨fun i hi => Or.inr hi, fun i hi => by cases hi⟩
  | .anum x2, a => by
      cases a <;> exact ⟨fun i hi => Or.inr hi, fun i hi => by cases hi⟩
  | .aint n2, a => by
      cases a <;> exact ⟨fun i hi => Or.inr hi, fun i hi => by cases hi⟩
  | .astr s2, a => by
      cases a <;> exact ⟨fun i hi => Or.inr hi, fun i hi => by cases hi⟩
  | .atime t2, a => by
      cases a <;> exact ⟨fun i hi => Or.inr hi, fun i hi => by cases hi⟩
  | .amapOther id2 l2, a => by
      cases a <;> exact ⟨fun i hi => Or.inr hi, fun i hi => by cases hi⟩
  | .asliceOther id2 l2, a => by
      cases a <;> exact ⟨fun i hi => Or.inr hi, fun i hi => by cases hi⟩
  | .amarshaler id2 j2, a => by
      cases a <;> exact ⟨fun i hi => Or.inr hi, fun i hi => by cases hi⟩
  | .afunc id2 e2, a => by
      cases a <;> exact ⟨fun i hi => Or.inr hi, fun i hi => by cases hi⟩

theorem mergeEntriesA_ids : ∀ (l2 l1 : List (String × ValA)),
    (∀ i, i ∈ idsOfEntries (mergeEntriesA l1 l2).1 →
      i ∈ idsOfEntries l1 ∨ i ∈ idsOfEntries l2)
    ∧ (∀ i, i ∈ (mergeEntriesA l1 l2).2 →
      i ∈ idsOfEntries l1 ∨ i ∈ idsOfEntries l2)
  | [], l1 => ⟨fun i hi => Or.inl hi, fun i hi => by cases hi⟩
  | (k, v) :: rest, l1 => by
      have hcur : ∀ i2 ∈ idsOf (match lookupKeyA l1 k with
          | some x => x
          | none => ValA.anull), i2 ∈ idsOfEntries l1 := by
        cases hlk : lookupKeyA l1 k with
        | none => intro i2 h2; cases h2
        | some x =>
          intro i2 h2
          exact lookupKeyA_ids l1 k x hlk i2 h2
      have ihm := mergeValsA_ids v (match lookupKeyA l1 k with
          | some x => x
          | none => ValA.anull)
      rcases hmv : mergeValsA (match lookupKeyA l1 k with
          | some x => x
          | none => ValA.anull) v with ⟨mv, w⟩
      rw [hmv] at ihm
      simp only at ihm
      obtain ⟨hmv1, hmv2⟩ := ihm
      have ihr := mergeEntriesA_ids rest (setEntryA l1 k mv)
      rcases hr : mergeEntriesA (setEntryA l1 k mv) rest with ⟨nl, w2⟩
      rw [hr] at ihr
      simp only at ihr
      obtain ⟨hr1, hr2⟩ := ihr
      unfold mergeEntriesA
      simp only []
      rw [hmv]
      simp only []
      rw [hr]
      have hstep : ∀ i2, i2 ∈ idsOfEntries (setEntryA l1 k mv) →
          i2 ∈ idsOfEntries l1 ∨ (i2 ∈ idsOf v ∨ i2 ∈ idsOfEntries rest) := by
        intro i2 h2
        rcases setEntryA_ids l1 k mv i2 h2 with h3 | h3
        · exact Or.inl h3
        · rcases hmv1 i2 h3 with h4 | h4
          · exact Or.inl (hcur i2 h4)
          · exact Or.inr (Or.inl h4)
      constructor
      · intro i hi
        rcases hr1 i hi with h2 | h2
        · rcases hstep i h2 with h3 | h3
          · exact Or.inl h3
          · refine Or.inr ?_
            show i ∈ idsOf v ++ idsOfEntries rest
            exact List.mem_append.mpr h3
        · refine Or.inr ?_
          show i ∈ idsOf v ++ idsOfEntries rest
          exact List.mem_append.mpr (Or.inr h2)
      · intro i hi
        rcases List.mem_append.mp (show i ∈ w ++ w2 from hi) with h2 | h2
        · rcases hmv2 i h2 with h3 | h3
          · exact Or.inl (hcur i h3)
          · refine Or.inr ?_
            show i ∈ idsOf v ++ idsOfEntries rest
            exact List.mem_append.mpr (Or.inl h3)
        · rcases hr2 i h2 with h3 | h3
          · rcases hstep i h3 with h4 | h4
            · exact Or.inl h4
            · refine Or.inr ?_
              show i ∈ idsOf v ++ idsOfEntries rest
              exact List.mem_append.mpr h4
          · refine Or.inr ?_
            show i ∈ idsOf v ++ idsOfEntries rest
            exact List.mem_append.mpr (Or.inr h3)

end

/-- C6, counterexample to the claim as stated: `Merge` ignores normalization
errors, and a failed deep normalization of a reflective map returns a
partial value whose unprocessed suffix still holds the raw child containers
of the input.  Merging such a value gives a result that shares the child
map container (identity 2, allocated before the call: every input identity
is below the counter 10) with the first input, refuting "the returned tree
shares no map or slice containers with either input". -/
theorem claim6_counterexample :
    (2 ∈ idsOf (.amapOther 0 [("a", .afunc 1 "boom"), ("b", .amap 2 [])] : ValA))
    ∧ (∀ i ∈ idsOf (.amapOther 0 [("a", .afunc 1 "boom"), ("b", .amap 2 [])] : ValA),
        i < 10)
    ∧ (∀ i ∈ idsOf (.amap 3 [] : ValA), i < 10)
    ∧ 2 ∈ idsOf (MergeA (.amapOther 0 [("a", .afunc 1 "boom"), ("b", .amap 2 [])])
        (.amap 3 []) 10).1 :=
  ⟨by decide, by decide, by decide, by decide⟩

/-- C6 (amended): when the deep normalizations of both inputs succeed,
`Merge` neither mutates its inputs nor shares containers with them: in the
allocation-instrumented model, with every input identity below the free
counter `c0`, every container the whole call writes into is fresh (so no
input container is written, i.e. the inputs are unchanged) and every
container of the returned tree is fresh (so the result shares no map or
slice container with either input). -/
theorem claim6_merge_frame (v1 v2 : ValA) (c0 : Nat)
    (h1 : ∀ i ∈ idsOf v1, i < c0) (h2 : ∀ i ∈ idsOf v2, i < c0)
    (e1 : (normalizeValA defaultNormOptions v1 c0).2.1 = none)
    (e2 : (normalizeValA defaultNormOptions v2
      (normalizeValA defaultNormOptions v1 c0).2.2.2).2.1 = none) :
    (∀ i ∈ idsOf (MergeA v1 v2 c0).1, ¬(i ∈ idsOf v1) ∧ ¬(i ∈ idsOf v2))
    ∧ (∀ i ∈ (MergeA v1 v2 c0).2.1, ¬(i ∈ idsOf v1) ∧ ¬(i ∈ idsOf v2)) := by
  have f1 := normalizeValA_fresh v1 c0
  rcases hn1 : normalizeValA defaultNormOptions v1 c0 with ⟨n1, e1x, w1, c1⟩
  rw [hn1] at f1 e1 e2
  simp only at f1 e1 e2
  obtain ⟨hc1, hw1, hids1⟩ := f1
  have f2 := normalizeValA_fresh v2 c1
  rcases hn2 : normalizeValA defaultNormOptions v2 c1 with ⟨n2, e2x, w2, c2⟩
  rw [hn2] at f2 e2
  simp only at f2 e2
  obtain ⟨hc2, hw2, hids2⟩ := f2
  have fm := mergeValsA_ids n2 n1
  rcases hm : mergeValsA n1 n2 with ⟨r, w3⟩
  rw [hm] at fm
  simp only at fm
  obtain ⟨fr, fw⟩ := fm
  have hMergeA : MergeA v1 v2 c0 = (r, w1 ++ w2 ++ w3, c2) := by
    unfold MergeA
    simp only [show ({ copy := true, marshal := true, deep := true } : NormalizeOptions)
      = defaultNormOptions from rfl]
    rw [hn1]
    simp only []
    rw [hn2]
    simp only []
    rw [hm]
  rw [hMergeA]
  have hn1fresh : ∀ i ∈ idsOf n1, c0 ≤ i := fun i hi => (hids1 e1 i hi).1
  have hn2fresh : ∀ i ∈ idsOf n2, c0 ≤ i := fun i hi => le_trans hc1 (hids2 e2 i hi).1
  have hfresh : ∀ i : Nat, c0 ≤ i → ¬(i ∈ idsOf v1) ∧ ¬(i ∈ idsOf v2) := by
    intro i hge
    constructor
    · intro hmem
      have := h1 i hmem
      omega
    · intro hmem
      have := h2 i hmem
      omega
  constructor
  · intro i hi
    rcases fr i hi with h | h
    · exact hfresh i (hn1fresh i h)
    · exact hfresh i (hn2fresh i h)
  · intro i hi
    rcases List.mem_append.mp hi with h | h
    · rcases List.mem_append.mp h with hA | hB
      · exact hfresh i (hw1 i hA).1
      · exact hfresh i (le_trans hc1 (hw2 i hB).1)
    · rcases fw i h with hA | hB
      · exact hfresh i (hn1fresh i hA)
      · exact hfresh i (hn2fresh i hB)

/-- C6 witness: merging two disjoint fresh maps; the theorem applied at the
result map container (identity 5, the first fresh identity) shows it belongs
to neither input. -/
theorem claim6_witness :
    ¬(5 ∈ idsOf (.amap 0 [("a", .aint 1)] : ValA))
    ∧ ¬(5 ∈ idsOf (.amap 1 [("b", .astr "x")] : ValA)) :=
  (claim6_merge_frame (.amap 0 [("a", .aint 1)]) (.amap 1 [("b", .astr "x")]) 5
    (by decide) (by decide) (by decide) (by decide)).1 5 (by decide)
